import Mathlib

/-!
# delete-s3-versions: the version-retention engine

A shallow embedding of `versions/delete_versions.go` (package `versions`) and of the
in-memory S3 fake of `versions/s3_mock_test.go`, followed by theorems about them.

Conventions of the embedding

* A Go `map[string][]*fileVersion` is an association list with pairwise distinct keys
  (`FileVersions`); a `range` over the map visits the entries in list order, which is one
  of the orders Go may choose.
* `time.Time` is an integer instant; `a.After(b)` is `a > b`.
* Go `int` values that only count elements of slices are unbounded integers; the `int64`
  accumulator `spaceRecovered` wraps modulo `2 ^ 64`.
* `sort.Slice` is a parameter: any function returning a permutation of its input in which
  no later element is `less` than an earlier one (`SliceSorter`). Where a property depends
  on what `sort.Slice` does to a slice that is already in order, the sort is also taken to
  leave such a slice as it is (`LeavesSorted`).
* `log.Printf` lines are recorded as structured `LogLine` values (the format arguments); a
  byte count printed as `humanize.Bytes(uint64(x))` is recorded as the value `uint64(x)`.
* The interface `s3api.S3API` is a parameter: five operations over a service state `σ`,
  each returning its answer and the next state (`S3API`). A run threads the service state,
  the trace of calls with their answers and the log (`Run`).
* The loop of `getFileVersions` ends when the service says so; it is given a budget of
  listing calls and yields `Outcome.running` when the budget is used up. The loop of
  `deleteS3Versions` is given the budget `len(versionsToDelete)`, which it never uses up.
* Pointer fields of SDK responses that the package dereferences are taken to be non-nil.
* `config.Config` is given the field `BucketPrefix` that `delete_versions.go` reads.
-/

namespace DeleteS3Versions

/-! ## Data model -/

/-- The record `fileVersion`: one entry of the history of an object key. -/
structure fileVersion where
  Key : String
  VersionID : String
  IsLatest : Bool
  LastModified : Int
  Size : Int
  IsDeleteMarker : Bool
deriving DecidableEq, Repr

/-- The SDK type `s3.ObjectIdentifier`: a purge target. -/
structure ObjectIdentifier where
  Key : String
  VersionId : String
deriving DecidableEq, Repr

/-- The Go type `map[string][]*fileVersion`, as an association list. -/
abbrev FileVersions := List (String × List fileVersion)

/-- The arguments of the `log.Printf` and `log.Println` calls of the package. A byte count
that is printed as `humanize.Bytes(uint64(x))` is recorded as the value `uint64(x)`. -/
inductive LogLine where
  | listAllBuckets
  | foundBuckets (buckets : List String)
  | foundVersionedBuckets (buckets : List String)
  | getFileVersions (bucket : String) (bucketPrefix : String)
  | gotPage (pageVersionCount : Int) (pageNumber : Int)
  | summary (versionCount : Int) (files : Int)
  | versionsToDeleteFor (key : String) (count : Int)
  | versionLine (versionID : String) (bytes : Int)
  | totalSpace (bucket : String) (bytes : Int)
  | totalVersions (bucket : String) (count : Int)
  | deleting (count : Int) (bucket : String) (bucketPrefix : String)
  | deleted (count : Int)
deriving DecidableEq, Repr

/-- Two's complement wrap-around of a Go `int64`. -/
def wrapInt64 (x : Int) : Int := (x + 2 ^ 63) % 2 ^ 64 - 2 ^ 63

/-- The conversion `uint64(x)` of a Go `int64`. -/
def toUint64 (x : Int) : Int := x % 2 ^ 64

/-- The comparison handed to `sort.Slice`:
`versions[i].LastModified.After(versions[j].LastModified)`. -/
def lessVersion (a b : fileVersion) : Bool := decide (a.LastModified > b.LastModified)

/-- The contract of `sort.Slice` with the comparison `lessVersion`: the result is a
rearrangement of the slice in which no element is `less` than one placed before it.
Nothing is promised about the relative order of records with equal `LastModified`. -/
structure SliceSorter where
  sort : List fileVersion → List fileVersion
  perm : ∀ l, List.Perm (sort l) l
  sorted : ∀ l, List.Pairwise (fun a b => lessVersion b a = false) (sort l)

/-- Insertion of one record into a list sorted by descending `LastModified`. -/
def orderedInsert (v : fileVersion) : List fileVersion → List fileVersion
  | [] => [v]
  | w :: rest => if lessVersion w v then w :: orderedInsert v rest else v :: w :: rest

/-- Insertion sort by descending `LastModified`. -/
def insertionSort : List fileVersion → List fileVersion
  | [] => []
  | v :: rest => orderedInsert v (insertionSort rest)

/-! ## Retention evaluator -/

/-- The function `ignoreFilesWithFewerVersions`: every key whose slice has at most
`versionsCount` records is deleted from the map. -/
def ignoreFilesWithFewerVersions (fileVersions : FileVersions) (versionsCount : Int) :
    FileVersions :=
  fileVersions.filter (fun entry => !decide ((entry.2.length : Int) ≤ versionsCount))

/-- The variables live in the loops of `computeAndPrintVersionsInfo`. -/
structure WalkState where
  versionCount : Int
  spaceRecovered : Int
  versionsToDelete : List ObjectIdentifier
  log : List LogLine
deriving DecidableEq, Repr

/-- One iteration of the inner loop `for _, version := range versions`. -/
def walkStep (versionsCount : Int) (st : WalkState) (version : fileVersion) : WalkState :=
  let st1 : WalkState :=
    if st.versionCount ≥ versionsCount then
      { st with
        log := st.log ++ [LogLine.versionLine version.VersionID (toUint64 version.Size)]
        spaceRecovered := wrapInt64 (st.spaceRecovered + version.Size)
        versionsToDelete :=
          st.versionsToDelete ++ [{ Key := version.Key, VersionId := version.VersionID }] }
    else st
  if !version.IsDeleteMarker then { st1 with versionCount := st1.versionCount + 1 } else st1

/-- The result of `computeAndPrintVersionsInfo`: the returned slice, and what the function
leaves behind: the map with every slice sorted in place, the final value of the local
`int64` accumulator `spaceRecovered`, and the log, whose line for the total prints that
value as `uint64`. -/
structure VersionsInfo where
  fileVersions : FileVersions
  spaceRecovered : Int
  versionsToDelete : List ObjectIdentifier
  log : List LogLine
deriving DecidableEq, Repr

/-- One iteration of the outer loop `for key, versions := range fileVersions`. -/
def keyStep (S : SliceSorter) (versionsCount : Int) (acc : VersionsInfo)
    (entry : String × List fileVersion) : VersionsInfo :=
  let versions := S.sort entry.2
  let st := versions.foldl (walkStep versionsCount)
    { versionCount := 0
      spaceRecovered := acc.spaceRecovered
      versionsToDelete := acc.versionsToDelete
      log := acc.log ++
        [LogLine.versionsToDeleteFor entry.1 (wrapInt64 ((versions.length : Int) - versionsCount))] }
  { fileVersions := acc.fileVersions ++ [(entry.1, versions)]
    spaceRecovered := st.spaceRecovered
    versionsToDelete := st.versionsToDelete
    log := st.log }

/-- The method `computeAndPrintVersionsInfo`. -/
def computeAndPrintVersionsInfo (S : SliceSorter) (versionsCount : Int) (bucket : String)
    (fileVersions : FileVersions) : VersionsInfo :=
  let acc := fileVersions.foldl (keyStep S versionsCount)
    { fileVersions := [], spaceRecovered := 0, versionsToDelete := [], log := [] }
  { acc with
    log := acc.log ++
      [LogLine.totalSpace bucket (toUint64 acc.spaceRecovered),
       LogLine.totalVersions bucket acc.versionsToDelete.length] }

/-- The retention evaluator as `findAndRemoveVersions` runs it: the threshold filter, then
`computeAndPrintVersionsInfo`. -/
def evaluate (S : SliceSorter) (versionsCount : Int) (bucket : String)
    (fileVersions : FileVersions) : VersionsInfo :=
  computeAndPrintVersionsInfo S versionsCount bucket
    (ignoreFilesWithFewerVersions fileVersions versionsCount)

/-! ## The remote service and the run state -/

/-- Go `error` values as the package tells them apart: values that implement
`awserr.Error` (with its `Code()`), and all others, among them those of `fmt.Errorf`. -/
inductive GoError where
  | aws (code : String) (message : String)
  | other (message : String)
deriving DecidableEq, Repr

/-- The SDK type `s3.ObjectVersion`, with the fields `appendFileVersions` reads. -/
structure ObjectVersion where
  Key : String
  VersionId : String
  IsLatest : Bool
  LastModified : Int
  Size : Int
deriving DecidableEq, Repr

/-- The SDK type `s3.DeleteMarkerEntry`, with the fields `appendDeleteMarkers` reads. -/
structure DeleteMarkerEntry where
  Key : String
  VersionId : String
  IsLatest : Bool
  LastModified : Int
deriving DecidableEq, Repr

/-- The SDK type `s3.ListObjectVersionsInput`, with the fields `getFileVersions` sets. -/
structure ListObjectVersionsInput where
  Bucket : String
  Prefix : String
  KeyMarker : Option String
  MaxKeys : Int
deriving DecidableEq, Repr

/-- The SDK type `s3.ListObjectVersionsOutput`, with the fields `getFileVersions` reads. -/
structure ListObjectVersionsOutput where
  Versions : List ObjectVersion
  DeleteMarkers : List DeleteMarkerEntry
  NextKeyMarker : Option String
deriving DecidableEq, Repr

/-- The SDK type `s3.DeleteObjectsInput`: the bucket and `Delete.Objects`. -/
structure DeleteObjectsInput where
  Bucket : String
  Objects : List ObjectIdentifier
deriving DecidableEq, Repr

/-- The SDK type `s3.DeletedObject`. -/
structure DeletedObject where
  VersionId : String
deriving DecidableEq, Repr

/-- The SDK type `s3.DeleteObjectsOutput`. -/
structure DeleteObjectsOutput where
  Deleted : List DeletedObject
deriving DecidableEq, Repr

/-- The SDK type `s3.GetBucketVersioningOutput`. -/
structure GetBucketVersioningOutput where
  Status : Option String
deriving DecidableEq, Repr

/-- The SDK type `s3.ListBucketsOutput`: the names of the returned buckets. -/
structure ListBucketsOutput where
  Buckets : List String
deriving DecidableEq, Repr

/-- The five operations of the interface `s3api.S3API` that the package calls, over a
remote service with states of type `σ`: each takes the state of the service and returns the
response or error together with the state the service is left in. -/
structure S3API (σ : Type) where
  ListBuckets : σ → Except GoError ListBucketsOutput × σ
  HeadBucket : String → σ → Except GoError Unit × σ
  GetBucketVersioning : String → σ → Except GoError GetBucketVersioningOutput × σ
  ListObjectVersions : ListObjectVersionsInput → σ →
    Except GoError ListObjectVersionsOutput × σ
  DeleteObjects : DeleteObjectsInput → σ → Except GoError DeleteObjectsOutput × σ

/-- A remote call as issued by the package. -/
inductive Call where
  | listBuckets
  | headBucket (bucket : String)
  | getBucketVersioning (bucket : String)
  | listObjectVersions (input : ListObjectVersionsInput)
  | deleteObjects (input : DeleteObjectsInput)
deriving DecidableEq, Repr

/-- Whether a call is a `DeleteObjects` call. -/
def Call.isDeleteObjects : Call → Bool
  | Call.deleteObjects _ => true
  | _ => false

/-- What the remote service answered to a call: an error, or the output of the operation. -/
inductive Response where
  | failed (err : GoError)
  | buckets (output : ListBucketsOutput)
  | head
  | versioning (output : GetBucketVersioningOutput)
  | versions (output : ListObjectVersionsOutput)
  | deleted (output : DeleteObjectsOutput)
deriving DecidableEq, Repr

/-- Whether the answer is an error. -/
def Response.isFailed : Response → Bool
  | Response.failed _ => true
  | _ => false

/-- A remote call together with its answer. -/
structure Exchange where
  call : Call
  response : Response
deriving DecidableEq, Repr

/-- What a run has done so far: the state of the remote service, the calls issued with
their answers (oldest first) and the lines logged (oldest first). -/
structure Run (σ : Type) where
  remote : σ
  calls : List Exchange
  log : List LogLine

/-- A run that has not started. -/
def Run.start {σ : Type} (remote : σ) : Run σ := { remote := remote, calls := [], log := [] }

/-- The run after one more remote call: the service is left in `remote`. -/
def Run.exchange {σ : Type} (w : Run σ) (call : Call) (response : Response) (remote : σ) :
    Run σ :=
  { w with remote := remote, calls := w.calls ++ [{ call := call, response := response }] }

/-- The run after one more log line. -/
def Run.logLine {σ : Type} (w : Run σ) (line : LogLine) : Run σ :=
  { w with log := w.log ++ [line] }

/-- The fields of `config.Config` that the package reads. -/
structure Config where
  S3Region : String
  S3DisableSSL : String
  S3Endpoint : String
  BucketName : String
  BucketPrefix : String
  VersionsCount : Int
  Confirm : Bool
deriving DecidableEq, Repr

/-- How a function whose loop is driven by the remote service ends: it returns a value, it
returns an error, or it is still looping when the page budget of the model is used up. -/
inductive Outcome (α : Type) where
  | returned (value : α)
  | failed (err : GoError)
  | running
deriving DecidableEq, Repr

/-- The constant `defaultMaxKeys`. -/
def defaultMaxKeys : Int := 10000

/-- The constant `defaultS3Region`. -/
def defaultS3Region : String := "eu-west-1"

/-! ## Version enumerator -/

/-- Assignment `m[key] = value` on the association list. -/
def mapSet (m : FileVersions) (key : String) (value : List fileVersion) : FileVersions :=
  match m with
  | [] => [(key, value)]
  | (k, v) :: rest => if k = key then (key, value) :: rest else (k, v) :: mapSet rest key value

/-- The body shared by the loops of `appendFileVersions` and `appendDeleteMarkers`: append
to the slice of `fv.Key` when the key is present, start a new slice otherwise. -/
def appendRecord (fileVersions : FileVersions) (fv : fileVersion) : FileVersions :=
  match fileVersions.lookup fv.Key with
  | some versions => mapSet fileVersions fv.Key (versions ++ [fv])
  | none => mapSet fileVersions fv.Key [fv]

/-- The record `appendFileVersions` builds for a listed live version. -/
def recordOfVersion (version : ObjectVersion) : fileVersion :=
  { Key := version.Key, VersionID := version.VersionId, IsLatest := version.IsLatest,
    LastModified := version.LastModified, Size := version.Size, IsDeleteMarker := false }

/-- The record `appendDeleteMarkers` builds for a listed delete marker. -/
def recordOfMarker (marker : DeleteMarkerEntry) : fileVersion :=
  { Key := marker.Key, VersionID := marker.VersionId, IsLatest := marker.IsLatest,
    LastModified := marker.LastModified, Size := 0, IsDeleteMarker := true }

/-- The function `appendFileVersions`. -/
def appendFileVersions (fileVersions : FileVersions) (additionalVersions : List ObjectVersion) :
    FileVersions :=
  additionalVersions.foldl (fun m version => appendRecord m (recordOfVersion version))
    fileVersions

/-- The function `appendDeleteMarkers`. -/
def appendDeleteMarkers (fileVersions : FileVersions) (deleteMarkers : List DeleteMarkerEntry) :
    FileVersions :=
  deleteMarkers.foldl (fun m marker => appendRecord m (recordOfMarker marker)) fileVersions

/-- The request `getFileVersions` builds for one page. -/
def listRequest (config : Config) (bucket : String) (keyMarker : Option String) :
    ListObjectVersionsInput :=
  { Bucket := bucket, Prefix := config.BucketPrefix, KeyMarker := keyMarker,
    MaxKeys := defaultMaxKeys }

/-- The loop `for { ... }` of `getFileVersions`, run for at most `pages` iterations; the
arguments after the budget are the loop variables. -/
def listLoop {σ : Type} (api : S3API σ) (config : Config) (bucket : String) :
    Nat → FileVersions → Option String → Int → Int → Run σ →
      Outcome (FileVersions × Int) × Run σ
  | 0, _, _, _, _, w => (Outcome.running, w)
  | pages + 1, fileVersions, keyMarker, pageNumber, versionCount, w =>
    let input : ListObjectVersionsInput := listRequest config bucket keyMarker
    match api.ListObjectVersions input w.remote with
    | (Except.error err, remote) =>
      (Outcome.failed err,
        w.exchange (Call.listObjectVersions input) (Response.failed err) remote)
    | (Except.ok response, remote) =>
      let pageVersionCount : Int :=
        (response.Versions.length : Int) + (response.DeleteMarkers.length : Int)
      let w1 : Run σ :=
        (w.exchange (Call.listObjectVersions input) (Response.versions response) remote).logLine
          (LogLine.gotPage pageVersionCount pageNumber)
      let fileVersions1 := appendFileVersions fileVersions response.Versions
      let fileVersions2 := appendDeleteMarkers fileVersions1 response.DeleteMarkers
      let versionCount1 := versionCount + pageVersionCount
      match response.NextKeyMarker with
      | none => (Outcome.returned (fileVersions2, versionCount1), w1)
      | some marker =>
        if marker.length = 0 then (Outcome.returned (fileVersions2, versionCount1), w1)
        else listLoop api config bucket pages fileVersions2 (some marker) (pageNumber + 1)
          versionCount1 w1

/-- The method `getFileVersions`, with a budget of `pages` listing calls. -/
def getFileVersions {σ : Type} (api : S3API σ) (config : Config) (bucket : String)
    (pages : Nat) (w : Run σ) : Outcome FileVersions × Run σ :=
  let w0 : Run σ := w.logLine (LogLine.getFileVersions bucket config.BucketPrefix)
  match listLoop api config bucket pages [] none 1 0 w0 with
  | (Outcome.returned (fileVersions, versionCount), w1) =>
    (Outcome.returned fileVersions,
      w1.logLine (LogLine.summary versionCount fileVersions.length))
  | (Outcome.failed err, w1) => (Outcome.failed err, w1)
  | (Outcome.running, w1) => (Outcome.running, w1)

/-! ## Batch purger -/

/-- The loop `for beginIndex < len(versionsToDelete)` of `deleteS3Versions`. Every
iteration moves `beginIndex` forward by at least one, so a budget of
`len(versionsToDelete)` iterations is never used up (`deleteLoop_eq_runChunks`). The conversion
through `float64` in `math.Min` is exact for slice lengths. -/
def deleteLoop {σ : Type} (api : S3API σ) (bucket : String)
    (versionsToDelete : List ObjectIdentifier) : Nat → Nat → Run σ → Option GoError × Run σ
  | 0, _, w => (none, w)
  | budget + 1, beginIndex, w =>
    if beginIndex < versionsToDelete.length then
      let endIndex := min (beginIndex + 1000) versionsToDelete.length
      let input : DeleteObjectsInput :=
        { Bucket := bucket
          Objects := (versionsToDelete.drop beginIndex).take (endIndex - beginIndex) }
      match api.DeleteObjects input w.remote with
      | (Except.error err, remote) =>
        (some err, w.exchange (Call.deleteObjects input) (Response.failed err) remote)
      | (Except.ok response, remote) =>
        deleteLoop api bucket versionsToDelete budget endIndex
          ((w.exchange (Call.deleteObjects input) (Response.deleted response) remote).logLine
            (LogLine.deleted response.Deleted.length))
    else (none, w)

/-- The method `deleteS3Versions`; the result is the returned `error` (`none` for `nil`). -/
def deleteS3Versions {σ : Type} (api : S3API σ) (config : Config) (bucket : String)
    (versionsToDelete : List ObjectIdentifier) (w : Run σ) : Option GoError × Run σ :=
  deleteLoop api bucket versionsToDelete versionsToDelete.length 0
    (w.logLine (LogLine.deleting versionsToDelete.length bucket config.BucketPrefix))

/-! ## Orchestration -/

/-- The method `findAndRemoveVersions`. -/
def findAndRemoveVersions {σ : Type} (api : S3API σ) (S : SliceSorter) (config : Config)
    (pages : Nat) (bucket : String) (w : Run σ) : Outcome Unit × Run σ :=
  match getFileVersions api config bucket pages w with
  | (Outcome.failed err, w1) => (Outcome.failed err, w1)
  | (Outcome.running, w1) => (Outcome.running, w1)
  | (Outcome.returned fileVersions, w1) =>
    let info := evaluate S config.VersionsCount bucket fileVersions
    let w2 : Run σ := { w1 with log := w1.log ++ info.log }
    if config.Confirm then
      match deleteS3Versions api config bucket info.versionsToDelete w2 with
      | (some err, w3) => (Outcome.failed err, w3)
      | (none, w3) => (Outcome.returned (), w3)
    else (Outcome.returned (), w2)

/-- The method `getAllBuckets`. -/
def getAllBuckets {σ : Type} (api : S3API σ) (w : Run σ) :
    Except GoError (List String) × Run σ :=
  let w0 : Run σ := w.logLine LogLine.listAllBuckets
  match api.ListBuckets w0.remote with
  | (Except.error err, remote) =>
    (Except.error err, w0.exchange Call.listBuckets (Response.failed err) remote)
  | (Except.ok response, remote) =>
    (Except.ok response.Buckets, w0.exchange Call.listBuckets (Response.buckets response) remote)

/-- The method `existsBucket`. -/
def existsBucket {σ : Type} (api : S3API σ) (name : String) (w : Run σ) :
    Except GoError Bool × Run σ :=
  match api.HeadBucket name w.remote with
  | (Except.error err, remote) =>
    let w1 := w.exchange (Call.headBucket name) (Response.failed err) remote
    match err with
    | GoError.aws code _ =>
      if code = "NotFound" then (Except.ok false, w1) else (Except.error err, w1)
    | GoError.other _ => (Except.error err, w1)
  | (Except.ok _, remote) =>
    (Except.ok true, w.exchange (Call.headBucket name) Response.head remote)

/-- The method `getBuckets`. -/
def getBuckets {σ : Type} (api : S3API σ) (config : Config) (w : Run σ) :
    Except GoError (List String) × Run σ :=
  if config.BucketName = "*" then getAllBuckets api w
  else
    match existsBucket api config.BucketName w with
    | (Except.error err, w1) => (Except.error err, w1)
    | (Except.ok false, w1) =>
      (Except.error (GoError.other ("Bucket doesn't exist: " ++ config.BucketName)), w1)
    | (Except.ok true, w1) => (Except.ok [config.BucketName], w1)

/-- The constant `s3.BucketVersioningStatusEnabled`. -/
def BucketVersioningStatusEnabled : String := "Enabled"

/-- The method `isVersioningEnabled`. -/
def isVersioningEnabled {σ : Type} (api : S3API σ) (bucket : String) (w : Run σ) :
    Except GoError Bool × Run σ :=
  match api.GetBucketVersioning bucket w.remote with
  | (Except.error err, remote) =>
    let w1 := w.exchange (Call.getBucketVersioning bucket) (Response.failed err) remote
    match err with
    | GoError.aws code _ =>
      if code = "BucketRegionError" then (Except.ok false, w1) else (Except.error err, w1)
    | GoError.other _ => (Except.error err, w1)
  | (Except.ok response, remote) =>
    (Except.ok (decide (response.Status = some BucketVersioningStatusEnabled)),
      w.exchange (Call.getBucketVersioning bucket) (Response.versioning response) remote)

/-- The loop of `filterBucketsByVersioningEnabled`, with `bucketsWithVersioning` as
accumulator. -/
def filterLoop {σ : Type} (api : S3API σ) :
    List String → List String → Run σ → Except GoError (List String) × Run σ
  | [], bucketsWithVersioning, w => (Except.ok bucketsWithVersioning, w)
  | bucket :: rest, bucketsWithVersioning, w =>
    match isVersioningEnabled api bucket w with
    | (Except.error err, w1) => (Except.error err, w1)
    | (Except.ok versioningEnabled, w1) =>
      filterLoop api rest
        (if versioningEnabled then bucketsWithVersioning ++ [bucket]
          else bucketsWithVersioning) w1

/-- The method `filterBucketsByVersioningEnabled`. -/
def filterBucketsByVersioningEnabled {σ : Type} (api : S3API σ) (buckets : List String)
    (w : Run σ) : Except GoError (List String) × Run σ :=
  filterLoop api buckets [] w

/-- The loop `for _, bucket := range buckets` of `Delete`. -/
def bucketLoop {σ : Type} (api : S3API σ) (S : SliceSorter) (config : Config) (pages : Nat) :
    List String → Run σ → Outcome Unit × Run σ
  | [], w => (Outcome.returned (), w)
  | bucket :: rest, w =>
    match findAndRemoveVersions api S config pages bucket w with
    | (Outcome.returned _, w1) => bucketLoop api S config pages rest w1
    | (Outcome.failed err, w1) => (Outcome.failed err, w1)
    | (Outcome.running, w1) => (Outcome.running, w1)

/-- The method `Delete`; `pages` is the listing budget granted to each bucket. -/
def Delete {σ : Type} (api : S3API σ) (S : SliceSorter) (config : Config) (pages : Nat)
    (w : Run σ) : Outcome Unit × Run σ :=
  match getBuckets api config w with
  | (Except.error err, w1) => (Outcome.failed err, w1)
  | (Except.ok buckets, w1) =>
    let w2 : Run σ := w1.logLine (LogLine.foundBuckets buckets)
    match filterBucketsByVersioningEnabled api buckets w2 with
    | (Except.error err, w3) => (Outcome.failed err, w3)
    | (Except.ok versioned, w3) =>
      let w4 : Run σ := w3.logLine (LogLine.foundVersionedBuckets versioned)
      bucketLoop api S config pages versioned w4

/-! ## The in-memory service of the tests (`s3_mock_test.go`) -/

/-- The test type `fakeVersion`. -/
structure fakeVersion where
  VersionID : String
  LastModified : Int
  IsLatest : Bool
  Size : Int
  IsDeleteMarker : Bool
deriving DecidableEq, Repr

/-- The test type `fakeBucket`; `Objects` is a Go map, kept as an association list. -/
structure fakeBucket where
  VersioningStatus : Option String
  Objects : List (String × List fakeVersion)
deriving DecidableEq, Repr

/-- The test type `s3apiMock`; `buckets` is a Go map, kept as an association list. -/
structure s3apiMock where
  buckets : List (String × fakeBucket)
  versionsPerPage : Int
deriving DecidableEq, Repr

/-- The error `awserr.New(code, code, nil)`. -/
def awsError (code : String) : GoError := GoError.aws code code

/-- Value of a decimal digit. -/
def digitValue (c : Char) : Option Nat :=
  if 48 ≤ c.toNat ∧ c.toNat ≤ 57 then some (c.toNat - 48) else none

/-- Value of a string of decimal digits, continuing from `acc`. -/
def parseDigits : List Char → Nat → Option Nat
  | [], acc => some acc
  | c :: rest, acc =>
    match digitValue c with
    | some d => parseDigits rest (acc * 10 + d)
    | none => none

/-- The library function `strconv.Atoi`, without its range check: an optional sign
followed by at least one decimal digit. -/
def atoi (text : String) : Option Int :=
  match text.data with
  | [] => none
  | c :: rest =>
    if c = '-' then
      (if rest.length = 0 then none else (parseDigits rest 0).map (fun n => -(n : Int)))
    else if c = '+' then
      (if rest.length = 0 then none else (parseDigits rest 0).map (fun n => (n : Int)))
    else (parseDigits (c :: rest) 0).map (fun n => (n : Int))

/-- The library function `strconv.Itoa`. -/
def itoa (n : Int) : String :=
  if n < 0 then String.mk ('-' :: Nat.toDigits 10 n.natAbs) else String.mk (Nat.toDigits 10 n.natAbs)

/-- Byte-wise order of strings, the order of `sort.Strings`. -/
def stringLess (a b : String) : Bool := decide (a.data < b.data)

/-- Insertion of a key into a sorted list of keys. -/
def insertKey (key : String) : List String → List String
  | [] => [key]
  | other :: rest =>
    if stringLess other key then other :: insertKey key rest else key :: other :: rest

/-- The library function `sort.Strings`, on the pairwise distinct keys of a map. -/
def sortStrings : List String → List String
  | [] => []
  | key :: rest => insertKey key (sortStrings rest)

/-- The mock method `ListBuckets`. -/
def s3apiMock.ListBuckets (c : s3apiMock) : Except GoError ListBucketsOutput × s3apiMock :=
  (Except.ok { Buckets := c.buckets.map Prod.fst }, c)

/-- The mock method `HeadBucket`. -/
def s3apiMock.HeadBucket (bucket : String) (c : s3apiMock) : Except GoError Unit × s3apiMock :=
  match c.buckets.lookup bucket with
  | some _ => (Except.ok (), c)
  | none => (Except.error (awsError "NotFound"), c)

/-- The mock method `GetBucketVersioning`. -/
def s3apiMock.GetBucketVersioning (bucket : String) (c : s3apiMock) :
    Except GoError GetBucketVersioningOutput × s3apiMock :=
  if bucket = "bucket-in-wrong-region" then (Except.error (awsError "BucketRegionError"), c)
  else
    match c.buckets.lookup bucket with
    | some b => (Except.ok { Status := b.VersioningStatus }, c)
    | none => (Except.error (awsError "NotFound"), c)

/-- The nested loops of the mock method `ListObjectVersions` over the versions of all keys
in sorted key order; `index` is the value of the counter before the next version. The
result is the listed versions, the listed delete markers and `hasNextPage`. -/
def mockPage (startIndex endIndex : Int) :
    Int → List (String × fakeVersion) → List ObjectVersion × List DeleteMarkerEntry × Bool
  | _, [] => ([], [], false)
  | index, (key, version) :: rest =>
    if index + 1 < startIndex then mockPage startIndex endIndex (index + 1) rest
    else if index + 1 ≥ endIndex then ([], [], true)
    else
      let page := mockPage startIndex endIndex (index + 1) rest
      if version.IsDeleteMarker then
        (page.1,
          { Key := key, VersionId := version.VersionID, IsLatest := version.IsLatest,
            LastModified := version.LastModified } :: page.2.1, page.2.2)
      else
        ({ Key := key, VersionId := version.VersionID, IsLatest := version.IsLatest,
            LastModified := version.LastModified, Size := version.Size } :: page.1,
          page.2.1, page.2.2)

/-- The versions of a bucket in the order the mock walks them: by sorted key, then in
stored order. -/
def mockListing (bucket : fakeBucket) : List (String × fakeVersion) :=
  (sortStrings (bucket.Objects.map Prod.fst)).flatMap
    (fun key => ((bucket.Objects.lookup key).getD []).map (fun version => (key, version)))

/-- The mock method `ListObjectVersions`. -/
def s3apiMock.ListObjectVersions (input : ListObjectVersionsInput) (c : s3apiMock) :
    Except GoError ListObjectVersionsOutput × s3apiMock :=
  match c.buckets.lookup input.Bucket with
  | none => (Except.error (awsError "NotFound"), c)
  | some bucket =>
    let parsed : Option Int :=
      match input.KeyMarker with
      | none => some 0
      | some marker => atoi marker
    match parsed with
    | none => (Except.error (awsError "InvalidKeyMarker"), c)
    | some page =>
      let startIndex := c.versionsPerPage * page
      let endIndex := c.versionsPerPage * (page + 1)
      let listed := mockPage startIndex endIndex (-1) (mockListing bucket)
      (Except.ok
        { DeleteMarkers := listed.2.1, Versions := listed.1,
          NextKeyMarker := if listed.2.2 then some (itoa (page + 1)) else none }, c)

/-- The test helper `remove`, applied at the first version with the given ID, if any: the
inner loop of the mock method `DeleteObjects`. The result tells whether one was removed. -/
def removeVersion (versionID : String) : List fakeVersion → List fakeVersion × Bool
  | [] => ([], false)
  | version :: rest =>
    if version.VersionID = versionID then (rest, true)
    else ((removeVersion versionID rest).1.cons version, (removeVersion versionID rest).2)

/-- Assignment `objects[key] = versions` on the association list of a `fakeBucket`. -/
def setObjects (objects : List (String × List fakeVersion)) (key : String)
    (versions : List fakeVersion) : List (String × List fakeVersion) :=
  match objects with
  | [] => [(key, versions)]
  | (k, v) :: rest =>
    if k = key then (key, versions) :: rest else (k, v) :: setObjects rest key versions

/-- The outer loop of the mock method `DeleteObjects`: the objects map and the `deleted`
list after the requested objects, or the objects map at the point the loop returns
`NotFound`. -/
def mockDeleteLoop : List ObjectIdentifier → List (String × List fakeVersion) →
    List DeletedObject → Except GoError (List DeletedObject) × List (String × List fakeVersion)
  | [], objects, deleted => (Except.ok deleted, objects)
  | object :: rest, objects, deleted =>
    match objects.lookup object.Key with
    | none => (Except.error (awsError "NotFound"), objects)
    | some versions =>
      let removed := removeVersion object.VersionId versions
      if removed.2 then
        mockDeleteLoop rest (setObjects objects object.Key removed.1)
          (deleted ++ [{ VersionId := object.VersionId }])
      else mockDeleteLoop rest objects deleted

/-- Assignment to the `Objects` of one bucket of the mock. -/
def setBucketObjects (buckets : List (String × fakeBucket)) (name : String)
    (objects : List (String × List fakeVersion)) : List (String × fakeBucket) :=
  buckets.map (fun entry =>
    if entry.1 = name then (entry.1, { entry.2 with Objects := objects }) else entry)

/-- The mock method `DeleteObjects`. -/
def s3apiMock.DeleteObjects (input : DeleteObjectsInput) (c : s3apiMock) :
    Except GoError DeleteObjectsOutput × s3apiMock :=
  match c.buckets.lookup input.Bucket with
  | none => (Except.error (awsError "NotFound"), c)
  | some bucket =>
    match mockDeleteLoop input.Objects bucket.Objects [] with
    | (Except.error err, objects) =>
      (Except.error err, { c with buckets := setBucketObjects c.buckets input.Bucket objects })
    | (Except.ok deleted, objects) =>
      (Except.ok { Deleted := deleted },
        { c with buckets := setBucketObjects c.buckets input.Bucket objects })

/-- The mock as an implementation of the interface. -/
def mockService : S3API s3apiMock where
  ListBuckets := s3apiMock.ListBuckets
  HeadBucket := s3apiMock.HeadBucket
  GetBucketVersioning := s3apiMock.GetBucketVersioning
  ListObjectVersions := s3apiMock.ListObjectVersions
  DeleteObjects := s3apiMock.DeleteObjects

/-- A `fakeVersion` of the test data; times are hours relative to `time.Now()`. -/
def fakeLive (versionID : String) (hours : Int) : fakeVersion :=
  { VersionID := versionID, LastModified := hours, IsLatest := false, Size := 0,
    IsDeleteMarker := false }

/-- A delete marker of the test data. -/
def fakeMarker (versionID : String) (hours : Int) : fakeVersion :=
  { VersionID := versionID, LastModified := hours, IsLatest := false, Size := 0,
    IsDeleteMarker := true }

/-- The test data `setupBucketsAndObjects`. -/
def setupBucketsAndObjects : List (String × fakeBucket) :=
  [("b1",
      { VersioningStatus := some BucketVersioningStatusEnabled
        Objects :=
          [("key1", [fakeLive "b1-key1-v1" (-10), fakeLive "b1-key1-v2" (-9),
              fakeMarker "b1-key1-v2-deleted" (-8), fakeLive "b1-key1-v3" (-7)]),
           ("key2", [fakeMarker "b1-key2-deleted" (-11), fakeLive "b1-key2-v1" (-10),
              fakeLive "b1-key2-v2" (-9)])] }),
   ("b2",
      { VersioningStatus := none
        Objects :=
          [("key1", [fakeLive "b2-key1-v1" (-10), fakeLive "b2-key1-v2" (-9)]),
           ("key2", [fakeLive "b2-key2-v1" (-10)])] }),
   ("bucket-in-wrong-region",
      { VersioningStatus := none
        Objects := [("key1", [fakeLive "b3-key1-v1" (-10)])] })]

/-- The service of `getBasicTestService`: the test data, three versions per page. -/
def testMock : s3apiMock := { buckets := setupBucketsAndObjects, versionsPerPage := 3 }

/-- The configuration of `getBasicTestService`, with the given `Confirm`. -/
def testConfig (confirm : Bool) : Config :=
  { S3Region := "eu-west-1", S3DisableSSL := "", S3Endpoint := "", BucketName := "*",
    BucketPrefix := "", VersionsCount := 1, Confirm := confirm }

/-! ## Vocabulary of the properties -/

/-- The purge target built for a record:
`&s3.ObjectIdentifier{Key: version.Key, VersionId: version.VersionID}`. -/
def toIdentifier (v : fileVersion) : ObjectIdentifier :=
  { Key := v.Key, VersionId := v.VersionID }

/-- A live version is a record that is not a delete marker. -/
def isLive (v : fileVersion) : Bool := !v.IsDeleteMarker

/-- Number of live versions in a list of records. -/
def liveCount (l : List fileVersion) : Nat := l.countP isLive

/-- The records the inner loop appends to the purge list when it walks `l` starting with
the counter at `c`. -/
def purgedFrom (versionsCount : Int) : Int → List fileVersion → List fileVersion
  | _, [] => []
  | c, v :: rest =>
    (if c ≥ versionsCount then [v] else []) ++
      purgedFrom versionsCount (if isLive v then c + 1 else c) rest

/-- The purge rule in the words of the specification: of the records in the given order,
those that have at least `N` live versions before them. -/
def purgeRule (N : Int) (ordered : List fileVersion) : List fileVersion :=
  (ordered.enum.filter
    (fun p => decide (N ≤ (liveCount (ordered.take p.1) : Int)))).map Prod.snd

/-- The records stored under `key` (`fileVersions[key]`, the empty slice when absent). -/
def recordsOf (fileVersions : FileVersions) (key : String) : List fileVersion :=
  (fileVersions.lookup key).getD []

/-- Total record count of a key: live versions plus delete markers. -/
def recordCount (fileVersions : FileVersions) (key : String) : Nat :=
  (recordsOf fileVersions key).length

/-- The keys of the map are pairwise distinct, and every record is stored under its own
`Key` (what `appendFileVersions` and `appendDeleteMarkers` establish). -/
def WellFormed (fileVersions : FileVersions) : Prop :=
  (fileVersions.map Prod.fst).Nodup ∧
    ∀ entry ∈ fileVersions, ∀ v ∈ entry.2, v.Key = entry.1

instance (fileVersions : FileVersions) : Decidable (WellFormed fileVersions) := by
  unfold WellFormed; infer_instance

/-- No two records of the list carry the same `VersionID`. -/
def DistinctVersionIDs (versions : List fileVersion) : Prop :=
  (versions.map (fun v => v.VersionID)).Nodup

instance (versions : List fileVersion) : Decidable (DistinctVersionIDs versions) := by
  unfold DistinctVersionIDs; infer_instance

/-- The purge targets that name `key`. -/
def targetsOfKey (purge : List ObjectIdentifier) (key : String) : List ObjectIdentifier :=
  purge.filter (fun t => decide (t.Key = key))

/-- Number of live versions among `versions` whose `(Key, VersionID)` is not a purge
target. -/
def survivingLiveCount (versions : List fileVersion) (purge : List ObjectIdentifier) : Nat :=
  versions.countP (fun v => isLive v && !decide (toIdentifier v ∈ purge))

/-- The key of the scenarios. -/
def scenarioKey : String := "k"

/-- A live version of `scenarioKey` with the given version ID and modification time. -/
def liveRecord (versionID : String) (lastModified : Int) : fileVersion :=
  { Key := scenarioKey, VersionID := versionID, IsLatest := false,
    LastModified := lastModified, Size := 1, IsDeleteMarker := false }

/-- A delete marker of `scenarioKey` with the given version ID and modification time. -/
def markerRecord (versionID : String) (lastModified : Int) : fileVersion :=
  { Key := scenarioKey, VersionID := versionID, IsLatest := false,
    LastModified := lastModified, Size := 0, IsDeleteMarker := true }

/-- Scenario history (newest to oldest) `[liveA, liveB, deleteMarkerC]`. -/
def scenarioLiveLiveMarker : FileVersions :=
  [(scenarioKey, [liveRecord "A" 30, liveRecord "B" 20, markerRecord "C" 10])]

/-- Scenario history (newest to oldest) `[liveA, deleteMarkerB, liveC, liveD]`. -/
def scenarioLiveMarkerLiveLive : FileVersions :=
  [(scenarioKey,
    [liveRecord "A" 40, markerRecord "B" 30, liveRecord "C" 20, liveRecord "D" 10])]

/-- A key that was written once and then deleted twice: one live version and two newer
delete markers, in the order the enumerator stores them. -/
def scenarioOneLiveTwoMarkers : FileVersions :=
  [(scenarioKey, [liveRecord "A" 10, markerRecord "B" 20, markerRecord "C" 30])]

/-! ## Vocabulary of the batch purger -/

/-- The consecutive slices `[0,1000)`, `[1000,2000)`, ... of a purge list: as many as it
takes to cover the list, `ceil(n / 1000)`. -/
def slices (l : List ObjectIdentifier) : List (List ObjectIdentifier) :=
  (List.range ((l.length + 999) / 1000)).map (fun i => (l.drop (1000 * i)).take 1000)

/-- The slices the loop of `deleteS3Versions` cuts off a remaining list, one per
iteration. -/
def chunkList : Nat → List ObjectIdentifier → List (List ObjectIdentifier)
  | 0, _ => []
  | budget + 1, remaining =>
    if remaining.length = 0 then []
    else remaining.take 1000 :: chunkList budget (remaining.drop 1000)

/-- The `DeleteObjects` call for one slice. -/
def deleteCall (bucket : String) (objects : List ObjectIdentifier) : Call :=
  Call.deleteObjects { Bucket := bucket, Objects := objects }

/-- One `DeleteObjects` call per chunk, in order, stopping at the first error. -/
def runChunks {σ : Type} (api : S3API σ) (bucket : String) :
    List (List ObjectIdentifier) → Run σ → Option GoError × Run σ
  | [], w => (none, w)
  | objects :: rest, w =>
    match api.DeleteObjects { Bucket := bucket, Objects := objects } w.remote with
    | (Except.error err, remote) =>
      (some err, w.exchange (deleteCall bucket objects) (Response.failed err) remote)
    | (Except.ok response, remote) =>
      runChunks api bucket rest
        ((w.exchange (deleteCall bucket objects) (Response.deleted response) remote).logLine
          (LogLine.deleted response.Deleted.length))

/-- The calls a run issued after the point `before`. -/
def callsSince {σ : Type} (before after : Run σ) : List Exchange :=
  after.calls.drop before.calls.length

/-- The lines a run logged after the point `before`. -/
def logSince {σ : Type} (before after : Run σ) : List LogLine :=
  after.log.drop before.log.length

/-- The line `Deleted %d versions` for each answered bulk delete of a list of exchanges. -/
def deletedLines : List Exchange → List LogLine
  | [] => []
  | x :: rest =>
    match x.response with
    | Response.deleted output => LogLine.deleted output.Deleted.length :: deletedLines rest
    | _ => deletedLines rest

/-- A stand-in service with a call counter as its state. Bulk delete number `failAt`
(counting from 0) fails with `InternalError`; every other bulk delete succeeds and
confirms `confirm objects`. The remaining operations answer with empty results. -/
def stubService (failAt : Option Nat)
    (confirm : List ObjectIdentifier → List DeletedObject) : S3API Nat where
  ListBuckets := fun n => (Except.ok { Buckets := [] }, n)
  HeadBucket := fun _ n => (Except.ok (), n)
  GetBucketVersioning := fun _ n => (Except.ok { Status := none }, n)
  ListObjectVersions := fun _ n =>
    (Except.ok { Versions := [], DeleteMarkers := [], NextKeyMarker := none }, n)
  DeleteObjects := fun input n =>
    if failAt = some n then (Except.error (GoError.aws "InternalError" "InternalError"), n + 1)
    else (Except.ok { Deleted := confirm input.Objects }, n + 1)

/-- Confirmation of every requested object. -/
def confirmAll (objects : List ObjectIdentifier) : List DeletedObject :=
  objects.map (fun o => { VersionId := o.VersionId })

/-- Confirmation of every requested object but the first. -/
def confirmAllButFirst (objects : List ObjectIdentifier) : List DeletedObject :=
  confirmAll (objects.drop 1)

/-- Confirmation of nothing. -/
def confirmNone (_objects : List ObjectIdentifier) : List DeletedObject := []

/-- A configuration for the examples: retention count `N`, no key filter. -/
def exampleConfig (versionsCount : Int) (confirm : Bool) : Config :=
  { S3Region := "eu-west-1", S3DisableSSL := "", S3Endpoint := "", BucketName := "*",
    BucketPrefix := "", VersionsCount := versionsCount, Confirm := confirm }

/-- A purge list of `n` targets `(k, 0)`, `(k, 1)`, ... -/
def exampleTargets (n : Nat) : List ObjectIdentifier :=
  (List.range n).map (fun i => { Key := "k", VersionId := toString i })

/-! ## Vocabulary of the dry run -/

/-- The four read operations of a service leave the observation `stored` of its state
(for example the stored versions of every bucket) as it was. -/
def ReadsPreserve {σ β : Type} (api : S3API σ) (stored : σ → β) : Prop :=
  (∀ s, stored (api.ListBuckets s).2 = stored s) ∧
  (∀ bucket s, stored (api.HeadBucket bucket s).2 = stored s) ∧
  (∀ bucket s, stored (api.GetBucketVersioning bucket s).2 = stored s) ∧
  (∀ input s, stored (api.ListObjectVersions input s).2 = stored s)

/-- Between the points `w` and `w'` the run issued no `DeleteObjects` call, and the
observation `stored` of the service is the same at both. -/
def NoDelete {σ β : Type} (stored : σ → β) (w w' : Run σ) : Prop :=
  (∃ E : List Exchange, w'.calls = w.calls ++ E ∧ ∀ x ∈ E, x.call.isDeleteObjects = false) ∧
    stored w'.remote = stored w.remote

/-! ## Vocabulary of the paginated listing -/

/-- A service whose listing answers are fixed in advance: its state is the list of pages
still to be returned, and every `ListObjectVersions` call returns the next one. The other
operations answer with empty results. -/
def scriptedListing : S3API (List ListObjectVersionsOutput) where
  ListBuckets := fun s => (Except.ok { Buckets := [] }, s)
  HeadBucket := fun _ s => (Except.ok (), s)
  GetBucketVersioning := fun _ s => (Except.ok { Status := none }, s)
  ListObjectVersions := fun _ s =>
    match s with
    | [] => (Except.error (awsError "NoMorePages"), [])
    | page :: rest => (Except.ok page, rest)
  DeleteObjects := fun _ s => (Except.ok { Deleted := [] }, s)

/-- Whether a page carries a non-empty continuation token. -/
def continues (page : ListObjectVersionsOutput) : Bool :=
  match page.NextKeyMarker with
  | none => false
  | some marker => !decide (marker.length = 0)

/-- A listing split into pages: at least one page, a non-empty continuation token on every
page but the last, and none (or an empty one) on the last. -/
def WellPaged : List ListObjectVersionsOutput → Bool
  | [] => false
  | page :: rest =>
    if rest.length = 0 then !continues page else continues page && WellPaged rest

/-- The whole listing in one page: all live versions and all delete markers of the pages,
in their order, and no continuation token. -/
def mergePages (pages : List ListObjectVersionsOutput) : ListObjectVersionsOutput :=
  { Versions := pages.flatMap (fun page => page.Versions)
    DeleteMarkers := pages.flatMap (fun page => page.DeleteMarkers)
    NextKeyMarker := none }

/-- What one iteration of the loop of `getFileVersions` does to the map. -/
def pageStep (fileVersions : FileVersions) (page : ListObjectVersionsOutput) : FileVersions :=
  appendDeleteMarkers (appendFileVersions fileVersions page.Versions) page.DeleteMarkers

/-- The records of a page in the order they are appended: live versions, then delete
markers. -/
def pageRecords (page : ListObjectVersionsOutput) : List fileVersion :=
  page.Versions.map recordOfVersion ++ page.DeleteMarkers.map recordOfMarker

/-- Two version histories agree as maps from keys to unordered collections of records:
the same keys, and under each key the same records up to order. -/
def SameHistory (h₁ h₂ : FileVersions) : Prop :=
  ∀ key : String,
    (h₁.lookup key).isSome = (h₂.lookup key).isSome ∧
      List.Perm (recordsOf h₁ key) (recordsOf h₂ key)

/-- A listing of one key in two pages: a live version and a delete marker, then a live
version. -/
def examplePages : List ListObjectVersionsOutput :=
  [{ Versions := [ObjectVersion.mk "k" "A" false 10 1]
     DeleteMarkers := [DeleteMarkerEntry.mk "k" "B" false 20]
     NextKeyMarker := some "k" },
   { Versions := [ObjectVersion.mk "k" "C" true 30 1]
     DeleteMarkers := []
     NextKeyMarker := none }]

/-! ## Vocabulary of the listing trace -/

/-- The continuation token a listing answer hands to the next request: the
`NextKeyMarker` of a page, nothing for any other answer. -/
def nextMarker : Response → Option String
  | Response.versions output => output.NextKeyMarker
  | _ => none

/-- The exchanges of a sequence of listing calls that starts with the key marker
`keyMarker` and receives the given answers: every request carries the bucket, the
configured key filter and `MaxKeys = defaultMaxKeys`, and its key marker is the
`NextKeyMarker` of the answer before it. -/
def listExchanges (config : Config) (bucket : String) :
    Option String → List Response → List Exchange
  | _, [] => []
  | keyMarker, response :: rest =>
    Exchange.mk (Call.listObjectVersions (listRequest config bucket keyMarker)) response ::
      listExchanges config bucket (nextMarker response) rest

/-- The answers of a list of exchanges. -/
def responsesOf (exchanges : List Exchange) : List Response :=
  exchanges.map (fun x => x.response)

/-- Whether a listing answer ends the loop of `getFileVersions`: an error, or a page
whose `NextKeyMarker` is absent or empty. -/
def endsListing : Response → Bool
  | Response.versions output => !continues output
  | _ => true

/-! ## Vocabulary of the bucket selector -/

/-- Whether the answer to a versioning probe reports the status `Enabled`. -/
def reportsEnabled : Response → Bool
  | Response.versioning output => decide (output.Status = some BucketVersioningStatusEnabled)
  | _ => false

/-- The error of a versioning probe that `isVersioningEnabled` hands on: any error but one
that implements `awserr.Error` with the code `BucketRegionError`. -/
def fatalProbe : Response → Option GoError
  | Response.failed (GoError.aws code message) =>
    if code = "BucketRegionError" then none else some (GoError.aws code message)
  | Response.failed (GoError.other message) => some (GoError.other message)
  | _ => none

/-- The buckets, among those probed, whose probe reported `Enabled`: the input order and
the multiplicities are kept. -/
def enabledBuckets : List String → List Exchange → List String
  | bucket :: buckets, x :: exchanges =>
    if reportsEnabled x.response then bucket :: enabledBuckets buckets exchanges
    else enabledBuckets buckets exchanges
  | _, _ => []

/-- The test data with the bucket of the wrong region listed first. -/
def regionFirstMock : s3apiMock :=
  { buckets := setupBucketsAndObjects.reverse, versionsPerPage := 3 }

/-- A listing that announces a second page which the service then fails to deliver. -/
def brokenPages : List ListObjectVersionsOutput :=
  [{ Versions := [ObjectVersion.mk "k" "A" false 10 1]
     DeleteMarkers := []
     NextKeyMarker := some "k" }]

/-- The configuration of `getBasicTestService` with another `BucketName`. -/
def namedConfig (bucketName : String) : Config :=
  { testConfig true with BucketName := bucketName }

/-! ## Vocabulary of the evaluator's relational properties -/

/-- Within every key, no two records carry the same `LastModified`. -/
def DistinctTimes (fileVersions : FileVersions) : Prop :=
  ∀ entry ∈ fileVersions, (entry.2.map (fun v => v.LastModified)).Nodup

instance (fileVersions : FileVersions) : Decidable (DistinctTimes fileVersions) := by
  unfold DistinctTimes; infer_instance

/-- The scenario `[liveA, liveB, deleteMarkerC]` next to a second key with two live
versions. -/
def scenarioTwoKeys : FileVersions :=
  ("other",
    [fileVersion.mk "other" "X" false 5 1 false,
     fileVersion.mk "other" "Y" true 6 1 false]) :: scenarioLiveLiveMarker

/-- A key with two live versions that carry the same `LastModified`. -/
def scenarioTie : FileVersions :=
  [(scenarioKey, [liveRecord "A" 10, liveRecord "B" 10])]

/-- What `sort.Slice` does to a slice that is already in order, one in which no element
is `less` than an element before it: it leaves the slice as it is. The insertion sort it
runs on short slices makes no swap there, and on longer slices it first looks for a pair
out of order and returns when there is none. -/
def LeavesSorted (S : SliceSorter) : Prop :=
  ∀ l, List.Pairwise (fun a b => lessVersion b a = false) l → S.sort l = l

/-! ## Vocabulary of error propagation -/

/-- The error of an exchange that no method of the package recovers from: the error of a
failed call, unless the call is an existence probe that failed with the code `NotFound`
or a versioning probe that failed with the code `BucketRegionError`. -/
def fatalError (x : Exchange) : Option GoError :=
  match x.response with
  | Response.failed err =>
    match x.call with
    | Call.headBucket _ =>
      (match err with
        | GoError.aws code _ => if code = "NotFound" then none else some err
        | GoError.other _ => some err)
    | Call.getBucketVersioning _ =>
      (match err with
        | GoError.aws code _ => if code = "BucketRegionError" then none else some err
        | GoError.other _ => some err)
    | _ => some err
  | _ => none

/-- The error a method returned, if any. -/
def errorOfExcept {α : Type} : Except GoError α → Option GoError
  | Except.error err => some err
  | Except.ok _ => none

/-- The error a method returned, if any. -/
def errorOfOutcome {α : Type} : Outcome α → Option GoError
  | Outcome.failed err => some err
  | _ => none

/-- Between the points `w` and `w'` of a run that ends with the error `err` (or without
one), the trace only grew, and either no exchange was fatal, or exactly the last one was
and its error is `err`. -/
def Propagates {σ : Type} (w w' : Run σ) (err : Option GoError) : Prop :=
  ∃ E : List Exchange, w'.calls = w.calls ++ E ∧
    ((∀ x ∈ E, fatalError x = none) ∨
      ∃ (e : GoError) (E' : List Exchange) (x : Exchange),
        err = some e ∧ E = E' ++ [x] ∧ fatalError x = some e ∧
        ∀ y ∈ E', fatalError y = none)

/-- The in-memory service of the tests with a bulk delete that always fails. -/
def deniedDeletes : S3API s3apiMock where
  ListBuckets := s3apiMock.ListBuckets
  HeadBucket := s3apiMock.HeadBucket
  GetBucketVersioning := s3apiMock.GetBucketVersioning
  ListObjectVersions := s3apiMock.ListObjectVersions
  DeleteObjects := fun _ c => (Except.error (awsError "AccessDenied"), c)

/-! ## Vocabulary of the confirmed run on the in-memory service -/

/-- The record the enumerator builds for a version the in-memory service lists under a
key. -/
def recordOfListed (entry : String × fakeVersion) : fileVersion :=
  if entry.2.IsDeleteMarker then
    recordOfMarker (DeleteMarkerEntry.mk entry.1 entry.2.VersionID entry.2.IsLatest
      entry.2.LastModified)
  else
    recordOfVersion (ObjectVersion.mk entry.1 entry.2.VersionID entry.2.IsLatest
      entry.2.LastModified entry.2.Size)

/-- The live versions of a stretch of the listing, as the in-memory service returns
them. -/
def listedVersions : List (String × fakeVersion) → List ObjectVersion
  | [] => []
  | entry :: rest =>
    if entry.2.IsDeleteMarker then listedVersions rest
    else ObjectVersion.mk entry.1 entry.2.VersionID entry.2.IsLatest entry.2.LastModified
      entry.2.Size :: listedVersions rest

/-- The delete markers of a stretch of the listing, as the in-memory service returns
them. -/
def listedMarkers : List (String × fakeVersion) → List DeleteMarkerEntry
  | [] => []
  | entry :: rest =>
    if entry.2.IsDeleteMarker then
      DeleteMarkerEntry.mk entry.1 entry.2.VersionID entry.2.IsLatest entry.2.LastModified ::
        listedMarkers rest
    else listedMarkers rest

/-- The key marker that asks the in-memory service for page `p`. -/
def pageMarker (p : Nat) : Option String :=
  if p = 0 then none else some (itoa (p : Int))

/-- The page with number `p` of a listing served `perPage` versions at a time. -/
def mockPageOutput (perPage : Nat) (listing : List (String × fakeVersion)) (p : Nat) :
    ListObjectVersionsOutput :=
  { Versions := listedVersions ((listing.drop (perPage * p)).take perPage)
    DeleteMarkers := listedMarkers ((listing.drop (perPage * p)).take perPage)
    NextKeyMarker :=
      if perPage * (p + 1) < listing.length then some (itoa ((p + 1 : Nat) : Int)) else none }

/-- The pages from number `p` on that the in-memory service returns, at most `budget` of
them. -/
def mockPagesFrom (perPage : Nat) (listing : List (String × fakeVersion)) :
    Nat → Nat → List ListObjectVersionsOutput
  | 0, _ => []
  | budget + 1, p =>
    mockPageOutput perPage listing p ::
      (if perPage * (p + 1) < listing.length then mockPagesFrom perPage listing budget (p + 1)
        else [])

/-- The version history that `getFileVersions` builds from the pages of a bucket of the
in-memory service. -/
def enumeratedHistory (perPage budget : Nat) (bucket : fakeBucket) : FileVersions :=
  (mockPagesFrom perPage (mockListing bucket) budget 0).foldl pageStep []

/-- What one bucket of the in-memory service holds after the versions `purge` were
removed from what `before` held: the same versioning status, and under every key the
versions it held except those named in `purge`. -/
def Purged (purge : List ObjectIdentifier) (before after : fakeBucket) : Prop :=
  after.VersioningStatus = before.VersioningStatus ∧
  ∀ k, after.Objects.lookup k =
    (before.Objects.lookup k).map (fun vs =>
      vs.filter (fun v => decide (ObjectIdentifier.mk k v.VersionID ∉ purge)))

/-- Within every key of the bucket the version IDs are pairwise distinct. -/
def DistinctIDs (bucket : fakeBucket) : Prop :=
  ∀ k vs, bucket.Objects.lookup k = some vs → (vs.map (fun v => v.VersionID)).Nodup

/-- The bucket a listing call or a bulk delete is addressed to; nothing for the other
calls. -/
def touchedBucket : Call → Option String
  | Call.listObjectVersions input => some input.Bucket
  | Call.deleteObjects input => some input.Bucket
  | _ => none

/-- Between the points `w` and `w'` of a run the trace only grew, and every listing call
and every bulk delete issued in between is addressed to one of `buckets`. -/
def Within {σ : Type} (buckets : List String) (w w' : Run σ) : Prop :=
  ∃ E : List Exchange, w'.calls = w.calls ++ E ∧
    ∀ x ∈ E, ∀ b, touchedBucket x.call = some b → b ∈ buckets

/-- The buckets a run against the in-memory service targets: every bucket for the
wildcard `*`, the named bucket otherwise. -/
def targetedBuckets (config : Config) (c : s3apiMock) : List String :=
  if config.BucketName = "*" then c.buckets.map Prod.fst else [config.BucketName]

/-- Whether the in-memory service reports a bucket as versioning-enabled: its versioning
probe is answered, with the status `Enabled`. -/
def versioningEnabledOn (c : s3apiMock) (b : String) : Bool :=
  decide (b ≠ "bucket-in-wrong-region") &&
    decide ((c.buckets.lookup b).bind (fun bucket => bucket.VersioningStatus) =
      some BucketVersioningStatusEnabled)

/-- The targeted buckets that pass the versioning filter, in the order they are
processed. -/
def processedBuckets (config : Config) (c : s3apiMock) : List String :=
  (targetedBuckets config c).filter (versioningEnabledOn c)

/-- Within every key stored in the bucket the version IDs are pairwise distinct. -/
def DistinctIDsStored (bucket : fakeBucket) : Prop :=
  ∀ entry ∈ bucket.Objects, (entry.2.map (fun v => v.VersionID)).Nodup

instance (bucket : fakeBucket) : Decidable (DistinctIDsStored bucket) := by
  unfold DistinctIDsStored; infer_instance

/-! ## Vocabulary of the accounting -/

/-- The records the walk of `computeAndPrintVersionsInfo` adds to the purge list, key by
key in map order and, within a key, in sorted order. -/
def purgedRecords (S : SliceSorter) (versionsCount : Int) (fileVersions : FileVersions) :
    List fileVersion :=
  fileVersions.flatMap (fun entry => purgedFrom versionsCount 0 (S.sort entry.2))

/-- The sum of the sizes of a list of records, as a mathematical integer. -/
def totalSize (records : List fileVersion) : Int :=
  (records.map (fun v => v.Size)).sum

/-- The byte totals a log reports: the values of its lines
`Total space recovered for <bucket>: <bytes>`, in order. -/
def reportedTotals : List LogLine → List Int
  | [] => []
  | LogLine.totalSpace _ bytes :: rest => bytes :: reportedTotals rest
  | _ :: rest => reportedTotals rest

/-- A page with five live versions of one key, each of `2 ^ 62` bytes. -/
def hugePage : ListObjectVersionsOutput :=
  { Versions := [ObjectVersion.mk "k" "A" true 50 (2 ^ 62),
      ObjectVersion.mk "k" "B" false 40 (2 ^ 62), ObjectVersion.mk "k" "C" false 30 (2 ^ 62),
      ObjectVersion.mk "k" "D" false 20 (2 ^ 62), ObjectVersion.mk "k" "E" false 10 (2 ^ 62)]
    DeleteMarkers := []
    NextKeyMarker := none }

/-- The history `getFileVersions` builds from `examplePages`. -/
def exampleHistory : FileVersions :=
  [("k", [recordOfVersion (ObjectVersion.mk "k" "A" false 10 1),
    recordOfMarker (DeleteMarkerEntry.mk "k" "B" false 20),
    recordOfVersion (ObjectVersion.mk "k" "C" true 30 1)])]

/-! ## Client configuration -/

/-- The fields of `aws.Config` that `getS3Config` sets. -/
structure AwsConfig where
  DisableSSL : Bool
  Endpoint : String
  Region : String
  S3ForcePathStyle : Bool
deriving DecidableEq, Repr

/-- The function `getS3Config`. -/
def getS3Config (c : Config) : AwsConfig :=
  let region := if c.S3Region.length = 0 then defaultS3Region else c.S3Region
  { DisableSSL := decide (c.S3DisableSSL = "true")
    Endpoint := c.S3Endpoint
    Region := region
    S3ForcePathStyle := true }

/-- The first configuration of `TestS3Config`. -/
def testS3ConfigWithRegion : Config :=
  { S3Region := "eu-west-2", S3DisableSSL := "true", S3Endpoint := "http://localhost:1234",
    BucketName := "", BucketPrefix := "", VersionsCount := 0, Confirm := false }

/-- The second configuration of `TestS3Config`, without a region. -/
def testS3ConfigWithoutRegion : Config :=
  { S3Region := "", S3DisableSSL := "true", S3Endpoint := "http://localhost:1234",
    BucketName := "", BucketPrefix := "", VersionsCount := 0, Confirm := false }

/-- The listing of a key that was written once and then deleted: one live version and a
newer delete marker. -/
def deletedKeyPage : ListObjectVersionsOutput :=
  { Versions := [ObjectVersion.mk "k" "A" false 10 1]
    DeleteMarkers := [DeleteMarkerEntry.mk "k" "B" true 20]
    NextKeyMarker := none }

/-- The history `getFileVersions` builds from `examplePages` when the whole listing
arrives in one page: the delete marker `B` is appended after the live version `C`. -/
def exampleHistoryMerged : FileVersions :=
  [("k", [recordOfVersion (ObjectVersion.mk "k" "A" false 10 1),
    recordOfVersion (ObjectVersion.mk "k" "C" true 30 1),
    recordOfMarker (DeleteMarkerEntry.mk "k" "B" false 20)])]

/-- The history that is left when the records named in a purge list are removed: under
every key the records whose `(Key, VersionID)` is not a purge target, and no key without
a record. -/
def withoutPurged (fileVersions : FileVersions) (purge : List ObjectIdentifier) :
    FileVersions :=
  (fileVersions.map (fun entry =>
    (entry.1, entry.2.filter (fun v => !decide (toIdentifier v ∈ purge))))).filter
      (fun entry => !entry.2.isEmpty)

/-! ## Sorting: an instance of the `sort.Slice` contract -/

/-- Insertion sort meets the contract of `sort.Slice`. -/
def stdSorter : SliceSorter where
  sort := insertionSort
  perm := by
    have hins : ∀ (v : fileVersion) (l : List fileVersion),
        List.Perm (orderedInsert v l) (v :: l) := by
      intro v l
      induction l with
      | nil => simp [orderedInsert]
      | cons w rest ih =>
        unfold orderedInsert
        split
        · exact (List.Perm.cons w ih).trans (List.Perm.swap v w rest)
        · exact List.Perm.refl _
    intro l
    induction l with
    | nil => simp [insertionSort]
    | cons v rest ih => exact (hins v _).trans (List.Perm.cons v ih)
  sorted := by
    have hins : ∀ (v : fileVersion) (l : List fileVersion),
        List.Perm (orderedInsert v l) (v :: l) := by
      intro v l
      induction l with
      | nil => simp [orderedInsert]
      | cons w rest ih =>
        unfold orderedInsert
        split
        · exact (List.Perm.cons w ih).trans (List.Perm.swap v w rest)
        · exact List.Perm.refl _
    have hsorted : ∀ (v : fileVersion) (l : List fileVersion),
        List.Pairwise (fun a b => lessVersion b a = false) l →
        List.Pairwise (fun a b => lessVersion b a = false) (orderedInsert v l) := by
      intro v l h
      induction l with
      | nil => simp [orderedInsert]
      | cons w rest ih =>
        rw [List.pairwise_cons] at h
        unfold orderedInsert
        split
        next hw =>
          rw [List.pairwise_cons]
          refine ⟨?_, ih h.2⟩
          intro x hx
          rcases (List.Perm.mem_iff (hins v rest)).1 hx with hx | hx
          · simp [lessVersion] at hw ⊢
            omega
          · rename_i hx2
            exact h.1 x hx2
        next hw =>
          rw [List.pairwise_cons]
          refine ⟨?_, List.pairwise_cons.2 h⟩
          intro x hx
          simp only [lessVersion, decide_eq_false_iff_not, not_lt, gt_iff_lt,
            Bool.not_eq_true, decide_eq_true_eq] at hw ⊢
          rcases List.mem_cons.1 hx with rfl | hx
          · exact hw
          · have := h.1 x hx
            simp only [lessVersion, decide_eq_false_iff_not, not_lt, gt_iff_lt] at this
            omega
    intro l
    induction l with
    | nil => simp [insertionSort]
    | cons v rest ih => exact hsorted v _ ih

/-! # Theorems -/

/-! ## The inner and outer loops in closed form -/

theorem foldl_walkStep_versionsToDelete (N : Int) (l : List fileVersion) (st : WalkState) :
    (l.foldl (walkStep N) st).versionsToDelete =
      st.versionsToDelete ++ (purgedFrom N st.versionCount l).map toIdentifier := by
  induction l generalizing st with
  | nil => simp [purgedFrom]
  | cons v rest ih =>
    rw [List.foldl_cons, ih]
    by_cases hc : st.versionCount ≥ N <;> by_cases hl : v.IsDeleteMarker = true <;>
      simp [walkStep, purgedFrom, isLive, toIdentifier, hc, hl]

theorem foldl_walkStep_versionCount (N : Int) (l : List fileVersion) (st : WalkState) :
    (l.foldl (walkStep N) st).versionCount = st.versionCount + (liveCount l : Int) := by
  induction l generalizing st with
  | nil => simp [liveCount]
  | cons v rest ih =>
    rw [List.foldl_cons, ih]
    by_cases hc : st.versionCount ≥ N <;> by_cases hl : v.IsDeleteMarker = true <;>
      simp [walkStep, liveCount, isLive, hc, hl, List.countP_cons] <;> omega

/-- The purge targets one key contributes. -/
theorem keyStep_versionsToDelete (S : SliceSorter) (N : Int) (acc : VersionsInfo)
    (entry : String × List fileVersion) :
    (keyStep S N acc entry).versionsToDelete =
      acc.versionsToDelete ++ (purgedFrom N 0 (S.sort entry.2)).map toIdentifier := by
  simp [keyStep, foldl_walkStep_versionsToDelete]

theorem foldl_keyStep_versionsToDelete (S : SliceSorter) (N : Int) (fv : FileVersions)
    (acc : VersionsInfo) :
    (fv.foldl (keyStep S N) acc).versionsToDelete =
      acc.versionsToDelete ++
        fv.flatMap (fun entry => (purgedFrom N 0 (S.sort entry.2)).map toIdentifier) := by
  induction fv generalizing acc with
  | nil => simp
  | cons e rest ih =>
    rw [List.foldl_cons, ih, keyStep_versionsToDelete]
    simp [List.flatMap_cons]

/-- The purge list is the concatenation, in map order, of the per-key purge lists. -/
theorem computeAndPrintVersionsInfo_versionsToDelete (S : SliceSorter) (N : Int)
    (bucket : String) (fv : FileVersions) :
    (computeAndPrintVersionsInfo S N bucket fv).versionsToDelete =
      fv.flatMap (fun entry => (purgedFrom N 0 (S.sort entry.2)).map toIdentifier) := by
  simp [computeAndPrintVersionsInfo, foldl_keyStep_versionsToDelete]

/-! ## The walk over one key -/

theorem mem_of_mem_purgedFrom (N : Int) (l : List fileVersion) (c : Int) (x : fileVersion)
    (h : x ∈ purgedFrom N c l) : x ∈ l := by
  induction l generalizing c with
  | nil => simp [purgedFrom] at h
  | cons v rest ih =>
    simp only [purgedFrom, List.mem_append] at h
    rcases h with h | h
    · split at h
      · simp at h; simp [h]
      · simp at h
    · exact List.mem_cons_of_mem _ (ih _ h)

theorem purgedFrom_append (N : Int) (l₁ l₂ : List fileVersion) (c : Int) :
    purgedFrom N c (l₁ ++ l₂) =
      purgedFrom N c l₁ ++ purgedFrom N (c + (liveCount l₁ : Int)) l₂ := by
  induction l₁ generalizing c with
  | nil => simp [purgedFrom, liveCount]
  | cons v rest ih =>
    simp only [List.cons_append, purgedFrom, List.append_assoc]
    by_cases hl : isLive v = true
    · have e : c + ((liveCount (v :: rest) : Nat) : Int) = c + 1 + (liveCount rest : Int) := by
        simp [liveCount, List.countP_cons, hl]; omega
      rw [e]; simp [hl, ih]
    · have e : ((liveCount (v :: rest) : Nat) : Int) = (liveCount rest : Int) := by
        simp [liveCount, List.countP_cons, hl]
      rw [e]; simp [hl, ih]

theorem liveCount_append_singleton (pre : List fileVersion) (v : fileVersion) :
    ((liveCount (pre ++ [v]) : Nat) : Int) =
      if isLive v then (liveCount pre : Int) + 1 else (liveCount pre : Int) := by
  by_cases hl : isLive v = true <;> simp [liveCount, List.countP_append, hl]

theorem purgedFrom_eq_filter_enumFrom (N : Int) (l pre : List fileVersion) :
    purgedFrom N (liveCount pre : Int) l =
      ((l.enumFrom pre.length).filter
        (fun p => decide (N ≤ (liveCount ((pre ++ l).take p.1) : Int)))).map Prod.snd := by
  induction l generalizing pre with
  | nil => simp [purgedFrom]
  | cons v rest ih =>
    have ih2 := ih (pre ++ [v])
    rw [liveCount_append_singleton] at ih2
    simp only [List.length_append, List.length_singleton, List.append_assoc,
      List.singleton_append] at ih2
    simp only [purgedFrom, List.enumFrom_cons, List.filter_cons, List.take_left', ih2]
    by_cases hc : N ≤ (liveCount pre : Int)
    · simp [hc]
    · simp [hc]

/-- The loop purges exactly the records the purge rule names. -/
theorem purgedFrom_eq_purgeRule (N : Int) (l : List fileVersion) :
    purgedFrom N 0 l = purgeRule N l := by
  have h := purgedFrom_eq_filter_enumFrom N l []
  simpa [liveCount, purgeRule, List.enum] using h

theorem sort_nil (S : SliceSorter) : S.sort [] = [] :=
  List.Perm.eq_nil (S.perm [])

theorem mem_sort_iff (S : SliceSorter) (l : List fileVersion) (x : fileVersion) :
    x ∈ S.sort l ↔ x ∈ l :=
  List.Perm.mem_iff (S.perm l)

theorem length_sort (S : SliceSorter) (l : List fileVersion) : (S.sort l).length = l.length :=
  List.Perm.length_eq (S.perm l)

theorem liveCount_sort (S : SliceSorter) (l : List fileVersion) :
    liveCount (S.sort l) = liveCount l :=
  List.Perm.countP_eq _ (S.perm l)

/-! ## The purge targets of one key -/

theorem targetsOfKey_append (l₁ l₂ : List ObjectIdentifier) (k : String) :
    targetsOfKey (l₁ ++ l₂) k = targetsOfKey l₁ k ++ targetsOfKey l₂ k := by
  simp [targetsOfKey]

theorem targetsOfKey_map_same (l : List fileVersion) (k : String)
    (h : ∀ v ∈ l, v.Key = k) : targetsOfKey (l.map toIdentifier) k = l.map toIdentifier := by
  unfold targetsOfKey
  rw [List.filter_eq_self]
  intro t ht
  rcases List.mem_map.1 ht with ⟨v, hv, rfl⟩
  simp [toIdentifier, h v hv]

theorem targetsOfKey_map_other (l : List fileVersion) (k k' : String)
    (h : ∀ v ∈ l, v.Key = k') (hne : k' ≠ k) : targetsOfKey (l.map toIdentifier) k = [] := by
  unfold targetsOfKey
  rw [List.filter_eq_nil_iff]
  intro t ht
  rcases List.mem_map.1 ht with ⟨v, hv, rfl⟩
  simp [toIdentifier, h v hv, hne]

theorem wellFormed_cons (k : String) (vs : List fileVersion) (rest : FileVersions)
    (h : WellFormed ((k, vs) :: rest)) :
    (∀ e ∈ rest, e.1 ≠ k) ∧ (∀ v ∈ vs, v.Key = k) ∧ WellFormed rest := by
  obtain ⟨hnd, hkey⟩ := h
  simp only [List.map_cons, List.nodup_cons, List.mem_map, not_exists, not_and] at hnd
  refine ⟨fun e he heq => hnd.1 e he heq, fun v hv => hkey (k, vs) (List.mem_cons_self _ _) v hv,
    hnd.2, fun e he => hkey e (List.mem_cons_of_mem _ he)⟩

theorem lookup_eq_none_of_forall_ne (rest : FileVersions) (k : String)
    (h : ∀ e ∈ rest, e.1 ≠ k) : rest.lookup k = none := by
  induction rest with
  | nil => rfl
  | cons e rest ih =>
    obtain ⟨k', vs⟩ := e
    have hk : k' ≠ k := h (k', vs) (List.mem_cons_self _ _)
    have hb : (k == k') = false := by simpa using fun heq : k = k' => hk heq.symm
    rw [List.lookup_cons, hb]
    exact ih (fun e he => h e (List.mem_cons_of_mem _ he))

/-- The targets that name a key are those its own walk produced, and there are none when
the threshold filter removed the key. -/
theorem targetsOfKey_flatMap (S : SliceSorter) (N : Int) (fv : FileVersions)
    (hwf : WellFormed fv) (k : String) :
    targetsOfKey ((ignoreFilesWithFewerVersions fv N).flatMap
        (fun entry => (purgedFrom N 0 (S.sort entry.2)).map toIdentifier)) k =
      if (recordCount fv k : Int) ≤ N then []
      else (purgedFrom N 0 (S.sort (recordsOf fv k))).map toIdentifier := by
  induction fv with
  | nil =>
    simp [ignoreFilesWithFewerVersions, targetsOfKey, recordCount, recordsOf, sort_nil,
      purgedFrom]
  | cons e rest ih =>
    obtain ⟨k', vs⟩ := e
    obtain ⟨hne, hkey, hrest⟩ := wellFormed_cons k' vs rest hwf
    have ih := ih hrest
    have hsorted : ∀ v ∈ purgedFrom N 0 (S.sort vs), v.Key = k' := fun v hv =>
      hkey v ((mem_sort_iff S vs v).1 (mem_of_mem_purgedFrom N _ _ v hv))
    have hhead : (ignoreFilesWithFewerVersions ((k', vs) :: rest) N).flatMap
        (fun entry => (purgedFrom N 0 (S.sort entry.2)).map toIdentifier) =
        (if (vs.length : Int) ≤ N then []
          else (purgedFrom N 0 (S.sort vs)).map toIdentifier) ++
        (ignoreFilesWithFewerVersions rest N).flatMap
          (fun entry => (purgedFrom N 0 (S.sort entry.2)).map toIdentifier) := by
      by_cases hlen : (vs.length : Int) ≤ N
      · simp [ignoreFilesWithFewerVersions, List.filter_cons, hlen]
      · simp [ignoreFilesWithFewerVersions, List.filter_cons, hlen, List.flatMap_cons]
    rw [hhead, targetsOfKey_append, ih]
    by_cases hk : k' = k
    · subst hk
      have hnone : rest.lookup k' = none := lookup_eq_none_of_forall_ne rest k' hne
      have hrec : recordsOf ((k', vs) :: rest) k' = vs := by
        simp [recordsOf, List.lookup_cons]
      have hrec0 : recordsOf rest k' = [] := by simp [recordsOf, hnone]
      simp only [recordCount, hrec, hrec0, sort_nil, purgedFrom, List.map_nil, ite_self,
        List.append_nil]
      by_cases hlen : (vs.length : Int) ≤ N
      · simp [hlen, targetsOfKey]
      · simp only [hlen, if_false]
        exact targetsOfKey_map_same _ _ hsorted
    · have hb : (k == k') = false := by simpa using fun heq : k = k' => hk heq.symm
      have hrec : recordsOf ((k', vs) :: rest) k = recordsOf rest k := by
        simp [recordsOf, List.lookup_cons, hb]
      have hhd : targetsOfKey (if (vs.length : Int) ≤ N then []
          else (purgedFrom N 0 (S.sort vs)).map toIdentifier) k = [] := by
        split
        · simp [targetsOfKey]
        · exact targetsOfKey_map_other _ _ _ hsorted hk
      simp [hhd, recordCount, hrec]

/-- The purge targets of a key, for a well-formed history. -/
theorem targetsOfKey_evaluate (S : SliceSorter) (N : Int) (bucket : String)
    (fv : FileVersions) (hwf : WellFormed fv) (k : String) :
    targetsOfKey (evaluate S N bucket fv).versionsToDelete k =
      if (recordCount fv k : Int) ≤ N then []
      else (purgedFrom N 0 (S.sort (recordsOf fv k))).map toIdentifier := by
  rw [evaluate, computeAndPrintVersionsInfo_versionsToDelete]
  exact targetsOfKey_flatMap S N fv hwf k

theorem mem_targetsOfKey (purge : List ObjectIdentifier) (k : String) (t : ObjectIdentifier) :
    t ∈ targetsOfKey purge k ↔ t ∈ purge ∧ t.Key = k := by
  simp [targetsOfKey]

theorem mem_of_lookup_eq_some (fv : FileVersions) (k : String) (vs : List fileVersion)
    (h : fv.lookup k = some vs) : (k, vs) ∈ fv := by
  induction fv with
  | nil => simp at h
  | cons e rest ih =>
    obtain ⟨k', vs'⟩ := e
    rw [List.lookup_cons] at h
    by_cases hb : (k == k') = true
    · rw [hb] at h
      have hk : k = k' := by simpa using hb
      simp only [Option.some.injEq] at h
      subst hk; subst h
      exact List.mem_cons_self _ _
    · have hb2 : (k == k') = false := by simpa using hb
      rw [hb2] at h
      exact List.mem_cons_of_mem _ (ih h)

theorem key_of_mem_recordsOf (fv : FileVersions) (hwf : WellFormed fv) (k : String)
    (v : fileVersion) (hv : v ∈ recordsOf fv k) : v.Key = k := by
  unfold recordsOf at hv
  cases hl : fv.lookup k with
  | none => simp [hl] at hv
  | some vs =>
    simp only [hl, Option.getD_some] at hv
    exact hwf.2 (k, vs) (mem_of_lookup_eq_some fv k vs hl) v hv

theorem nodup_sort_of_distinct (S : SliceSorter) (l : List fileVersion)
    (h : DistinctVersionIDs l) : (S.sort l).Nodup := by
  have h2 : ((S.sort l).map (fun v => v.VersionID)).Nodup :=
    (List.Perm.nodup_iff (List.Perm.map _ (S.perm l))).2 h
  exact List.Nodup.of_map _ h2

/-- For a key that is evaluated, a record of the key is a purge target exactly when its own
walk purged it. -/
theorem mem_versionsToDelete_iff (S : SliceSorter) (N : Int) (bucket : String)
    (fv : FileVersions) (k : String) (hwf : WellFormed fv)
    (hids : DistinctVersionIDs (recordsOf fv k)) (hcount : N < (recordCount fv k : Int))
    (v : fileVersion) (hv : v ∈ recordsOf fv k) :
    toIdentifier v ∈ (evaluate S N bucket fv).versionsToDelete ↔
      v ∈ purgedFrom N 0 (S.sort (recordsOf fv k)) := by
  have hkey : (toIdentifier v).Key = k := key_of_mem_recordsOf fv hwf k v hv
  have h1 : toIdentifier v ∈ (evaluate S N bucket fv).versionsToDelete ↔
      toIdentifier v ∈ targetsOfKey (evaluate S N bucket fv).versionsToDelete k := by
    rw [mem_targetsOfKey]; simp [hkey]
  rw [h1, targetsOfKey_evaluate S N bucket fv hwf k, if_neg (not_le.2 hcount)]
  constructor
  · intro h
    rcases List.mem_map.1 h with ⟨w, hw, hwv⟩
    have hwl : w ∈ recordsOf fv k :=
      (mem_sort_iff S _ w).1 (mem_of_mem_purgedFrom N _ _ w hw)
    have hid : w.VersionID = v.VersionID := by
      have := congrArg ObjectIdentifier.VersionId hwv
      simpa [toIdentifier] using this
    have : w = v := List.inj_on_of_nodup_map hids hwl hv hid
    exact this ▸ hw
  · intro h
    exact List.mem_map_of_mem _ h

/-- In a list without repetition, the record at position `i` is named by the purge rule
exactly when at least `N` live versions stand before position `i`. -/
theorem getElem_mem_purgeRule_iff (N : Int) (l : List fileVersion) (hnd : l.Nodup) (i : Nat)
    (hi : i < l.length) :
    l[i] ∈ purgeRule N l ↔ N ≤ (liveCount (l.take i) : Int) := by
  unfold purgeRule
  constructor
  · intro h
    rcases List.mem_map.1 h with ⟨p, hp, hpe⟩
    obtain ⟨j, x⟩ := p
    rw [List.mem_filter] at hp
    obtain ⟨hmem, hcond⟩ := hp
    have hj : l[j]? = some x := List.mk_mem_enum_iff_getElem?.1 hmem
    have hjlt : j < l.length := by
      by_contra hcon
      rw [List.getElem?_eq_none (not_lt.1 hcon)] at hj
      cases hj
    rw [List.getElem?_eq_getElem hjlt] at hj
    simp only [Option.some.injEq] at hj
    simp only at hpe
    have hji : j = i := (List.Nodup.getElem_inj_iff hnd).1 (hj.trans hpe)
    subst hji
    simpa using hcond
  · intro h
    refine List.mem_map.2 ⟨(i, l[i]), ?_, rfl⟩
    rw [List.mem_filter]
    refine ⟨List.mk_mem_enum_iff_getElem?.2 (List.getElem?_eq_getElem hi), ?_⟩
    simpa using h

theorem sorted_descending (S : SliceSorter) (l : List fileVersion) :
    List.Pairwise (fun a b => a.LastModified ≥ b.LastModified) (S.sort l) := by
  refine List.Pairwise.imp ?_ (S.sorted l)
  intro a b h
  simpa [lessVersion] using h

/-! ## C1: threshold exemption -/

/-- C1. Threshold exemption: in a well-formed version history, a key whose total record
count (live versions plus delete markers) is at most the retention count `N` has no purge
target: the purge list computed by `ignoreFilesWithFewerVersions` followed by
`computeAndPrintVersionsInfo` holds no identifier naming that key, and so none of the
records of the key. -/
theorem threshold_exemption (S : SliceSorter) (N : Int) (bucket : String)
    (fv : FileVersions) (k : String) (hwf : WellFormed fv)
    (hcount : (recordCount fv k : Int) ≤ N) :
    (∀ t ∈ (evaluate S N bucket fv).versionsToDelete, t.Key ≠ k) ∧
      ∀ v ∈ recordsOf fv k, toIdentifier v ∉ (evaluate S N bucket fv).versionsToDelete := by
  have h := targetsOfKey_evaluate S N bucket fv hwf k
  rw [if_pos hcount] at h
  have hnone : ∀ t ∈ (evaluate S N bucket fv).versionsToDelete, t.Key ≠ k := by
    intro t ht hk
    have : t ∈ targetsOfKey (evaluate S N bucket fv).versionsToDelete k :=
      (mem_targetsOfKey _ _ _).2 ⟨ht, hk⟩
    rw [h] at this
    cases this
  refine ⟨hnone, fun v hv hmem => hnone _ hmem ?_⟩
  exact key_of_mem_recordsOf fv hwf k v hv

/-- Witness for C1: the key of the scenario `[liveA, liveB, deleteMarkerC]` has three
records and is exempt under `N = 3`. -/
theorem threshold_exemption_witness :
    WellFormed scenarioLiveLiveMarker ∧
    (recordCount scenarioLiveLiveMarker scenarioKey : Int) ≤ 3 ∧
    ((∀ t ∈ (evaluate stdSorter 3 "b" scenarioLiveLiveMarker).versionsToDelete,
        t.Key ≠ scenarioKey) ∧
      ∀ v ∈ recordsOf scenarioLiveLiveMarker scenarioKey,
        toIdentifier v ∉ (evaluate stdSorter 3 "b" scenarioLiveLiveMarker).versionsToDelete) :=
  ⟨by decide, by decide,
    threshold_exemption stdSorter 3 "b" scenarioLiveLiveMarker scenarioKey (by decide)
      (by decide)⟩

/-! ## C2: how many live versions survive -/

theorem countP_kept (N : Int) (l : List fileVersion) (c : Int) (hnd : l.Nodup) :
    ((l.countP (fun v => isLive v && !decide (v ∈ purgedFrom N c l)) : Nat) : Int) =
      max 0 (min (N - c) (liveCount l : Int)) := by
  induction l generalizing c with
  | nil => simp [liveCount]
  | cons v rest ih =>
    rw [List.nodup_cons] at hnd
    obtain ⟨hv, hrest⟩ := hnd
    have hvp : ∀ c', v ∉ purgedFrom N c' rest := fun c' hmem =>
      hv (mem_of_mem_purgedFrom N rest c' v hmem)
    have htail : rest.countP (fun x => isLive x && !decide (x ∈ purgedFrom N c (v :: rest))) =
        rest.countP (fun x => isLive x &&
          !decide (x ∈ purgedFrom N (if isLive v then c + 1 else c) rest)) := by
      apply List.countP_congr
      intro x hx
      have hxv : x ≠ v := fun h => hv (h ▸ hx)
      by_cases hc : c ≥ N <;> simp [purgedFrom, hc, hxv]
    have hhead : (v ∈ purgedFrom N c (v :: rest)) ↔ c ≥ N := by
      by_cases hc : c ≥ N <;> simp [purgedFrom, hc, hvp]
    rw [List.countP_cons, htail]
    have ih2 := ih (if isLive v then c + 1 else c) hrest
    push_cast
    rw [ih2]
    by_cases hl : isLive v = true <;> by_cases hc : c ≥ N <;>
      simp [hl, hc, hhead, liveCount, List.countP_cons] <;> omega

/-- The number of surviving live versions of an evaluated key is `N` capped by the number
of live versions the key has (and `0` for a negative `N`). -/
theorem survivingLiveCount_evaluate (S : SliceSorter) (N : Int) (bucket : String)
    (fv : FileVersions) (k : String) (hwf : WellFormed fv)
    (hids : DistinctVersionIDs (recordsOf fv k)) (hcount : N < (recordCount fv k : Int)) :
    (survivingLiveCount (recordsOf fv k) (evaluate S N bucket fv).versionsToDelete : Int) =
      max 0 (min N (liveCount (recordsOf fv k) : Int)) := by
  have hperm := S.perm (recordsOf fv k)
  have h1 : survivingLiveCount (recordsOf fv k) (evaluate S N bucket fv).versionsToDelete =
      (S.sort (recordsOf fv k)).countP
        (fun v => isLive v && !decide (v ∈ purgedFrom N 0 (S.sort (recordsOf fv k)))) := by
    unfold survivingLiveCount
    rw [← List.Perm.countP_eq _ hperm]
    apply List.countP_congr
    intro v hv
    have hv2 : v ∈ recordsOf fv k := (mem_sort_iff S _ v).1 hv
    have := mem_versionsToDelete_iff S N bucket fv k hwf hids hcount v hv2
    simp [this]
  rw [h1, countP_kept N _ 0 (nodup_sort_of_distinct S _ hids), liveCount_sort]
  simp

/-- C2, as the code has it. Keep-count: for a retention count `N ≥ 0` and a key of a
well-formed history with distinct version IDs whose total record count exceeds `N` and
which has at least `N` live versions, the number of live versions of the key that are not
in the purge list is exactly `N`. -/
theorem keep_count_with_enough_live (S : SliceSorter) (N : Int) (bucket : String)
    (fv : FileVersions) (k : String) (hwf : WellFormed fv)
    (hids : DistinctVersionIDs (recordsOf fv k)) (hN : 0 ≤ N)
    (hcount : N < (recordCount fv k : Int))
    (hlive : N ≤ (liveCount (recordsOf fv k) : Int)) :
    (survivingLiveCount (recordsOf fv k) (evaluate S N bucket fv).versionsToDelete : Int) =
      N := by
  rw [survivingLiveCount_evaluate S N bucket fv k hwf hids hcount]
  omega

/-- Witness for the amended C2: the scenario `[liveA, deleteMarkerB, liveC, liveD]` under
`N = 2` keeps two live versions. -/
theorem keep_count_with_enough_live_witness :
    WellFormed scenarioLiveMarkerLiveLive ∧
    DistinctVersionIDs (recordsOf scenarioLiveMarkerLiveLive scenarioKey) ∧
    (2 : Int) < (recordCount scenarioLiveMarkerLiveLive scenarioKey : Int) ∧
    (2 : Int) ≤ (liveCount (recordsOf scenarioLiveMarkerLiveLive scenarioKey) : Int) ∧
    (survivingLiveCount (recordsOf scenarioLiveMarkerLiveLive scenarioKey)
      (evaluate stdSorter 2 "b" scenarioLiveMarkerLiveLive).versionsToDelete : Int) = 2 :=
  ⟨by decide, by decide, by decide, by decide,
    keep_count_with_enough_live stdSorter 2 "b" scenarioLiveMarkerLiveLive scenarioKey
      (by decide) (by decide) (by decide) (by decide) (by decide)⟩

/-- C2 fails as stated. A key with one live version and two newer delete markers has three
records; under `N = 2` it is evaluated (3 > 2), nothing of it is purged, and one live
version survives, not two. Under `N = -1` every record is purged and no live version
survives, which is not `-1`. -/
theorem keep_count_counterexample :
    WellFormed scenarioOneLiveTwoMarkers ∧
    DistinctVersionIDs (recordsOf scenarioOneLiveTwoMarkers scenarioKey) ∧
    (2 : Int) < (recordCount scenarioOneLiveTwoMarkers scenarioKey : Int) ∧
    (evaluate stdSorter 2 "b" scenarioOneLiveTwoMarkers).versionsToDelete = [] ∧
    survivingLiveCount (recordsOf scenarioOneLiveTwoMarkers scenarioKey)
      (evaluate stdSorter 2 "b" scenarioOneLiveTwoMarkers).versionsToDelete = 1 ∧
    (survivingLiveCount (recordsOf scenarioOneLiveTwoMarkers scenarioKey)
      (evaluate stdSorter 2 "b" scenarioOneLiveTwoMarkers).versionsToDelete : Int) ≠ 2 ∧
    (-1 : Int) < (recordCount scenarioOneLiveTwoMarkers scenarioKey : Int) ∧
    (survivingLiveCount (recordsOf scenarioOneLiveTwoMarkers scenarioKey)
      (evaluate stdSorter (-1) "b" scenarioOneLiveTwoMarkers).versionsToDelete : Int) ≠ -1 := by
  decide

/-- For an evaluated key with distinct version IDs, the record at position `i` of the
sorted order is a purge target exactly when at least `N` live versions precede it. -/
theorem mem_versionsToDelete_getElem_iff (S : SliceSorter) (N : Int) (bucket : String)
    (fv : FileVersions) (k : String) (hwf : WellFormed fv)
    (hids : DistinctVersionIDs (recordsOf fv k)) (hcount : N < (recordCount fv k : Int))
    (i : Nat) (hi : i < (S.sort (recordsOf fv k)).length) :
    toIdentifier ((S.sort (recordsOf fv k))[i]) ∈ (evaluate S N bucket fv).versionsToDelete ↔
      N ≤ (liveCount ((S.sort (recordsOf fv k)).take i) : Int) := by
  have hmem : (S.sort (recordsOf fv k))[i] ∈ recordsOf fv k :=
    (mem_sort_iff S _ _).1 (List.getElem_mem hi)
  rw [mem_versionsToDelete_iff S N bucket fv k hwf hids hcount _ hmem,
    purgedFrom_eq_purgeRule]
  exact getElem_mem_purgeRule_iff N _ (nodup_sort_of_distinct S _ hids) i hi

/-! ## C3: the purge rule -/

/-- C3. Purge rule: for a key of a well-formed history whose record count exceeds `N`, let
the records be put in the order the code sorts them (a rearrangement of the records of the
key, by descending `lastModified`). The purge targets naming the key are then, in order,
the identifiers of the records that have at least `N` live versions before them; and when
version IDs are distinct within the key, the record at any position is in the purge list
if and only if at least `N` live versions precede that position, live version or delete
marker alike. -/
theorem purge_rule (S : SliceSorter) (N : Int) (bucket : String) (fv : FileVersions)
    (k : String) (hwf : WellFormed fv) (hcount : N < (recordCount fv k : Int)) :
    List.Perm (S.sort (recordsOf fv k)) (recordsOf fv k) ∧
    List.Pairwise (fun a b => a.LastModified ≥ b.LastModified) (S.sort (recordsOf fv k)) ∧
    targetsOfKey (evaluate S N bucket fv).versionsToDelete k =
      (purgeRule N (S.sort (recordsOf fv k))).map toIdentifier ∧
    (DistinctVersionIDs (recordsOf fv k) →
      ∀ (i : Nat) (hi : i < (S.sort (recordsOf fv k)).length),
        (toIdentifier ((S.sort (recordsOf fv k))[i]) ∈
            (evaluate S N bucket fv).versionsToDelete ↔
          N ≤ (liveCount ((S.sort (recordsOf fv k)).take i) : Int))) := by
  refine ⟨S.perm _, sorted_descending S _, ?_, ?_⟩
  · rw [targetsOfKey_evaluate S N bucket fv hwf k, if_neg (not_le.2 hcount),
      purgedFrom_eq_purgeRule]
  · intro hids i hi
    exact mem_versionsToDelete_getElem_iff S N bucket fv k hwf hids hcount i hi

/-- Witness for C3: the scenario `[liveA, liveB, deleteMarkerC]` with `N = 1`; the purge
list is exactly `liveB, deleteMarkerC`, and `liveA` is kept. -/
theorem purge_rule_witness :
    (evaluate stdSorter 1 "b" scenarioLiveLiveMarker).versionsToDelete =
      [{ Key := "k", VersionId := "B" }, { Key := "k", VersionId := "C" }] ∧
    WellFormed scenarioLiveLiveMarker ∧
    (1 : Int) < (recordCount scenarioLiveLiveMarker scenarioKey : Int) ∧
    targetsOfKey (evaluate stdSorter 1 "b" scenarioLiveLiveMarker).versionsToDelete
        scenarioKey =
      (purgeRule 1 (stdSorter.sort (recordsOf scenarioLiveLiveMarker scenarioKey))).map
        toIdentifier :=
  ⟨by decide, by decide, by decide,
    (purge_rule stdSorter 1 "b" scenarioLiveLiveMarker scenarioKey (by decide)
      (by decide)).2.2.1⟩

/-! ## C4: delete markers -/

/-- C4. Delete-marker neutrality: for every `N` (so for every `N ≥ 1`) and a key of a
well-formed history with distinct version IDs that is evaluated (record count above `N`),
take a delete marker at
position `i` of the descending order the code walks. If fewer than `N` live versions are
more recent than it, it is not in the purge list; if at least `N` are, it is in the purge
list; and visiting it does not consume a keep slot: the live-version counter of the loop
has the same value after the marker as before it. -/
theorem delete_marker_neutrality (S : SliceSorter) (N : Int) (bucket : String)
    (fv : FileVersions) (k : String) (hwf : WellFormed fv)
    (hids : DistinctVersionIDs (recordsOf fv k))
    (hcount : N < (recordCount fv k : Int)) (i : Nat)
    (hi : i < (S.sort (recordsOf fv k)).length)
    (hmarker : ((S.sort (recordsOf fv k))[i]).IsDeleteMarker = true) :
    (((liveCount ((S.sort (recordsOf fv k)).take i) : Nat) : Int) < N →
      toIdentifier ((S.sort (recordsOf fv k))[i]) ∉
        (evaluate S N bucket fv).versionsToDelete) ∧
    (N ≤ ((liveCount ((S.sort (recordsOf fv k)).take i) : Nat) : Int) →
      toIdentifier ((S.sort (recordsOf fv k))[i]) ∈
        (evaluate S N bucket fv).versionsToDelete) ∧
    (∀ st : WalkState,
      (((S.sort (recordsOf fv k)).take (i + 1)).foldl (walkStep N) st).versionCount =
        (((S.sort (recordsOf fv k)).take i).foldl (walkStep N) st).versionCount) := by
  have hiff := mem_versionsToDelete_getElem_iff S N bucket fv k hwf hids hcount i hi
  refine ⟨fun h hmem => absurd (hiff.1 hmem) (not_le.2 h), fun h => hiff.2 h, ?_⟩
  intro st
  have e : liveCount ((S.sort (recordsOf fv k)).take (i + 1)) =
      liveCount ((S.sort (recordsOf fv k)).take i) := by
    unfold liveCount
    rw [List.take_succ, List.getElem?_eq_getElem hi, List.countP_append]
    simp [isLive, hmarker]
  rw [foldl_walkStep_versionCount, foldl_walkStep_versionCount, e]

/-- Witness for C4: the scenario `[liveA, deleteMarkerB, liveC, liveD]` with `N = 1`; the
purge list is exactly `deleteMarkerB, liveC, liveD`, and `liveA` is kept. The marker `B`
stands at position 1, after the first live version. -/
theorem delete_marker_neutrality_witness :
    (evaluate stdSorter 1 "b" scenarioLiveMarkerLiveLive).versionsToDelete =
      [{ Key := "k", VersionId := "B" }, { Key := "k", VersionId := "C" },
       { Key := "k", VersionId := "D" }] ∧
    WellFormed scenarioLiveMarkerLiveLive ∧
    DistinctVersionIDs (recordsOf scenarioLiveMarkerLiveLive scenarioKey) ∧
    (1 : Int) < (recordCount scenarioLiveMarkerLiveLive scenarioKey : Int) ∧
    ((stdSorter.sort (recordsOf scenarioLiveMarkerLiveLive scenarioKey))[1]?.map
      (fun v => v.IsDeleteMarker)) = some true ∧
    ((1 : Int) ≤ ((liveCount ((stdSorter.sort
        (recordsOf scenarioLiveMarkerLiveLive scenarioKey)).take 1) : Nat) : Int) →
      toIdentifier ((stdSorter.sort (recordsOf scenarioLiveMarkerLiveLive scenarioKey))[1]) ∈
        (evaluate stdSorter 1 "b" scenarioLiveMarkerLiveLive).versionsToDelete) :=
  ⟨by decide, by decide, by decide, by decide, by decide,
    (delete_marker_neutrality stdSorter 1 "b" scenarioLiveMarkerLiveLive scenarioKey
      (by decide) (by decide) (by decide) 1 (by decide) (by decide)).2.1⟩

/-! ## The batch purger in closed form -/

theorem take_min_length (l : List ObjectIdentifier) (b : Nat) :
    (l.drop b).take (min (b + 1000) l.length - b) = (l.drop b).take 1000 := by
  by_cases h : b + 1000 ≤ l.length
  · rw [Nat.min_eq_left h]; simp
  · have h2 : min (b + 1000) l.length = l.length := Nat.min_eq_right (by omega)
    rw [h2, List.take_of_length_le (by simp), List.take_of_length_le (by simp; omega)]

theorem drop_min_length (l : List ObjectIdentifier) (b : Nat) :
    l.drop (min (b + 1000) l.length) = (l.drop b).drop 1000 := by
  rw [List.drop_drop]
  by_cases h : b + 1000 ≤ l.length
  · rw [Nat.min_eq_left h, Nat.add_comm]
  · have h2 : min (b + 1000) l.length = l.length := Nat.min_eq_right (by omega)
    rw [h2, List.drop_of_length_le (le_refl _), List.drop_of_length_le (by omega)]

/-- The loop issues one call per slice of the remaining list. -/
theorem deleteLoop_eq_runChunks {σ : Type} (api : S3API σ) (bucket : String)
    (l : List ObjectIdentifier) (budget b : Nat) (w : Run σ) :
    deleteLoop api bucket l budget b w = runChunks api bucket (chunkList budget (l.drop b)) w := by
  induction budget generalizing b w with
  | zero => simp [deleteLoop, chunkList, runChunks]
  | succ budget ih =>
    unfold deleteLoop
    by_cases hb : b < l.length
    · have hne : ¬ (l.drop b).length = 0 := by simp; omega
      simp only [hb, if_true, chunkList, hne, if_false, runChunks, take_min_length, deleteCall]
      rcases hres : api.DeleteObjects { Bucket := bucket, Objects := (l.drop b).take 1000 }
        w.remote with ⟨res, remote⟩
      cases res with
      | error err => simp
      | ok response => simp only [ih, drop_min_length]
    · have he : (l.drop b).length = 0 := by simp; omega
      simp [hb, chunkList, he, runChunks]

theorem chunkList_eq_slices (budget : Nat) (l : List ObjectIdentifier)
    (h : l.length ≤ budget) : chunkList budget l = slices l := by
  induction budget generalizing l with
  | zero =>
    have : l = [] := List.eq_nil_of_length_eq_zero (by omega)
    subst this
    simp [chunkList, slices]
  | succ budget ih =>
    unfold chunkList
    by_cases hl : l.length = 0
    · have : l = [] := List.eq_nil_of_length_eq_zero hl
      subst this
      simp [slices]
    · rw [if_neg hl, ih (l.drop 1000) (by simp; omega)]
      unfold slices
      have hk : (l.length + 999) / 1000 = ((l.drop 1000).length + 999) / 1000 + 1 := by
        simp only [List.length_drop]; omega
      rw [hk, List.range_succ_eq_map, List.map_cons, List.map_map]
      simp only [Nat.mul_zero, List.drop_zero, List.cons.injEq, true_and]
      apply List.map_congr_left
      intro i _
      simp only [Function.comp, List.drop_drop]
      congr 2
      omega

/-- The method `deleteS3Versions` logs its first line and then issues one call per
consecutive slice of the purge list, until a call fails. -/
theorem deleteS3Versions_eq_runChunks {σ : Type} (api : S3API σ) (config : Config)
    (bucket : String) (l : List ObjectIdentifier) (w : Run σ) :
    deleteS3Versions api config bucket l w =
      runChunks api bucket (slices l)
        (w.logLine (LogLine.deleting l.length bucket config.BucketPrefix)) := by
  unfold deleteS3Versions
  rw [deleteLoop_eq_runChunks, List.drop_zero, chunkList_eq_slices _ _ (le_refl _)]

/-- What a sequence of chunk calls leaves in the run: the exchanges `E` appended to the
trace are the calls for a leading part of the chunks, one log line follows every answered
call, and either every chunk was sent and answered, or the last exchange is the failed
call whose error is returned. -/
theorem runChunks_trace {σ : Type} (api : S3API σ) (bucket : String)
    (chunks : List (List ObjectIdentifier)) (w : Run σ) :
    ∃ E : List Exchange,
      (runChunks api bucket chunks w).2.calls = w.calls ++ E ∧
      (runChunks api bucket chunks w).2.log = w.log ++ deletedLines E ∧
      E.map (fun x => x.call) = (chunks.take E.length).map (deleteCall bucket) ∧
      (((runChunks api bucket chunks w).1 = none ∧ E.length = chunks.length ∧
          ∀ x ∈ E, x.response.isFailed = false) ∨
        ∃ (e : GoError) (E' : List Exchange) (c : Call),
          (runChunks api bucket chunks w).1 = some e ∧
          E = E' ++ [{ call := c, response := Response.failed e }] ∧
          ∀ x ∈ E', x.response.isFailed = false) := by
  induction chunks generalizing w with
  | nil => exact ⟨[], by simp [runChunks, deletedLines]⟩
  | cons objects rest ih =>
    unfold runChunks
    rcases hres : api.DeleteObjects { Bucket := bucket, Objects := objects } w.remote with
      ⟨res, remote⟩
    cases res with
    | error err =>
      refine ⟨[{ call := deleteCall bucket objects, response := Response.failed err }],
        by simp [Run.exchange], by simp [Run.exchange, deletedLines], by simp, Or.inr ?_⟩
      exact ⟨err, [], deleteCall bucket objects, rfl, by simp, by simp⟩
    | ok response =>
      obtain ⟨E0, hcalls, hlog, hmap, hend⟩ := ih
        ((w.exchange (deleteCall bucket objects) (Response.deleted response) remote).logLine
          (LogLine.deleted response.Deleted.length))
      refine ⟨Exchange.mk (deleteCall bucket objects) (Response.deleted response) :: E0,
        ?_, ?_, ?_, ?_⟩
      · simp only [hcalls]; simp [Run.exchange, Run.logLine]
      · simp only [hlog]; simp [Run.exchange, Run.logLine, deletedLines]
      · simp [hmap]
      · rcases hend with ⟨h1, h2, h3⟩ | ⟨e, E', c, h1, h2, h3⟩
        · refine Or.inl ⟨h1, by simp [h2], ?_⟩
          intro x hx
          rcases List.mem_cons.1 hx with rfl | hx
          · rfl
          · exact h3 x hx
        · refine Or.inr ⟨e,
            Exchange.mk (deleteCall bucket objects) (Response.deleted response) :: E', c, h1,
            by simp [h2], ?_⟩
          intro x hx
          rcases List.mem_cons.1 hx with rfl | hx
          · rfl
          · exact h3 x hx

/-- The trace lemma for `deleteS3Versions`, in terms of what the run adds to the trace and
to the log. -/
theorem deleteS3Versions_trace {σ : Type} (api : S3API σ) (config : Config)
    (bucket : String) (l : List ObjectIdentifier) (w : Run σ) :
    (deleteS3Versions api config bucket l w).2.calls =
      w.calls ++ callsSince w (deleteS3Versions api config bucket l w).2 ∧
    logSince w (deleteS3Versions api config bucket l w).2 =
      LogLine.deleting l.length bucket config.BucketPrefix ::
        deletedLines (callsSince w (deleteS3Versions api config bucket l w).2) ∧
    (callsSince w (deleteS3Versions api config bucket l w).2).map (fun x => x.call) =
      ((slices l).take (callsSince w (deleteS3Versions api config bucket l w).2).length).map
        (deleteCall bucket) ∧
    (((deleteS3Versions api config bucket l w).1 = none ∧
        (callsSince w (deleteS3Versions api config bucket l w).2).length = (slices l).length ∧
        ∀ x ∈ callsSince w (deleteS3Versions api config bucket l w).2,
          x.response.isFailed = false) ∨
      ∃ (e : GoError) (E' : List Exchange) (c : Call),
        (deleteS3Versions api config bucket l w).1 = some e ∧
        callsSince w (deleteS3Versions api config bucket l w).2 =
          E' ++ [{ call := c, response := Response.failed e }] ∧
        ∀ x ∈ E', x.response.isFailed = false) := by
  rw [deleteS3Versions_eq_runChunks]
  obtain ⟨E, hcalls, hlog, hmap, hend⟩ := runChunks_trace api bucket (slices l)
    (w.logLine (LogLine.deleting l.length bucket config.BucketPrefix))
  have hE : callsSince w (runChunks api bucket (slices l)
      (w.logLine (LogLine.deleting l.length bucket config.BucketPrefix))).2 = E := by
    unfold callsSince
    rw [hcalls]
    simp [Run.logLine]
  rw [hE]
  refine ⟨by simpa [Run.logLine] using hcalls, ?_, hmap, hend⟩
  unfold logSince
  rw [hlog]
  simp [Run.logLine]

/-! ## The slices of a purge list -/

theorem length_slices (l : List ObjectIdentifier) :
    (slices l).length = (l.length + 999) / 1000 := by
  simp [slices]

theorem getElem_slices (l : List ObjectIdentifier) (i : Nat) (hi : i < (slices l).length) :
    (slices l)[i] = (l.drop (1000 * i)).take 1000 := by
  simp [slices]

theorem length_getElem_slices (l : List ObjectIdentifier) (i : Nat)
    (hi : i < (slices l).length) :
    ((slices l)[i]).length = min 1000 (l.length - 1000 * i) := by
  rw [getElem_slices]; simp

theorem map_length_slices (l : List ObjectIdentifier) :
    (slices l).map List.length =
      (List.range ((l.length + 999) / 1000)).map (fun i => min 1000 (l.length - 1000 * i)) := by
  simp [slices, Function.comp]

theorem join_chunkList (budget : Nat) (l : List ObjectIdentifier) (h : l.length ≤ budget) :
    (chunkList budget l).flatten = l := by
  induction budget generalizing l with
  | zero =>
    have : l = [] := List.eq_nil_of_length_eq_zero (by omega)
    subst this
    simp [chunkList]
  | succ budget ih =>
    unfold chunkList
    by_cases hl : l.length = 0
    · have : l = [] := List.eq_nil_of_length_eq_zero hl
      subst this
      simp
    · rw [if_neg hl, List.flatten_cons, ih (l.drop 1000) (by simp; omega), List.take_append_drop]

theorem join_slices (l : List ObjectIdentifier) : (slices l).flatten = l := by
  rw [← chunkList_eq_slices l.length l (le_refl _)]
  exact join_chunkList _ _ (le_refl _)

theorem slices_bounds (l : List ObjectIdentifier) :
    (∀ c ∈ slices l, 0 < c.length ∧ c.length ≤ 1000) ∧
    (∀ (i : Nat) (hi : i + 1 < (slices l).length), ((slices l)[i]).length = 1000) := by
  constructor
  · intro c hc
    obtain ⟨i, hi, rfl⟩ := List.getElem_of_mem hc
    rw [length_getElem_slices]
    rw [length_slices] at hi
    omega
  · intro i hi
    rw [length_getElem_slices]
    rw [length_slices] at hi
    omega

/-- When no issued bulk delete failed, `deleteS3Versions` returned `nil` after one call
per slice. -/
theorem deleteS3Versions_of_no_failure {σ : Type} (api : S3API σ) (config : Config)
    (bucket : String) (l : List ObjectIdentifier) (w : Run σ)
    (hok : ∀ x ∈ callsSince w (deleteS3Versions api config bucket l w).2,
      x.response.isFailed = false) :
    (deleteS3Versions api config bucket l w).1 = none ∧
    (callsSince w (deleteS3Versions api config bucket l w).2).length = (slices l).length ∧
    (callsSince w (deleteS3Versions api config bucket l w).2).map (fun x => x.call) =
      (slices l).map (deleteCall bucket) := by
  obtain ⟨_, _, hmap, hend⟩ := deleteS3Versions_trace api config bucket l w
  rcases hend with ⟨h1, h2, _⟩ | ⟨e, E', c, _, h2, _⟩
  · refine ⟨h1, h2, ?_⟩
    rw [hmap, h2, List.take_length]
  · exfalso
    have hmem : Exchange.mk c (Response.failed e) ∈
        callsSince w (deleteS3Versions api config bucket l w).2 := by
      rw [h2]; simp
    have := hok _ hmem
    simp [Response.isFailed] at this

/-! ## C6: batch chunking -/

/-- C6. Batch chunking: on a run of `deleteS3Versions` in which no issued call fails, the
calls issued are, in order, the `DeleteObjects` calls for the consecutive slices
`[0,1000)`, `[1000,2000)`, ... of the purge list. There are `ceil(n / 1000)` of them; no
slice is empty or longer than 1000; every slice but the last has exactly 1000 targets;
slice `i` is the part `[1000 i, 1000 i + 1000)` of the list; the slices concatenated in
call order give back the purge list. A list of 2500 targets gives slices of sizes 1000,
1000, 500, and an empty list gives no call. -/
theorem batch_chunking {σ : Type} (api : S3API σ) (config : Config) (bucket : String)
    (l : List ObjectIdentifier) (w : Run σ)
    (hok : ∀ x ∈ callsSince w (deleteS3Versions api config bucket l w).2,
      x.response.isFailed = false) :
    (deleteS3Versions api config bucket l w).2.calls =
      w.calls ++ callsSince w (deleteS3Versions api config bucket l w).2 ∧
    (callsSince w (deleteS3Versions api config bucket l w).2).map (fun x => x.call) =
      (slices l).map (deleteCall bucket) ∧
    (callsSince w (deleteS3Versions api config bucket l w).2).length =
      (l.length + 999) / 1000 ∧
    (∀ c ∈ slices l, 0 < c.length ∧ c.length ≤ 1000) ∧
    (∀ (i : Nat) (hi : i + 1 < (slices l).length), ((slices l)[i]).length = 1000) ∧
    (∀ (i : Nat) (hi : i < (slices l).length),
      (slices l)[i] = (l.drop (1000 * i)).take 1000) ∧
    (slices l).flatten = l ∧
    (l.length = 2500 → (slices l).map List.length = [1000, 1000, 500]) ∧
    (l.length = 0 → callsSince w (deleteS3Versions api config bucket l w).2 = []) := by
  obtain ⟨_, hlen, hmap⟩ := deleteS3Versions_of_no_failure api config bucket l w hok
  refine ⟨(deleteS3Versions_trace api config bucket l w).1, hmap,
    by rw [hlen, length_slices], (slices_bounds l).1, (slices_bounds l).2,
    fun i hi => getElem_slices l i hi, join_slices l, ?_, ?_⟩
  · intro h
    rw [map_length_slices, h]
    decide
  · intro h
    apply List.eq_nil_of_length_eq_zero
    rw [hlen, length_slices, h]

/-- Witness for C6: three targets against a service that accepts every bulk delete are
sent in one call. -/
theorem batch_chunking_witness :
    (∀ x ∈ callsSince (Run.start 0)
        (deleteS3Versions (stubService none confirmAll) (exampleConfig 1 true) "b"
          (exampleTargets 3) (Run.start 0)).2, x.response.isFailed = false) ∧
    (callsSince (Run.start 0)
        (deleteS3Versions (stubService none confirmAll) (exampleConfig 1 true) "b"
          (exampleTargets 3) (Run.start 0)).2).map (fun x => x.call) =
      (slices (exampleTargets 3)).map (deleteCall "b") :=
  ⟨by decide,
    (batch_chunking (stubService none confirmAll) (exampleConfig 1 true) "b"
      (exampleTargets 3) (Run.start 0) (by decide)).2.1⟩

/-! ## C7: a failing chunk -/

/-- C7. Chunk failure: on every run of `deleteS3Versions`, if call number `j` (counting
from 0, so the `(j+1)`-th call) is the first issued call to return an error, then
`deleteS3Versions` returns exactly that error, that call is the last one issued (`j + 1`
calls in total, none for a later chunk), and the calls issued are the `DeleteObjects`
calls for the first `j + 1` slices of the purge list and nothing else: no compensating
call follows for the `j` chunks already deleted. -/
theorem chunk_failure {σ : Type} (api : S3API σ) (config : Config) (bucket : String)
    (l : List ObjectIdentifier) (w : Run σ) (j : Nat) (e : GoError)
    (hfail : ((callsSince w (deleteS3Versions api config bucket l w).2)[j]?).map
      (fun x => x.response) = some (Response.failed e))
    (hfirst : ∀ x ∈ (callsSince w (deleteS3Versions api config bucket l w).2).take j,
      x.response.isFailed = false) :
    (deleteS3Versions api config bucket l w).1 = some e ∧
    (callsSince w (deleteS3Versions api config bucket l w).2).length = j + 1 ∧
    j < (slices l).length ∧
    (callsSince w (deleteS3Versions api config bucket l w).2).map (fun x => x.call) =
      ((slices l).take (j + 1)).map (deleteCall bucket) ∧
    (deleteS3Versions api config bucket l w).2.calls =
      w.calls ++ callsSince w (deleteS3Versions api config bucket l w).2 := by
  obtain ⟨hcalls, _, hmap, hend⟩ := deleteS3Versions_trace api config bucket l w
  generalize callsSince w (deleteS3Versions api config bucket l w).2 = E at *
  obtain ⟨x, hx, hxr⟩ := Option.map_eq_some'.1 hfail
  rcases hend with ⟨_, _, h3⟩ | ⟨e', E', c, h1, h2, h3⟩
  · exfalso
    have hmem : x ∈ E := List.mem_iff_getElem?.2 ⟨j, hx⟩
    have := h3 x hmem
    rw [hxr] at this
    simp [Response.isFailed] at this
  · subst h2
    have hjE : j = E'.length := by
      rcases Nat.lt_trichotomy j E'.length with hlt | heq | hgt
      · exfalso
        rw [List.getElem?_append_left hlt] at hx
        have := h3 x (List.mem_iff_getElem?.2 ⟨j, hx⟩)
        rw [hxr] at this
        simp [Response.isFailed] at this
      · exact heq
      · exfalso
        rw [List.getElem?_append_right (by omega)] at hx
        have hpos : 0 < j - E'.length := by omega
        obtain ⟨m, hm⟩ := Nat.exists_eq_succ_of_ne_zero (by omega : j - E'.length ≠ 0)
        rw [hm] at hx
        simp at hx
    subst hjE
    have hee : e' = e := by
      simp only [List.getElem?_append_right (le_refl _), Nat.sub_self, List.getElem?_cons_zero,
        Option.some.injEq] at hx
      subst hx
      simpa using hxr
    subst hee
    have hlen : (E' ++ [Exchange.mk c (Response.failed e')]).length = E'.length + 1 := by simp
    refine ⟨h1, hlen, ?_, ?_, hcalls⟩
    · have := congrArg List.length hmap
      simp only [List.length_map, List.length_take, hlen] at this
      omega
    · rw [hmap, hlen]

/-- Witness for C7: 1001 targets against a service whose second bulk delete fails. The
first call (1000 targets) succeeds, the second returns `InternalError`, which
`deleteS3Versions` returns after two calls. -/
theorem chunk_failure_witness :
    (deleteS3Versions (stubService (some 1) confirmAll) (exampleConfig 1 true) "b"
        (exampleTargets 1001) (Run.start 0)).1 =
      some (GoError.aws "InternalError" "InternalError") ∧
    (callsSince (Run.start 0)
        (deleteS3Versions (stubService (some 1) confirmAll) (exampleConfig 1 true) "b"
          (exampleTargets 1001) (Run.start 0)).2).length = 1 + 1 :=
  have h := chunk_failure (stubService (some 1) confirmAll) (exampleConfig 1 true) "b"
    (exampleTargets 1001) (Run.start 0) 1 (GoError.aws "InternalError" "InternalError")
    (by set_option maxRecDepth 100000 in decide) (by set_option maxRecDepth 100000 in decide)
  ⟨h.1, h.2.1⟩

/-! ## C8: what is reported about the deleted objects -/

/-- C8, as the code has it. On every run of `deleteS3Versions` in which no issued call
fails, the call returns `nil` and nothing else, and what it logs is the opening line
followed by one line `Deleted %d versions` per chunk, in call order, each carrying the
length of the `Deleted` list of that chunk's response. No total is formed. -/
theorem deleted_counts_logged_per_chunk {σ : Type} (api : S3API σ) (config : Config)
    (bucket : String) (l : List ObjectIdentifier) (w : Run σ)
    (hok : ∀ x ∈ callsSince w (deleteS3Versions api config bucket l w).2,
      x.response.isFailed = false) :
    (deleteS3Versions api config bucket l w).1 = none ∧
    logSince w (deleteS3Versions api config bucket l w).2 =
      LogLine.deleting l.length bucket config.BucketPrefix ::
        deletedLines (callsSince w (deleteS3Versions api config bucket l w).2) ∧
    (callsSince w (deleteS3Versions api config bucket l w).2).length = (slices l).length := by
  obtain ⟨_, hlog, _, _⟩ := deleteS3Versions_trace api config bucket l w
  obtain ⟨hnone, hlen, _⟩ := deleteS3Versions_of_no_failure api config bucket l w hok
  exact ⟨hnone, hlog, hlen⟩

/-- Witness for the amended C8: three targets, all confirmed, one line `Deleted 3`. -/
theorem deleted_counts_logged_per_chunk_witness :
    (deleteS3Versions (stubService none confirmAll) (exampleConfig 1 true) "b"
        (exampleTargets 3) (Run.start 0)).1 = none ∧
    logSince (Run.start 0)
        (deleteS3Versions (stubService none confirmAll) (exampleConfig 1 true) "b"
          (exampleTargets 3) (Run.start 0)).2 =
      [LogLine.deleting 3 "b" "", LogLine.deleted 3] :=
  have h := deleted_counts_logged_per_chunk (stubService none confirmAll)
    (exampleConfig 1 true) "b" (exampleTargets 3) (Run.start 0) (by decide)
  ⟨h.1, h.2.1.trans (by decide)⟩

/-- C8 fails as stated. With 1002 targets and a service that confirms all but the first
object of each chunk, 999 + 1 = 1000 versions are confirmed deleted; `deleteS3Versions`
returns `nil` and logs `Deleted 999` and `Deleted 1`, and the total 1000 appears nowhere.
And the value handed to the caller is the same `nil` whether the service confirms every
object or none. -/
theorem deleted_count_report_counterexample :
    (deleteS3Versions (stubService none confirmAllButFirst) (exampleConfig 1 true) "b"
        (exampleTargets 1002) (Run.start 0)).1 = none ∧
    (deleteS3Versions (stubService none confirmAllButFirst) (exampleConfig 1 true) "b"
        (exampleTargets 1002) (Run.start 0)).2.log =
      [LogLine.deleting 1002 "b" "", LogLine.deleted 999, LogLine.deleted 1] ∧
    (deleteS3Versions (stubService none confirmAll) (exampleConfig 1 true) "b"
        (exampleTargets 2) (Run.start 0)).2.log =
      [LogLine.deleting 2 "b" "", LogLine.deleted 2] ∧
    (deleteS3Versions (stubService none confirmNone) (exampleConfig 1 true) "b"
        (exampleTargets 2) (Run.start 0)).2.log =
      [LogLine.deleting 2 "b" "", LogLine.deleted 0] ∧
    (deleteS3Versions (stubService none confirmAll) (exampleConfig 1 true) "b"
        (exampleTargets 2) (Run.start 0)).1 =
      (deleteS3Versions (stubService none confirmNone) (exampleConfig 1 true) "b"
        (exampleTargets 2) (Run.start 0)).1 := by
  set_option maxRecDepth 100000 in decide

/-! ## C9: a partial batch is not an error -/

/-- C9. Partial batch: against a service whose `DeleteObjects` never returns a call-level
error, whatever `Deleted` lists its responses carry, `deleteS3Versions` returns `nil` and
goes through every chunk: it issues the call of each consecutive slice of the purge
list, in order. -/
theorem partial_batch_is_not_an_error {σ : Type} (api : S3API σ) (config : Config)
    (bucket : String) (l : List ObjectIdentifier) (w : Run σ)
    (hok : ∀ (input : DeleteObjectsInput) (remote : σ),
      ∃ response remote', api.DeleteObjects input remote = (Except.ok response, remote')) :
    (deleteS3Versions api config bucket l w).1 = none ∧
    (deleteS3Versions api config bucket l w).2.calls =
      w.calls ++ callsSince w (deleteS3Versions api config bucket l w).2 ∧
    (callsSince w (deleteS3Versions api config bucket l w).2).map (fun x => x.call) =
      (slices l).map (deleteCall bucket) := by
  have hnofail : ∀ (chunks : List (List ObjectIdentifier)) (w' : Run σ),
      (runChunks api bucket chunks w').1 = none := by
    intro chunks
    induction chunks with
    | nil => intro w'; rfl
    | cons objects rest ih =>
      intro w'
      obtain ⟨response, remote', h⟩ := hok { Bucket := bucket, Objects := objects } w'.remote
      unfold runChunks
      rw [h]
      exact ih _
  have hnone : (deleteS3Versions api config bucket l w).1 = none := by
    rw [deleteS3Versions_eq_runChunks]; exact hnofail _ _
  obtain ⟨hcalls, _, hmap, hend⟩ := deleteS3Versions_trace api config bucket l w
  rcases hend with ⟨_, h2, _⟩ | ⟨e, _, _, h1, _, _⟩
  · exact ⟨hnone, hcalls, by rw [hmap, h2, List.take_length]⟩
  · rw [hnone] at h1; cases h1

/-- Witness for C9: a service that accepts every bulk delete and confirms nothing. Two
targets are requested, none is confirmed, and `deleteS3Versions` returns `nil`. -/
theorem partial_batch_is_not_an_error_witness :
    (∀ (input : DeleteObjectsInput) (remote : Nat),
      ∃ response remote',
        (stubService none confirmNone).DeleteObjects input remote =
          (Except.ok response, remote')) ∧
    (deleteS3Versions (stubService none confirmNone) (exampleConfig 1 true) "b"
        (exampleTargets 2) (Run.start 0)).1 = none ∧
    (deleteS3Versions (stubService none confirmNone) (exampleConfig 1 true) "b"
        (exampleTargets 2) (Run.start 0)).2.log =
      [LogLine.deleting 2 "b" "", LogLine.deleted 0] :=
  ⟨fun input remote => ⟨{ Deleted := [] }, remote + 1, rfl⟩,
    (partial_batch_is_not_an_error (stubService none confirmNone) (exampleConfig 1 true) "b"
      (exampleTargets 2) (Run.start 0)
      (fun input remote => ⟨{ Deleted := [] }, remote + 1, rfl⟩)).1,
    by decide⟩

/-! ## Runs without a bulk delete -/

theorem NoDelete.refl {σ β : Type} (stored : σ → β) (w : Run σ) : NoDelete stored w w :=
  ⟨⟨[], by simp, by simp⟩, rfl⟩

theorem NoDelete.trans {σ β : Type} {stored : σ → β} {w₁ w₂ w₃ : Run σ}
    (h₁ : NoDelete stored w₁ w₂) (h₂ : NoDelete stored w₂ w₃) : NoDelete stored w₁ w₃ := by
  obtain ⟨⟨E₁, hc₁, hE₁⟩, hs₁⟩ := h₁
  obtain ⟨⟨E₂, hc₂, hE₂⟩, hs₂⟩ := h₂
  refine ⟨⟨E₁ ++ E₂, by rw [hc₂, hc₁, List.append_assoc], ?_⟩, hs₂.trans hs₁⟩
  intro x hx
  rcases List.mem_append.1 hx with hx | hx
  · exact hE₁ x hx
  · exact hE₂ x hx

theorem noDelete_logLine {σ β : Type} (stored : σ → β) (w : Run σ) (line : LogLine) :
    NoDelete stored w (w.logLine line) :=
  ⟨⟨[], by simp [Run.logLine], by simp⟩, rfl⟩

theorem noDelete_exchange {σ β : Type} (stored : σ → β) (w : Run σ) (call : Call)
    (response : Response) (remote : σ) (hcall : call.isDeleteObjects = false)
    (hst : stored remote = stored w.remote) :
    NoDelete stored w (w.exchange call response remote) :=
  ⟨⟨[{ call := call, response := response }], by simp [Run.exchange], by simpa using hcall⟩,
    hst⟩

theorem callsSince_of_noDelete {σ β : Type} {stored : σ → β} {w w' : Run σ}
    (h : NoDelete stored w w') : ∀ x ∈ callsSince w w', x.call.isDeleteObjects = false := by
  obtain ⟨⟨E, hc, hE⟩, _⟩ := h
  unfold callsSince
  rw [hc]
  simpa using hE

theorem calls_eq_of_noDelete {σ β : Type} {stored : σ → β} {w w' : Run σ}
    (h : NoDelete stored w w') : w'.calls = w.calls ++ callsSince w w' := by
  obtain ⟨⟨E, hc, _⟩, _⟩ := h
  unfold callsSince
  rw [hc]
  simp

theorem noDelete_getAllBuckets {σ β : Type} (api : S3API σ) (stored : σ → β)
    (hread : ReadsPreserve api stored) (w : Run σ) :
    NoDelete stored w (getAllBuckets api w).2 := by
  have hst := hread.1 (w.logLine LogLine.listAllBuckets).remote
  have hlog := noDelete_logLine stored w LogLine.listAllBuckets
  unfold getAllBuckets
  dsimp only
  split
  next err remote heq =>
    rw [heq] at hst
    exact hlog.trans (noDelete_exchange stored _ _ _ _ (by rfl) hst)
  next response remote heq =>
    rw [heq] at hst
    exact hlog.trans (noDelete_exchange stored _ _ _ _ (by rfl) hst)

theorem noDelete_existsBucket {σ β : Type} (api : S3API σ) (stored : σ → β)
    (hread : ReadsPreserve api stored) (name : String) (w : Run σ) :
    NoDelete stored w (existsBucket api name w).2 := by
  unfold existsBucket
  have hst := hread.2.1 name w.remote
  rcases hres : api.HeadBucket name w.remote with ⟨res, remote⟩
  rw [hres] at hst
  cases res with
  | ok _ => exact noDelete_exchange stored _ _ _ _ (by rfl) hst
  | error err =>
    cases err with
    | aws code message =>
      simp only
      split <;> exact noDelete_exchange stored _ _ _ _ (by rfl) hst
    | other message => exact noDelete_exchange stored _ _ _ _ (by rfl) hst

theorem noDelete_getBuckets {σ β : Type} (api : S3API σ) (stored : σ → β)
    (hread : ReadsPreserve api stored) (config : Config) (w : Run σ) :
    NoDelete stored w (getBuckets api config w).2 := by
  unfold getBuckets
  split
  · exact noDelete_getAllBuckets api stored hread w
  · have h := noDelete_existsBucket api stored hread config.BucketName w
    rcases hres : existsBucket api config.BucketName w with ⟨res, w1⟩
    rw [hres] at h
    cases res with
    | error err => exact h
    | ok found => cases found <;> exact h

theorem noDelete_isVersioningEnabled {σ β : Type} (api : S3API σ) (stored : σ → β)
    (hread : ReadsPreserve api stored) (bucket : String) (w : Run σ) :
    NoDelete stored w (isVersioningEnabled api bucket w).2 := by
  unfold isVersioningEnabled
  have hst := hread.2.2.1 bucket w.remote
  rcases hres : api.GetBucketVersioning bucket w.remote with ⟨res, remote⟩
  rw [hres] at hst
  cases res with
  | ok _ => exact noDelete_exchange stored _ _ _ _ (by rfl) hst
  | error err =>
    cases err with
    | aws code message =>
      simp only
      split <;> exact noDelete_exchange stored _ _ _ _ (by rfl) hst
    | other message => exact noDelete_exchange stored _ _ _ _ (by rfl) hst

theorem noDelete_filterLoop {σ β : Type} (api : S3API σ) (stored : σ → β)
    (hread : ReadsPreserve api stored) (buckets acc : List String) (w : Run σ) :
    NoDelete stored w (filterLoop api buckets acc w).2 := by
  induction buckets generalizing acc w with
  | nil => exact NoDelete.refl stored w
  | cons bucket rest ih =>
    unfold filterLoop
    have h := noDelete_isVersioningEnabled api stored hread bucket w
    rcases hres : isVersioningEnabled api bucket w with ⟨res, w1⟩
    rw [hres] at h
    cases res with
    | error err => exact h
    | ok enabled => exact h.trans (ih _ w1)

theorem noDelete_listLoop {σ β : Type} (api : S3API σ) (stored : σ → β)
    (hread : ReadsPreserve api stored) (config : Config) (bucket : String) (pages : Nat)
    (fv : FileVersions) (keyMarker : Option String) (pageNumber versionCount : Int)
    (w : Run σ) :
    NoDelete stored w
      (listLoop api config bucket pages fv keyMarker pageNumber versionCount w).2 := by
  induction pages generalizing fv keyMarker pageNumber versionCount w with
  | zero => exact NoDelete.refl stored w
  | succ pages ih =>
    unfold listLoop
    simp only
    have hst := hread.2.2.2 (listRequest config bucket keyMarker) w.remote
    rcases hres : api.ListObjectVersions (listRequest config bucket keyMarker) w.remote with
      ⟨res, remote⟩
    rw [hres] at hst
    cases res with
    | error err => exact noDelete_exchange stored _ _ _ _ (by rfl) hst
    | ok response =>
      have h1 := (noDelete_exchange stored w
        (Call.listObjectVersions (listRequest config bucket keyMarker))
        (Response.versions response) remote rfl hst).trans
        (noDelete_logLine stored _ (LogLine.gotPage
          ((response.Versions.length : Int) + (response.DeleteMarkers.length : Int))
          pageNumber))
      simp only
      cases hm : response.NextKeyMarker with
      | none => exact h1
      | some marker =>
        simp only
        split
        · exact h1
        · exact h1.trans (ih _ _ _ _ _)

theorem noDelete_getFileVersions {σ β : Type} (api : S3API σ) (stored : σ → β)
    (hread : ReadsPreserve api stored) (config : Config) (bucket : String) (pages : Nat)
    (w : Run σ) : NoDelete stored w (getFileVersions api config bucket pages w).2 := by
  have h := (noDelete_logLine stored w
    (LogLine.getFileVersions bucket config.BucketPrefix)).trans
    (noDelete_listLoop api stored hread config bucket pages [] none 1 0 _)
  unfold getFileVersions
  dsimp only
  split
  next fileVersions versionCount w1 heq =>
    rw [heq] at h
    exact h.trans (noDelete_logLine stored _ _)
  next err w1 heq =>
    rw [heq] at h
    exact h
  next w1 heq =>
    rw [heq] at h
    exact h

/-- What `findAndRemoveVersions` does in a dry run once the listing has returned: it
evaluates the history, logs the evaluator's lines and returns. -/
theorem findAndRemoveVersions_dry {σ : Type} (api : S3API σ) (S : SliceSorter)
    (config : Config) (hconfirm : config.Confirm = false) (pages : Nat) (bucket : String)
    (w : Run σ) (fv : FileVersions) (w1 : Run σ)
    (hlist : getFileVersions api config bucket pages w = (Outcome.returned fv, w1)) :
    findAndRemoveVersions api S config pages bucket w =
      (Outcome.returned (),
        { w1 with log := w1.log ++ (evaluate S config.VersionsCount bucket fv).log }) := by
  unfold findAndRemoveVersions
  rw [hlist]
  simp [hconfirm]

theorem noDelete_findAndRemoveVersions {σ β : Type} (api : S3API σ) (stored : σ → β)
    (hread : ReadsPreserve api stored) (S : SliceSorter) (config : Config)
    (hconfirm : config.Confirm = false) (pages : Nat) (bucket : String) (w : Run σ) :
    NoDelete stored w (findAndRemoveVersions api S config pages bucket w).2 := by
  have h := noDelete_getFileVersions api stored hread config bucket pages w
  rcases hres : getFileVersions api config bucket pages w with ⟨res, w1⟩
  rw [hres] at h
  cases res with
  | returned fv =>
    rw [findAndRemoveVersions_dry api S config hconfirm pages bucket w fv w1 hres]
    exact h.trans ⟨⟨[], by simp, by simp⟩, rfl⟩
  | failed err =>
    unfold findAndRemoveVersions
    rw [hres]
    exact h
  | running =>
    unfold findAndRemoveVersions
    rw [hres]
    exact h

theorem noDelete_bucketLoop {σ β : Type} (api : S3API σ) (stored : σ → β)
    (hread : ReadsPreserve api stored) (S : SliceSorter) (config : Config)
    (hconfirm : config.Confirm = false) (pages : Nat) (buckets : List String) (w : Run σ) :
    NoDelete stored w (bucketLoop api S config pages buckets w).2 := by
  induction buckets generalizing w with
  | nil => exact NoDelete.refl stored w
  | cons bucket rest ih =>
    have h := noDelete_findAndRemoveVersions api stored hread S config hconfirm pages bucket w
    unfold bucketLoop
    rcases hres : findAndRemoveVersions api S config pages bucket w with ⟨res, w1⟩
    rw [hres] at h
    cases res with
    | returned _ => exact h.trans (ih w1)
    | failed err => exact h
    | running => exact h

theorem noDelete_Delete {σ β : Type} (api : S3API σ) (stored : σ → β)
    (hread : ReadsPreserve api stored) (S : SliceSorter) (config : Config)
    (hconfirm : config.Confirm = false) (pages : Nat) (w : Run σ) :
    NoDelete stored w (Delete api S config pages w).2 := by
  have h1 := noDelete_getBuckets api stored hread config w
  unfold Delete
  rcases hres : getBuckets api config w with ⟨res, w1⟩
  rw [hres] at h1
  cases res with
  | error err => exact h1
  | ok buckets =>
    dsimp only
    have h2 := h1.trans (noDelete_logLine stored w1 (LogLine.foundBuckets buckets))
    have h3 := noDelete_filterLoop api stored hread buckets []
      (w1.logLine (LogLine.foundBuckets buckets))
    unfold filterBucketsByVersioningEnabled
    rcases hres2 : filterLoop api buckets [] (w1.logLine (LogLine.foundBuckets buckets)) with
      ⟨res2, w3⟩
    rw [hres2] at h3
    cases res2 with
    | error err => exact h2.trans h3
    | ok versioned =>
      exact ((h2.trans h3).trans (noDelete_logLine stored w3 _)).trans
        (noDelete_bucketLoop api stored hread S config hconfirm pages versioned _)

/-- The read operations of the in-memory service of the tests leave it as it was. -/
theorem readsPreserve_mockService : ReadsPreserve mockService (fun c : s3apiMock => c) := by
  refine ⟨fun s => rfl, fun bucket s => ?_, fun bucket s => ?_, fun input s => ?_⟩
  · show (s3apiMock.HeadBucket bucket s).2 = s
    unfold s3apiMock.HeadBucket
    split <;> rfl
  · show (s3apiMock.GetBucketVersioning bucket s).2 = s
    unfold s3apiMock.GetBucketVersioning
    split
    · rfl
    · split <;> rfl
  · show (s3apiMock.ListObjectVersions input s).2 = s
    unfold s3apiMock.ListObjectVersions
    split
    · rfl
    · dsimp only
      split <;> rfl

theorem readsPreserve_trivial {σ : Type} (api : S3API σ) :
    ReadsPreserve api (fun _ : σ => ()) :=
  ⟨fun _ => rfl, fun _ _ => rfl, fun _ _ => rfl, fun _ _ => rfl⟩

/-! ## C5: dry run -/

/-- C5. Dry run: with `Confirm = false`, for every service, every state of it and every
listing budget, a run of `Delete` issues no `DeleteObjects` call, and neither does
`findAndRemoveVersions` for any bucket; whatever the read operations of the service leave
unchanged (the stored versions of every bucket) is unchanged after the run; and
`findAndRemoveVersions` still computes the purge list: once the listing has returned it
logs the evaluator's report and returns. A `DeleteObjects` call is issued only under
`Confirm = true`. -/
theorem dry_run {σ : Type} (api : S3API σ) (S : SliceSorter) (config : Config)
    (pages : Nat) (w : Run σ) (hconfirm : config.Confirm = false) :
    (Delete api S config pages w).2.calls =
      w.calls ++ callsSince w (Delete api S config pages w).2 ∧
    (∀ x ∈ callsSince w (Delete api S config pages w).2, x.call.isDeleteObjects = false) ∧
    (∀ (bucket : String) (w0 : Run σ),
      ∀ x ∈ callsSince w0 (findAndRemoveVersions api S config pages bucket w0).2,
        x.call.isDeleteObjects = false) ∧
    (∀ (β : Type) (stored : σ → β), ReadsPreserve api stored →
      stored (Delete api S config pages w).2.remote = stored w.remote) ∧
    (∀ (bucket : String) (w0 w1 : Run σ) (fv : FileVersions),
      getFileVersions api config bucket pages w0 = (Outcome.returned fv, w1) →
      findAndRemoveVersions api S config pages bucket w0 =
        (Outcome.returned (),
          { w1 with log := w1.log ++ (evaluate S config.VersionsCount bucket fv).log })) ∧
    (∀ config' : Config,
      (∃ x ∈ callsSince w (Delete api S config' pages w).2, x.call.isDeleteObjects = true) →
      config'.Confirm = true) := by
  refine ⟨?_, ?_, ?_, ?_, ?_, ?_⟩
  · exact calls_eq_of_noDelete
      (noDelete_Delete api _ (readsPreserve_trivial api) S config hconfirm pages w)
  · exact callsSince_of_noDelete
      (noDelete_Delete api _ (readsPreserve_trivial api) S config hconfirm pages w)
  · intro bucket w0
    exact callsSince_of_noDelete
      (noDelete_findAndRemoveVersions api _ (readsPreserve_trivial api) S config hconfirm
        pages bucket w0)
  · intro β stored hread
    exact (noDelete_Delete api stored hread S config hconfirm pages w).2
  · intro bucket w0 w1 fv hlist
    exact findAndRemoveVersions_dry api S config hconfirm pages bucket w0 fv w1 hlist
  · intro config' hex
    by_contra hne
    have hfalse : config'.Confirm = false := by simpa using hne
    obtain ⟨x, hx, hdel⟩ := hex
    have := callsSince_of_noDelete
      (noDelete_Delete api _ (readsPreserve_trivial api) S config' hfalse pages w) x hx
    rw [this] at hdel
    cases hdel

/-- Witness for C5: the test `TestSkipDelete`. Against the in-memory service of the tests,
`Delete` with `Confirm = false` returns `nil`, issues no `DeleteObjects` call and leaves
every bucket as it was (4, 3 and 2 versions under `b1/key1`, `b1/key2`, `b2/key1`). -/
theorem dry_run_witness :
    (testConfig false).Confirm = false ∧
    (Delete mockService stdSorter (testConfig false) 10 (Run.start testMock)).1 =
      Outcome.returned () ∧
    (Delete mockService stdSorter (testConfig false) 10 (Run.start testMock)).2.remote =
      testMock ∧
    (∀ x ∈ callsSince (Run.start testMock)
        (Delete mockService stdSorter (testConfig false) 10 (Run.start testMock)).2,
      x.call.isDeleteObjects = false) :=
  have h := dry_run mockService stdSorter (testConfig false) 10 (Run.start testMock) rfl
  ⟨rfl, by decide, h.2.2.2.1 s3apiMock (fun c => c) readsPreserve_mockService, h.2.1⟩

/-! ## The version enumerator in closed form -/

theorem lookup_mapSet (m : FileVersions) (key : String) (value : List fileVersion)
    (k : String) :
    (mapSet m key value).lookup k = if k = key then some value else m.lookup k := by
  induction m with
  | nil =>
    by_cases hk : k = key
    · simp [mapSet, List.lookup_cons, hk]
    · have hb : (k == key) = false := by simpa using hk
      simp [mapSet, List.lookup_cons, hk, hb]
  | cons e rest ih =>
    obtain ⟨k', v⟩ := e
    unfold mapSet
    by_cases hkk : k' = key
    · subst hkk
      by_cases hk : k = k'
      · simp [List.lookup_cons, hk]
      · have hb : (k == k') = false := by simpa using hk
        simp [List.lookup_cons, hk, hb]
    · rw [if_neg hkk]
      by_cases hk : k = k'
      · subst hk
        simp [List.lookup_cons, hkk]
      · have hb : (k == k') = false := by simpa using hk
        simp only [List.lookup_cons, hb, ih]

theorem lookup_appendRecord (m : FileVersions) (fv : fileVersion) (k : String) :
    (appendRecord m fv).lookup k =
      if k = fv.Key then some (recordsOf m fv.Key ++ [fv]) else m.lookup k := by
  unfold appendRecord recordsOf
  cases h : m.lookup fv.Key with
  | none => simp [lookup_mapSet]
  | some versions => simp [lookup_mapSet]

/-- After a sequence of records has been appended, a key holds what it held before
followed by the records of that key, in arrival order. -/
theorem lookup_foldl_appendRecord (records : List fileVersion) (m : FileVersions)
    (k : String) :
    (records.foldl appendRecord m).lookup k =
      if (records.filter (fun r => decide (r.Key = k))).length = 0 then m.lookup k
      else some (recordsOf m k ++ records.filter (fun r => decide (r.Key = k))) := by
  induction records generalizing m with
  | nil => simp
  | cons r rest ih =>
    rw [List.foldl_cons, ih]
    by_cases hk : r.Key = k
    · have hrec : recordsOf (appendRecord m r) k = recordsOf m k ++ [r] := by
        unfold recordsOf
        rw [lookup_appendRecord, if_pos hk.symm, hk]
        rfl
      have hlook : (appendRecord m r).lookup k = some (recordsOf m k ++ [r]) := by
        rw [lookup_appendRecord, if_pos hk.symm, hk]
      simp only [List.filter_cons, hk, decide_True, if_true, List.length_cons, hrec, hlook]
      by_cases h0 : (rest.filter (fun r => decide (r.Key = k))).length = 0
      · have h0' := List.length_eq_zero.1 h0
        simp [h0, h0']
      · simp [h0]
    · have hlook : (appendRecord m r).lookup k = m.lookup k := by
        rw [lookup_appendRecord, if_neg (fun h => hk h.symm)]
      have hrec : recordsOf (appendRecord m r) k = recordsOf m k := by
        unfold recordsOf; rw [hlook]
      simp only [List.filter_cons, hk, decide_False, hrec, hlook]
      simp

theorem pageStep_eq_foldl (m : FileVersions) (page : ListObjectVersionsOutput) :
    pageStep m page = (pageRecords page).foldl appendRecord m := by
  simp [pageStep, pageRecords, appendFileVersions, appendDeleteMarkers, List.foldl_append,
    List.foldl_map]

theorem foldl_pageStep_eq_foldl (pages : List ListObjectVersionsOutput) (m : FileVersions) :
    pages.foldl pageStep m = (pages.flatMap pageRecords).foldl appendRecord m := by
  induction pages generalizing m with
  | nil => rfl
  | cons page rest ih =>
    rw [List.foldl_cons, ih, pageStep_eq_foldl, List.flatMap_cons, List.foldl_append]

theorem pageRecords_mergePages_perm (pages : List ListObjectVersionsOutput) :
    List.Perm (pages.flatMap pageRecords) (pageRecords (mergePages pages)) := by
  induction pages with
  | nil => simp [pageRecords, mergePages]
  | cons page rest ih =>
    have h : pageRecords (mergePages (page :: rest)) =
        page.Versions.map recordOfVersion ++
          ((mergePages rest).Versions.map recordOfVersion ++
            (page.DeleteMarkers.map recordOfMarker ++
              (mergePages rest).DeleteMarkers.map recordOfMarker)) := by
      simp [pageRecords, mergePages]
    rw [h, List.flatMap_cons]
    have h2 : pageRecords page ++ rest.flatMap pageRecords =
        page.Versions.map recordOfVersion ++
          (page.DeleteMarkers.map recordOfMarker ++ rest.flatMap pageRecords) := by
      simp [pageRecords]
    rw [h2]
    refine List.Perm.append_left _ ?_
    refine (List.Perm.append_left _ ih).trans ?_
    unfold pageRecords
    rw [← List.append_assoc, ← List.append_assoc]
    exact List.Perm.append_right _ List.perm_append_comm

/-- Histories built from rearrangements of the same records agree. -/
theorem sameHistory_of_perm (A B : List fileVersion) (h : List.Perm A B) :
    SameHistory (A.foldl appendRecord []) (B.foldl appendRecord []) := by
  intro k
  have hf : List.Perm (A.filter (fun r => decide (r.Key = k)))
      (B.filter (fun r => decide (r.Key = k))) := List.Perm.filter _ h
  have hlen := List.Perm.length_eq hf
  unfold recordsOf
  rw [lookup_foldl_appendRecord, lookup_foldl_appendRecord, hlen]
  by_cases h0 : (B.filter (fun r => decide (r.Key = k))).length = 0
  · simp [h0]
  · simp only [h0, if_false, Option.isSome_some, Option.getD_some, true_and]
    simpa [recordsOf] using hf

/-- Against a listing split into pages, the loop of `getFileVersions` consumes every page,
one call each, and returns the map the pages build. -/
theorem listLoop_scripted (config : Config) (bucket : String)
    (pages : List ListObjectVersionsOutput) (hpaged : WellPaged pages = true) (budget : Nat)
    (hbudget : pages.length ≤ budget) (fv : FileVersions) (keyMarker : Option String)
    (pageNumber versionCount : Int) (w : Run (List ListObjectVersionsOutput))
    (hw : w.remote = pages) :
    ∃ (count : Int) (w' : Run (List ListObjectVersionsOutput)),
      listLoop scriptedListing config bucket budget fv keyMarker pageNumber versionCount w =
        (Outcome.returned (pages.foldl pageStep fv, count), w') ∧
      w'.calls.length = w.calls.length + pages.length ∧ w'.remote = [] := by
  induction pages generalizing budget fv keyMarker pageNumber versionCount w with
  | nil => simp [WellPaged] at hpaged
  | cons page rest ih =>
    cases budget with
    | zero => simp at hbudget
    | succ budget =>
      have hcall : scriptedListing.ListObjectVersions (listRequest config bucket keyMarker)
          w.remote = (Except.ok page, rest) := by
        rw [hw]; rfl
      unfold listLoop
      simp only [hcall]
      unfold WellPaged at hpaged
      by_cases hrest : rest.length = 0
      · have hnil : rest = [] := List.eq_nil_of_length_eq_zero hrest
        subst hnil
        simp only [List.length_nil, if_true, Bool.not_eq_true', continues] at hpaged
        cases hm : page.NextKeyMarker with
        | none =>
          exact ⟨_, _, rfl, by simp [Run.exchange, Run.logLine],
            by simp [Run.exchange, Run.logLine]⟩
        | some marker =>
          rw [hm] at hpaged
          have hlen : marker.length = 0 := by simpa using hpaged
          simp only [hlen, if_true]
          exact ⟨_, _, rfl, by simp [Run.exchange, Run.logLine],
            by simp [Run.exchange, Run.logLine]⟩
      · simp only [hrest, if_false, Bool.and_eq_true, continues] at hpaged
        obtain ⟨hcont, hrestPaged⟩ := hpaged
        cases hm : page.NextKeyMarker with
        | none => rw [hm] at hcont; simp at hcont
        | some marker =>
          rw [hm] at hcont
          have hlen : ¬ marker.length = 0 := by simpa using hcont
          simp only [hlen, if_false]
          obtain ⟨count, w', heq, hcalls, hremote⟩ := ih hrestPaged budget
            (by simpa using hbudget)
            (appendDeleteMarkers (appendFileVersions fv page.Versions) page.DeleteMarkers)
            (some marker) (pageNumber + 1)
            (versionCount +
              ((page.Versions.length : Int) + (page.DeleteMarkers.length : Int)))
            ((w.exchange (Call.listObjectVersions (listRequest config bucket keyMarker))
              (Response.versions page) rest).logLine
              (LogLine.gotPage
                ((page.Versions.length : Int) + (page.DeleteMarkers.length : Int))
                pageNumber))
            (by simp [Run.exchange, Run.logLine])
          refine ⟨count, w', ?_, ?_, hremote⟩
          · rw [heq]; rfl
          · rw [hcalls]; simp [Run.exchange, Run.logLine]; omega

theorem getFileVersions_scripted (config : Config) (bucket : String)
    (pages : List ListObjectVersionsOutput) (hpaged : WellPaged pages = true) (budget : Nat)
    (hbudget : pages.length ≤ budget) :
    ∃ w' : Run (List ListObjectVersionsOutput),
      getFileVersions scriptedListing config bucket budget (Run.start pages) =
        (Outcome.returned (pages.foldl pageStep []), w') ∧
      w'.calls.length = pages.length := by
  obtain ⟨count, w', heq, hcalls, _⟩ := listLoop_scripted config bucket pages hpaged budget
    hbudget [] none 1 0
    ((Run.start pages).logLine (LogLine.getFileVersions bucket config.BucketPrefix)) rfl
  unfold getFileVersions
  simp only [heq]
  exact ⟨_, rfl, by simpa [Run.logLine, Run.start] using hcalls⟩

theorem wellPaged_mergePages (pages : List ListObjectVersionsOutput) :
    WellPaged [mergePages pages] = true := by
  simp [WellPaged, continues, mergePages]

/-! ## C10: pagination completeness -/

/-- C10. Pagination completeness: for every listing split into pages (each page with some
live versions and some delete markers, a non-empty continuation token on every page but
the last) and every budget that covers the pages, `getFileVersions` returns, after one
call per page, a version history that agrees with the one it returns, after a single call,
when the whole listing arrives in one page: the same keys, and under each key the same
records as an unordered collection. -/
theorem pagination_completeness (config : Config) (bucket : String)
    (pages : List ListObjectVersionsOutput) (budget : Nat)
    (hpaged : WellPaged pages = true) (hbudget : pages.length ≤ budget) :
    ∃ (paged single : FileVersions) (w₁ w₂ : Run (List ListObjectVersionsOutput)),
      getFileVersions scriptedListing config bucket budget (Run.start pages) =
        (Outcome.returned paged, w₁) ∧
      getFileVersions scriptedListing config bucket budget (Run.start [mergePages pages]) =
        (Outcome.returned single, w₂) ∧
      w₁.calls.length = pages.length ∧ w₂.calls.length = 1 ∧
      SameHistory paged single := by
  have hpos : 1 ≤ pages.length := by
    cases pages with
    | nil => simp [WellPaged] at hpaged
    | cons page rest => simp
  obtain ⟨w₁, h₁, hc₁⟩ := getFileVersions_scripted config bucket pages hpaged budget hbudget
  obtain ⟨w₂, h₂, hc₂⟩ := getFileVersions_scripted config bucket [mergePages pages]
    (wellPaged_mergePages pages) budget (by simpa using le_trans hpos hbudget)
  refine ⟨_, _, w₁, w₂, h₁, h₂, hc₁, by simpa using hc₂, ?_⟩
  rw [foldl_pageStep_eq_foldl, foldl_pageStep_eq_foldl]
  apply sameHistory_of_perm
  simpa using pageRecords_mergePages_perm pages

/-- Witness for C10: a key listed in two pages (a live version and a delete marker, then
a live version). The paged run stores the records of the key in the order `A, B, C`, the
single-page run in the order `A, C, B`. -/
theorem pagination_completeness_witness :
    WellPaged examplePages = true ∧ examplePages.length ≤ 2 ∧
    (getFileVersions scriptedListing (exampleConfig 1 false) "b" 2
        (Run.start examplePages)).1 =
      Outcome.returned [("k", [recordOfVersion (ObjectVersion.mk "k" "A" false 10 1),
        recordOfMarker (DeleteMarkerEntry.mk "k" "B" false 20),
        recordOfVersion (ObjectVersion.mk "k" "C" true 30 1)])] ∧
    (getFileVersions scriptedListing (exampleConfig 1 false) "b" 2
        (Run.start [mergePages examplePages])).1 =
      Outcome.returned [("k", [recordOfVersion (ObjectVersion.mk "k" "A" false 10 1),
        recordOfVersion (ObjectVersion.mk "k" "C" true 30 1),
        recordOfMarker (DeleteMarkerEntry.mk "k" "B" false 20)])] ∧
    ∃ (paged single : FileVersions) (w₁ w₂ : Run (List ListObjectVersionsOutput)),
      getFileVersions scriptedListing (exampleConfig 1 false) "b" 2
          (Run.start examplePages) = (Outcome.returned paged, w₁) ∧
      getFileVersions scriptedListing (exampleConfig 1 false) "b" 2
          (Run.start [mergePages examplePages]) = (Outcome.returned single, w₂) ∧
      w₁.calls.length = examplePages.length ∧ w₂.calls.length = 1 ∧
      SameHistory paged single :=
  ⟨by decide, by decide, by decide, by decide,
    pagination_completeness (exampleConfig 1 false) "b" examplePages 2 (by decide)
      (by decide)⟩

/-! ## The listing loop as a trace -/

theorem responsesOf_listExchanges (config : Config) (bucket : String)
    (keyMarker : Option String) (rs : List Response) :
    responsesOf (listExchanges config bucket keyMarker rs) = rs := by
  induction rs generalizing keyMarker with
  | nil => rfl
  | cons r rest ih =>
    simp only [listExchanges, responsesOf, List.map_cons, List.cons.injEq, true_and]
    exact ih _

theorem length_listExchanges (config : Config) (bucket : String)
    (keyMarker : Option String) (rs : List Response) :
    (listExchanges config bucket keyMarker rs).length = rs.length := by
  induction rs generalizing keyMarker with
  | nil => rfl
  | cons r rest ih => simp [listExchanges, ih]

theorem listExchanges_requests (config : Config) (bucket : String)
    (keyMarker : Option String) (rs : List Response) :
    ∀ x ∈ listExchanges config bucket keyMarker rs,
      ∃ marker : Option String,
        x.call = Call.listObjectVersions
          (ListObjectVersionsInput.mk bucket config.BucketPrefix marker 10000) := by
  induction rs generalizing keyMarker with
  | nil => intro x hx; simp [listExchanges] at hx
  | cons r rest ih =>
    intro x hx
    simp only [listExchanges, List.mem_cons] at hx
    rcases hx with rfl | hx
    · exact ⟨keyMarker, rfl⟩
    · exact ih _ x hx

/-- The shape of every run of the listing loop. The pages `init` all carry a non-empty
continuation token; after them the loop either received a page `last` without one and
returned the map built from all pages, or received an error and returned it, or used up
its budget. The calls issued are the listing exchanges for these answers, starting with
the key marker the loop was entered with. -/
theorem listLoop_trace {σ : Type} (api : S3API σ) (config : Config) (bucket : String)
    (budget : Nat) (fv : FileVersions) (keyMarker : Option String)
    (pageNumber versionCount : Int) (w : Run σ) :
    ∃ init : List ListObjectVersionsOutput,
      (∀ p ∈ init, continues p = true) ∧
      ((∃ (last : ListObjectVersionsOutput) (count : Int) (w' : Run σ),
          continues last = false ∧
          listLoop api config bucket budget fv keyMarker pageNumber versionCount w =
            (Outcome.returned ((init ++ [last]).foldl pageStep fv, count), w') ∧
          w'.calls = w.calls ++
            listExchanges config bucket keyMarker ((init ++ [last]).map Response.versions)) ∨
        (∃ (err : GoError) (w' : Run σ),
          listLoop api config bucket budget fv keyMarker pageNumber versionCount w =
            (Outcome.failed err, w') ∧
          w'.calls = w.calls ++
            listExchanges config bucket keyMarker
              (init.map Response.versions ++ [Response.failed err])) ∨
        (∃ w' : Run σ,
          listLoop api config bucket budget fv keyMarker pageNumber versionCount w =
            (Outcome.running, w') ∧
          init.length = budget ∧
          w'.calls = w.calls ++
            listExchanges config bucket keyMarker (init.map Response.versions))) := by
  induction budget generalizing fv keyMarker pageNumber versionCount w with
  | zero =>
    exact ⟨[], by simp, Or.inr (Or.inr ⟨w, rfl, rfl, by simp [listExchanges]⟩)⟩
  | succ budget ih =>
    unfold listLoop
    simp only
    rcases hres : api.ListObjectVersions (listRequest config bucket keyMarker) w.remote with
      ⟨res, remote⟩
    cases res with
    | error err =>
      exact ⟨[], by simp, Or.inr (Or.inl ⟨err, _, rfl, by simp [listExchanges, Run.exchange]⟩)⟩
    | ok page =>
      simp only
      cases hm : page.NextKeyMarker with
      | none =>
        refine ⟨[], by simp, Or.inl ⟨page, _, _, by simp [continues, hm], rfl, ?_⟩⟩
        simp [listExchanges, Run.exchange, Run.logLine]
      | some marker =>
        simp only
        by_cases hlen : marker.length = 0
        · simp only [hlen, if_true]
          refine ⟨[], by simp, Or.inl ⟨page, _, _, by simp [continues, hm, hlen], rfl, ?_⟩⟩
          simp [listExchanges, Run.exchange, Run.logLine]
        · simp only [hlen, if_false]
          have hcont : continues page = true := by simp [continues, hm, hlen]
          have hnext : nextMarker (Response.versions page) = some marker := by
            simp [nextMarker, hm]
          obtain ⟨init, hinit, hcases⟩ := ih
            (appendDeleteMarkers (appendFileVersions fv page.Versions) page.DeleteMarkers)
            (some marker) (pageNumber + 1)
            (versionCount +
              ((page.Versions.length : Int) + (page.DeleteMarkers.length : Int)))
            ((w.exchange (Call.listObjectVersions (listRequest config bucket keyMarker))
              (Response.versions page) remote).logLine
              (LogLine.gotPage
                ((page.Versions.length : Int) + (page.DeleteMarkers.length : Int))
                pageNumber))
          refine ⟨page :: init, ?_, ?_⟩
          · intro p hp
            rcases List.mem_cons.1 hp with rfl | hp
            · exact hcont
            · exact hinit p hp
          · rcases hcases with ⟨last, count, w', hlast, heq, hcalls⟩ | ⟨err, w', heq, hcalls⟩ |
              ⟨w', heq, hlen', hcalls⟩
            · refine Or.inl ⟨last, count, w', hlast, ?_, ?_⟩
              · rw [heq]; rfl
              · rw [hcalls]
                simp [listExchanges, Run.exchange, Run.logLine, hnext]
            · refine Or.inr (Or.inl ⟨err, w', heq, ?_⟩)
              rw [hcalls]
              simp [listExchanges, Run.exchange, Run.logLine, hnext]
            · refine Or.inr (Or.inr ⟨w', heq, by simp [hlen'], ?_⟩)
              rw [hcalls]
              simp [listExchanges, Run.exchange, Run.logLine, hnext]

theorem getElem?_listExchanges_zero (config : Config) (bucket : String)
    (keyMarker : Option String) (rs : List Response) (x : Exchange)
    (hx : (listExchanges config bucket keyMarker rs)[0]? = some x) :
    x.call = Call.listObjectVersions (listRequest config bucket keyMarker) := by
  cases rs with
  | nil => simp [listExchanges] at hx
  | cons r rest =>
    simp only [listExchanges, List.getElem?_cons_zero, Option.some.injEq] at hx
    rw [← hx]

theorem getElem?_listExchanges_succ (config : Config) (bucket : String)
    (keyMarker : Option String) (rs : List Response) (i : Nat) (x y : Exchange)
    (hx : (listExchanges config bucket keyMarker rs)[i]? = some x)
    (hy : (listExchanges config bucket keyMarker rs)[i + 1]? = some y) :
    y.call = Call.listObjectVersions (listRequest config bucket (nextMarker x.response)) := by
  induction rs generalizing keyMarker i with
  | nil => simp [listExchanges] at hx
  | cons r rest ih =>
    simp only [listExchanges, List.getElem?_cons_succ] at hy
    cases i with
    | zero =>
      simp only [listExchanges, List.getElem?_cons_zero, Option.some.injEq] at hx
      rw [← hx]
      exact getElem?_listExchanges_zero config bucket _ rest y hy
    | succ i =>
      simp only [listExchanges, List.getElem?_cons_succ] at hx
      exact ih _ i hx hy

/-- The shape of every run of `getFileVersions`, in terms of the calls it adds to the
trace. -/
theorem getFileVersions_trace {σ : Type} (api : S3API σ) (config : Config) (bucket : String)
    (budget : Nat) (w : Run σ) :
    (getFileVersions api config bucket budget w).2.calls =
      w.calls ++ callsSince w (getFileVersions api config bucket budget w).2 ∧
    ∃ init : List ListObjectVersionsOutput,
      (∀ p ∈ init, continues p = true) ∧
      ((∃ last : ListObjectVersionsOutput,
          continues last = false ∧
          (getFileVersions api config bucket budget w).1 =
            Outcome.returned ((init ++ [last]).foldl pageStep []) ∧
          callsSince w (getFileVersions api config bucket budget w).2 =
            listExchanges config bucket none ((init ++ [last]).map Response.versions)) ∨
        (∃ err : GoError,
          (getFileVersions api config bucket budget w).1 = Outcome.failed err ∧
          callsSince w (getFileVersions api config bucket budget w).2 =
            listExchanges config bucket none
              (init.map Response.versions ++ [Response.failed err])) ∨
        ((getFileVersions api config bucket budget w).1 = Outcome.running ∧
          init.length = budget ∧
          callsSince w (getFileVersions api config bucket budget w).2 =
            listExchanges config bucket none (init.map Response.versions))) := by
  obtain ⟨init, hinit, hcases⟩ := listLoop_trace api config bucket budget [] none 1 0
    (w.logLine (LogLine.getFileVersions bucket config.BucketPrefix))
  have hdrop : ∀ E : List Exchange, List.drop w.calls.length (w.calls ++ E) = E := by
    intro E; simp
  unfold getFileVersions callsSince
  dsimp only
  rcases hcases with ⟨last, count, w', hlast, heq, hcalls⟩ | ⟨err, w', heq, hcalls⟩ |
    ⟨w', heq, hlen, hcalls⟩
  · rw [heq]
    have hc : (w'.logLine (LogLine.summary count
        ((init ++ [last]).foldl pageStep []).length)).calls =
        w.calls ++ listExchanges config bucket none
          ((init ++ [last]).map Response.versions) := by
      simpa [Run.logLine] using hcalls
    simp only [hc, hdrop]
    exact ⟨trivial, init, hinit, Or.inl ⟨last, hlast, rfl, rfl⟩⟩
  · rw [heq]
    have hc : w'.calls = w.calls ++ listExchanges config bucket none
        (init.map Response.versions ++ [Response.failed err]) := by
      simpa [Run.logLine] using hcalls
    simp only [hc, hdrop]
    exact ⟨trivial, init, hinit, Or.inr (Or.inl ⟨err, rfl, rfl⟩)⟩
  · rw [heq]
    have hc : w'.calls = w.calls ++ listExchanges config bucket none
        (init.map Response.versions) := by
      simpa [Run.logLine] using hcalls
    simp only [hc, hdrop]
    exact ⟨trivial, init, hinit,
      Or.inr (Or.inr ⟨trivial, hlen, rfl⟩)⟩

theorem getElem?_pages_of_endsListing (init : List ListObjectVersionsOutput)
    (hinit : ∀ p ∈ init, continues p = true) (tail : List Response) (i : Nat) (r : Response)
    (hr : (init.map Response.versions ++ tail)[i]? = some r) (hend : endsListing r = true) :
    init.length ≤ i ∧ tail[i - init.length]? = some r := by
  by_cases hi : i < init.length
  · exfalso
    rw [List.getElem?_append_left (by simpa using hi)] at hr
    rw [List.getElem?_map] at hr
    obtain ⟨p, hp, hpr⟩ := Option.map_eq_some'.1 hr
    have hmem : p ∈ init := List.mem_iff_getElem?.2 ⟨i, hp⟩
    have := hinit p hmem
    rw [← hpr] at hend
    simp [endsListing, this] at hend
  · have hle : init.length ≤ i := not_lt.1 hi
    refine ⟨hle, ?_⟩
    rw [List.getElem?_append_right (by simpa using hle)] at hr
    simpa using hr

/-- The loop of `getFileVersions` stops at the first answer that ends the listing: that
exchange is the last one, and the method returns with a history after a final page and
with the error after a failed call. -/
theorem getFileVersions_stops {σ : Type} (api : S3API σ) (config : Config) (bucket : String)
    (budget : Nat) (w : Run σ) (i : Nat) (x : Exchange)
    (hx : (callsSince w (getFileVersions api config bucket budget w).2)[i]? = some x)
    (hend : endsListing x.response = true) :
    (callsSince w (getFileVersions api config bucket budget w).2).length = i + 1 ∧
    ((∃ (page : ListObjectVersionsOutput) (h : FileVersions),
        x.response = Response.versions page ∧
        (getFileVersions api config bucket budget w).1 = Outcome.returned h) ∨
      (∃ err : GoError, x.response = Response.failed err ∧
        (getFileVersions api config bucket budget w).1 = Outcome.failed err)) := by
  obtain ⟨_, init, hinit, hcases⟩ := getFileVersions_trace api config bucket budget w
  have hresp : ∀ rs : List Response,
      callsSince w (getFileVersions api config bucket budget w).2 =
        listExchanges config bucket none rs → rs[i]? = some x.response := by
    intro rs hcs
    have h1 : (responsesOf (callsSince w (getFileVersions api config bucket budget w).2))[i]? =
        some x.response := by
      simp [responsesOf, List.getElem?_map, hx]
    rw [hcs, responsesOf_listExchanges] at h1
    exact h1
  rcases hcases with ⟨last, hlast, hret, hcs⟩ | ⟨err, hfail, hcs⟩ | ⟨hrun, hlen, hcs⟩
  · have h1 := hresp _ hcs
    rw [List.map_append] at h1
    obtain ⟨hle, htail⟩ := getElem?_pages_of_endsListing init hinit _ i _ h1 hend
    have hi : i = init.length := by
      by_contra hne
      have : 1 ≤ i - init.length := by omega
      obtain ⟨m, hm⟩ := Nat.exists_eq_succ_of_ne_zero (by omega : i - init.length ≠ 0)
      rw [hm] at htail
      simp at htail
    subst hi
    simp only [Nat.sub_self, List.map_cons, List.map_nil, List.getElem?_cons_zero,
      Option.some.injEq] at htail
    refine ⟨by rw [hcs, length_listExchanges]; simp, Or.inl ⟨last, _, htail.symm, hret⟩⟩
  · have h1 := hresp _ hcs
    obtain ⟨hle, htail⟩ := getElem?_pages_of_endsListing init hinit _ i _ h1 hend
    have hi : i = init.length := by
      by_contra hne
      obtain ⟨m, hm⟩ := Nat.exists_eq_succ_of_ne_zero (by omega : i - init.length ≠ 0)
      rw [hm] at htail
      simp at htail
    subst hi
    simp only [Nat.sub_self, List.getElem?_cons_zero, Option.some.injEq] at htail
    refine ⟨by rw [hcs, length_listExchanges]; simp, Or.inr ⟨err, htail.symm, hfail⟩⟩
  · exfalso
    have h1 := hresp _ hcs
    have h2 := getElem?_pages_of_endsListing init hinit [] i _ (by simpa using h1) hend
    simp at h2

/-! ## C11: the sequence of listing requests -/

/-- C11. Listing request sequence: on every run of `getFileVersions`, against every
service, the calls issued are listing calls only; each carries the bucket, the configured
key filter and `MaxKeys = 10000`; the first carries no key marker; each later one carries
as key marker the `NextKeyMarker` of the answer immediately before it, which was a page
with a non-empty continuation token; and the first page whose `NextKeyMarker` is absent or
empty is answered by no further call: it is the last exchange, and `getFileVersions`
returns. When `getFileVersions` returns, it has made exactly one call per page up to and
including that page. -/
theorem listing_request_sequence {σ : Type} (api : S3API σ) (config : Config)
    (bucket : String) (budget : Nat) (w : Run σ) :
    (getFileVersions api config bucket budget w).2.calls =
      w.calls ++ callsSince w (getFileVersions api config bucket budget w).2 ∧
    (∀ x ∈ callsSince w (getFileVersions api config bucket budget w).2,
      ∃ marker : Option String,
        x.call = Call.listObjectVersions
          (ListObjectVersionsInput.mk bucket config.BucketPrefix marker 10000)) ∧
    (∀ x : Exchange,
      (callsSince w (getFileVersions api config bucket budget w).2)[0]? = some x →
      x.call = Call.listObjectVersions
        (ListObjectVersionsInput.mk bucket config.BucketPrefix none 10000)) ∧
    (∀ (i : Nat) (x y : Exchange),
      (callsSince w (getFileVersions api config bucket budget w).2)[i]? = some x →
      (callsSince w (getFileVersions api config bucket budget w).2)[i + 1]? = some y →
      ∃ page : ListObjectVersionsOutput,
        x.response = Response.versions page ∧ continues page = true ∧
        y.call = Call.listObjectVersions
          (ListObjectVersionsInput.mk bucket config.BucketPrefix page.NextKeyMarker 10000)) ∧
    (∀ (i : Nat) (x : Exchange) (page : ListObjectVersionsOutput),
      (callsSince w (getFileVersions api config bucket budget w).2)[i]? = some x →
      x.response = Response.versions page → continues page = false →
      (callsSince w (getFileVersions api config bucket budget w).2).length = i + 1 ∧
      ∃ h : FileVersions,
        (getFileVersions api config bucket budget w).1 = Outcome.returned h) ∧
    (∀ h : FileVersions,
      (getFileVersions api config bucket budget w).1 = Outcome.returned h →
      ∃ (init : List ListObjectVersionsOutput) (last : ListObjectVersionsOutput),
        (∀ p ∈ init, continues p = true) ∧ continues last = false ∧
        responsesOf (callsSince w (getFileVersions api config bucket budget w).2) =
          (init ++ [last]).map Response.versions ∧
        (callsSince w (getFileVersions api config bucket budget w).2).length =
          init.length + 1) := by
  obtain ⟨hcalls, init, hinit, hcases⟩ := getFileVersions_trace api config bucket budget w
  have hshape : ∃ rs : List Response,
      callsSince w (getFileVersions api config bucket budget w).2 =
        listExchanges config bucket none rs := by
    rcases hcases with ⟨last, _, _, hcs⟩ | ⟨err, _, hcs⟩ | ⟨_, _, hcs⟩
    · exact ⟨_, hcs⟩
    · exact ⟨_, hcs⟩
    · exact ⟨_, hcs⟩
  obtain ⟨rs, hrs⟩ := hshape
  refine ⟨hcalls, ?_, ?_, ?_, ?_, ?_⟩
  · rw [hrs]
    exact listExchanges_requests config bucket none rs
  · intro x hx
    rw [hrs] at hx
    exact getElem?_listExchanges_zero config bucket none rs x hx
  · intro i x y hx hy
    have hnext : y.call =
        Call.listObjectVersions (listRequest config bucket (nextMarker x.response)) := by
      rw [hrs] at hx hy
      exact getElem?_listExchanges_succ config bucket none rs i x y hx hy
    by_cases hend : endsListing x.response = true
    · exfalso
      have hlen := (getFileVersions_stops api config bucket budget w i x hx hend).1
      have : i + 1 < (callsSince w (getFileVersions api config bucket budget w).2).length := by
        obtain ⟨h, _⟩ := List.getElem?_eq_some.1 hy
        exact h
      omega
    · cases hxr : x.response with
      | versions page =>
        rw [hxr] at hend hnext
        refine ⟨page, rfl, by simpa [endsListing] using hend, ?_⟩
        rw [hnext]; rfl
      | failed err => rw [hxr] at hend; simp [endsListing] at hend
      | buckets output => rw [hxr] at hend; simp [endsListing] at hend
      | head => rw [hxr] at hend; simp [endsListing] at hend
      | versioning output => rw [hxr] at hend; simp [endsListing] at hend
      | deleted output => rw [hxr] at hend; simp [endsListing] at hend
  · intro i x page hx hxr hpage
    have hend : endsListing x.response = true := by rw [hxr]; simp [endsListing, hpage]
    obtain ⟨hlen, hout⟩ := getFileVersions_stops api config bucket budget w i x hx hend
    refine ⟨hlen, ?_⟩
    rcases hout with ⟨_, h, _, hret⟩ | ⟨err, herr, _⟩
    · exact ⟨h, hret⟩
    · rw [hxr] at herr; cases herr
  · intro h hret
    rcases hcases with ⟨last, hlast, _, hcs⟩ | ⟨err, hfail, _⟩ | ⟨hrun, _, _⟩
    · refine ⟨init, last, hinit, hlast, ?_, ?_⟩
      · rw [hcs, responsesOf_listExchanges]
      · rw [hcs, length_listExchanges]; simp
    · rw [hfail] at hret; cases hret
    · rw [hrun] at hret; cases hret

/-! ## C12: a failing listing call -/

/-- C12. Listing error: on every run of `getFileVersions`, if a listing call returns an
error, then `getFileVersions` returns that same error and no version history (the outcome
is the error alone, whatever pages came before), and the failed call is the last call
issued. -/
theorem listing_error {σ : Type} (api : S3API σ) (config : Config) (bucket : String)
    (budget : Nat) (w : Run σ) (j : Nat) (e : GoError)
    (hfail : ((callsSince w (getFileVersions api config bucket budget w).2)[j]?).map
      (fun x => x.response) = some (Response.failed e)) :
    (getFileVersions api config bucket budget w).1 = Outcome.failed e ∧
    (∀ h : FileVersions,
      (getFileVersions api config bucket budget w).1 ≠ Outcome.returned h) ∧
    (callsSince w (getFileVersions api config bucket budget w).2).length = j + 1 ∧
    (getFileVersions api config bucket budget w).2.calls =
      w.calls ++ callsSince w (getFileVersions api config bucket budget w).2 := by
  obtain ⟨x, hx, hxr⟩ := Option.map_eq_some'.1 hfail
  have hend : endsListing x.response = true := by rw [hxr]; rfl
  obtain ⟨hlen, hout⟩ := getFileVersions_stops api config bucket budget w j x hx hend
  have hres : (getFileVersions api config bucket budget w).1 = Outcome.failed e := by
    rcases hout with ⟨page, _, hpage, _⟩ | ⟨err, herr, hret⟩
    · rw [hxr] at hpage; cases hpage
    · rw [hxr] at herr
      cases herr
      exact hret
  refine ⟨hres, ?_, hlen, (getFileVersions_trace api config bucket budget w).1⟩
  intro h hret
  rw [hres] at hret
  cases hret

/-- Witness for C11: a key listed in two pages. The first request carries no key marker,
the second the `NextKeyMarker` of the first page, and no third request follows the page
without a continuation token. -/
theorem listing_request_sequence_witness :
    (callsSince (Run.start examplePages)
        (getFileVersions scriptedListing (exampleConfig 1 false) "b" 5
          (Run.start examplePages)).2).map (fun x => x.call) =
      [Call.listObjectVersions (ListObjectVersionsInput.mk "b" "" none 10000),
       Call.listObjectVersions (ListObjectVersionsInput.mk "b" "" (some "k") 10000)] ∧
    ∀ x ∈ callsSince (Run.start examplePages)
        (getFileVersions scriptedListing (exampleConfig 1 false) "b" 5
          (Run.start examplePages)).2,
      ∃ marker : Option String,
        x.call = Call.listObjectVersions (ListObjectVersionsInput.mk "b" "" marker 10000) :=
  ⟨by decide,
    (listing_request_sequence scriptedListing (exampleConfig 1 false) "b" 5
      (Run.start examplePages)).2.1⟩

/-- Witness for C12: the first page announces a second one, and the second listing call
fails. `getFileVersions` returns the error of that call, after two calls. -/
theorem listing_error_witness :
    ((callsSince (Run.start brokenPages)
        (getFileVersions scriptedListing (exampleConfig 1 false) "b" 5
          (Run.start brokenPages)).2)[1]?).map (fun x => x.response) =
      some (Response.failed (awsError "NoMorePages")) ∧
    (getFileVersions scriptedListing (exampleConfig 1 false) "b" 5
        (Run.start brokenPages)).1 = Outcome.failed (awsError "NoMorePages") ∧
    (callsSince (Run.start brokenPages)
        (getFileVersions scriptedListing (exampleConfig 1 false) "b" 5
          (Run.start brokenPages)).2).length = 1 + 1 :=
  have h := listing_error scriptedListing (exampleConfig 1 false) "b" 5
    (Run.start brokenPages) 1 (awsError "NoMorePages") (by decide)
  ⟨by decide, h.1, h.2.2.1⟩

/-! ## The versioning filter as a trace -/

theorem enabledBuckets_sublist (buckets : List String) (E : List Exchange) :
    List.Sublist (enabledBuckets buckets E) buckets := by
  induction buckets generalizing E with
  | nil => simp [enabledBuckets]
  | cons b rest ih =>
    cases E with
    | nil => simp [enabledBuckets]
    | cons x E =>
      unfold enabledBuckets
      split
      · exact List.Sublist.cons₂ _ (ih E)
      · exact List.Sublist.cons _ (ih E)

/-- What one versioning probe does: one call, and the method returns the error if the
answer is a fatal one, and otherwise whether the answer reports `Enabled`. -/
theorem isVersioningEnabled_step {σ : Type} (api : S3API σ) (bucket : String) (w : Run σ) :
    ∃ x : Exchange, x.call = Call.getBucketVersioning bucket ∧
      (isVersioningEnabled api bucket w).2.calls = w.calls ++ [x] ∧
      (isVersioningEnabled api bucket w).2.log = w.log ∧
      (isVersioningEnabled api bucket w).2.remote =
        (api.GetBucketVersioning bucket w.remote).2 ∧
      ((fatalProbe x.response = none ∧
          (isVersioningEnabled api bucket w).1 = Except.ok (reportsEnabled x.response)) ∨
        (∃ e : GoError, fatalProbe x.response = some e ∧ x.response = Response.failed e ∧
          (isVersioningEnabled api bucket w).1 = Except.error e)) := by
  unfold isVersioningEnabled
  rcases hres : api.GetBucketVersioning bucket w.remote with ⟨res, remote⟩
  cases res with
  | ok output =>
    exact ⟨_, rfl, rfl, rfl, rfl, Or.inl ⟨rfl, rfl⟩⟩
  | error err =>
    cases err with
    | aws code message =>
      simp only
      by_cases hc : code = "BucketRegionError"
      · rw [if_pos hc]
        exact ⟨_, rfl, rfl, rfl, rfl, Or.inl ⟨by simp [fatalProbe, hc], rfl⟩⟩
      · rw [if_neg hc]
        exact ⟨_, rfl, rfl, rfl, rfl, Or.inr ⟨_, by simp [fatalProbe, hc], rfl, rfl⟩⟩
    | other message =>
      exact ⟨_, rfl, rfl, rfl, rfl, Or.inr ⟨_, rfl, rfl, rfl⟩⟩

/-- The shape of every run of the loop of `filterBucketsByVersioningEnabled`: the
exchanges `E` are the probes of a leading part of the buckets, in order; either every
bucket was probed without a fatal error and the result is the accumulator followed by the
buckets that reported `Enabled`, or the last probe failed fatally and its error is the
result. -/
theorem filterLoop_trace {σ : Type} (api : S3API σ) (buckets acc : List String)
    (w : Run σ) :
    ∃ E : List Exchange,
      (filterLoop api buckets acc w).2.calls = w.calls ++ E ∧
      (filterLoop api buckets acc w).2.log = w.log ∧
      E.map (fun x => x.call) = (buckets.take E.length).map Call.getBucketVersioning ∧
      (((filterLoop api buckets acc w).1 = Except.ok (acc ++ enabledBuckets buckets E) ∧
          E.length = buckets.length ∧ ∀ x ∈ E, fatalProbe x.response = none) ∨
        ∃ (e : GoError) (E' : List Exchange) (x : Exchange),
          (filterLoop api buckets acc w).1 = Except.error e ∧ E = E' ++ [x] ∧
          fatalProbe x.response = some e ∧ x.response = Response.failed e ∧
          ∀ y ∈ E', fatalProbe y.response = none) := by
  induction buckets generalizing acc w with
  | nil => exact ⟨[], by simp [filterLoop, enabledBuckets]⟩
  | cons bucket rest ih =>
    obtain ⟨x, hcall, hcalls, hlog, _, hstep⟩ := isVersioningEnabled_step api bucket w
    unfold filterLoop
    rcases hres : isVersioningEnabled api bucket w with ⟨res, w1⟩
    rw [hres] at hcalls hlog hstep
    simp only at hcalls hlog hstep
    rcases hstep with ⟨hclean, hok⟩ | ⟨e, hfatal, hfailed, herr⟩
    · rw [hok]
      simp only
      obtain ⟨E, hE, hElog, hmap, hend⟩ := ih
        (if reportsEnabled x.response then acc ++ [bucket] else acc) w1
      refine ⟨x :: E, by rw [hE, hcalls]; simp, by rw [hElog, hlog],
        by simp [hcall, hmap], ?_⟩
      rcases hend with ⟨h1, h2, h3⟩ | ⟨e, E', y, h1, h2, h3, h4, h5⟩
      · refine Or.inl ⟨?_, by simp [h2], ?_⟩
        · rw [h1]
          by_cases hen : reportsEnabled x.response = true
          · simp [enabledBuckets, hen]
          · simp [enabledBuckets, hen]
        · intro y hy
          rcases List.mem_cons.1 hy with rfl | hy
          · exact hclean
          · exact h3 y hy
      · refine Or.inr ⟨e, x :: E', y, h1, by simp [h2], h3, h4, ?_⟩
        intro z hz
        rcases List.mem_cons.1 hz with rfl | hz
        · exact hclean
        · exact h5 z hz
    · rw [herr]
      simp only
      exact ⟨[x], hcalls, hlog, by simp [hcall],
        Or.inr ⟨e, [], x, rfl, by simp, hfatal, hfailed, by simp⟩⟩

theorem eq_last_of_getElem?_append {p : Exchange → Prop} (E' : List Exchange)
    (x z : Exchange) (j : Nat) (hclean : ∀ y ∈ E', ¬ p y)
    (hz : (E' ++ [x])[j]? = some z) (hp : p z) : j = E'.length ∧ z = x := by
  rcases Nat.lt_trichotomy j E'.length with hlt | heq | hgt
  · exfalso
    rw [List.getElem?_append_left hlt] at hz
    exact hclean z (List.mem_iff_getElem?.2 ⟨j, hz⟩) hp
  · subst heq
    simp only [List.getElem?_append_right (le_refl _), Nat.sub_self, List.getElem?_cons_zero,
      Option.some.injEq] at hz
    exact ⟨rfl, hz.symm⟩
  · exfalso
    rw [List.getElem?_append_right (by omega)] at hz
    obtain ⟨m, hm⟩ := Nat.exists_eq_succ_of_ne_zero (by omega : j - E'.length ≠ 0)
    rw [hm] at hz
    simp at hz

theorem enabledBuckets_eq_filter (buckets : List String) (E : List Exchange) :
    enabledBuckets buckets E =
      ((buckets.zip E).filter (fun p => reportsEnabled p.2.response)).map Prod.fst := by
  induction buckets generalizing E with
  | nil => simp [enabledBuckets]
  | cons b rest ih =>
    cases E with
    | nil => simp [enabledBuckets]
    | cons x E =>
      unfold enabledBuckets
      by_cases hen : reportsEnabled x.response = true
      · simp [hen, ih, List.filter_cons]
      · simp [hen, ih, List.filter_cons]

/-- The trace lemma for `filterBucketsByVersioningEnabled`, in terms of the calls it adds. -/
theorem filterBuckets_trace {σ : Type} (api : S3API σ) (buckets : List String) (w : Run σ) :
    (filterBucketsByVersioningEnabled api buckets w).2.calls =
      w.calls ++ callsSince w (filterBucketsByVersioningEnabled api buckets w).2 ∧
    (callsSince w (filterBucketsByVersioningEnabled api buckets w).2).map (fun x => x.call) =
      (buckets.take (callsSince w
        (filterBucketsByVersioningEnabled api buckets w).2).length).map
          Call.getBucketVersioning ∧
    (((filterBucketsByVersioningEnabled api buckets w).1 =
          Except.ok (enabledBuckets buckets
            (callsSince w (filterBucketsByVersioningEnabled api buckets w).2)) ∧
        (callsSince w (filterBucketsByVersioningEnabled api buckets w).2).length =
          buckets.length ∧
        ∀ x ∈ callsSince w (filterBucketsByVersioningEnabled api buckets w).2,
          fatalProbe x.response = none) ∨
      ∃ (e : GoError) (E' : List Exchange) (x : Exchange),
        (filterBucketsByVersioningEnabled api buckets w).1 = Except.error e ∧
        callsSince w (filterBucketsByVersioningEnabled api buckets w).2 = E' ++ [x] ∧
        fatalProbe x.response = some e ∧ x.response = Response.failed e ∧
        ∀ y ∈ E', fatalProbe y.response = none) := by
  obtain ⟨E, hcalls, _, hmap, hend⟩ := filterLoop_trace api buckets [] w
  have hE : callsSince w (filterBucketsByVersioningEnabled api buckets w).2 = E := by
    unfold callsSince filterBucketsByVersioningEnabled
    rw [hcalls]
    simp
  rw [hE]
  refine ⟨hcalls, hmap, ?_⟩
  simpa [filterBucketsByVersioningEnabled] using hend

/-! ## C13: the versioning filter -/

/-- C13. Versioning filter: on every run of `filterBucketsByVersioningEnabled` in which no
probe raises a fatal error, every input bucket is probed once, in input order, and the
method returns, without error, exactly the input buckets whose probe reported the status
`Enabled`, in their input order and with their multiplicity. A probe reports `Enabled`
only for the status `Enabled`: an absent status and any other value do not. -/
theorem versioning_filter {σ : Type} (api : S3API σ) (buckets : List String) (w : Run σ)
    (hok : ∀ x ∈ callsSince w (filterBucketsByVersioningEnabled api buckets w).2,
      fatalProbe x.response = none) :
    (filterBucketsByVersioningEnabled api buckets w).1 =
      Except.ok (((buckets.zip
        (callsSince w (filterBucketsByVersioningEnabled api buckets w).2)).filter
          (fun p => reportsEnabled p.2.response)).map Prod.fst) ∧
    (callsSince w (filterBucketsByVersioningEnabled api buckets w).2).map (fun x => x.call) =
      buckets.map Call.getBucketVersioning ∧
    (filterBucketsByVersioningEnabled api buckets w).2.calls =
      w.calls ++ callsSince w (filterBucketsByVersioningEnabled api buckets w).2 ∧
    List.Sublist (((buckets.zip
        (callsSince w (filterBucketsByVersioningEnabled api buckets w).2)).filter
          (fun p => reportsEnabled p.2.response)).map Prod.fst) buckets ∧
    (∀ status : Option String,
      reportsEnabled (Response.versioning (GetBucketVersioningOutput.mk status)) = true ↔
        status = some "Enabled") ∧
    (∀ err : GoError, reportsEnabled (Response.failed err) = false) := by
  obtain ⟨hcalls, hmap, hend⟩ := filterBuckets_trace api buckets w
  rcases hend with ⟨hres, hlen, _⟩ | ⟨e, E', x, _, hE, hfatal, _, _⟩
  · refine ⟨by rw [hres, enabledBuckets_eq_filter], ?_, hcalls, ?_, ?_, fun _ => rfl⟩
    · rw [hmap, hlen, List.take_length]
    · rw [← enabledBuckets_eq_filter]
      exact enabledBuckets_sublist _ _
    · intro status
      simp [reportsEnabled, BucketVersioningStatusEnabled]
  · exfalso
    have := hok x (by rw [hE]; simp)
    rw [this] at hfatal
    cases hfatal

/-- Witness for C13: the test `TestVersioningEnabled`. Of the buckets `b1` (status
`Enabled`), `b2` (no status) and `bucket-in-wrong-region` (probe fails with
`BucketRegionError`) the filter returns `b1`. -/
theorem versioning_filter_witness :
    (∀ x ∈ callsSince (Run.start testMock)
        (filterBucketsByVersioningEnabled mockService ["b1", "b2", "bucket-in-wrong-region"]
          (Run.start testMock)).2, fatalProbe x.response = none) ∧
    (filterBucketsByVersioningEnabled mockService ["b1", "b2", "bucket-in-wrong-region"]
        (Run.start testMock)).1 = Except.ok ["b1"] :=
  ⟨by decide,
    (versioning_filter mockService ["b1", "b2", "bucket-in-wrong-region"]
      (Run.start testMock) (by decide)).1.trans (congrArg Except.ok (by decide))⟩

/-! ## C14: recovery from a region-access error -/

theorem fatalProbe_failed_of_ne (err : GoError)
    (hne : ∀ message : String, err ≠ GoError.aws "BucketRegionError" message) :
    fatalProbe (Response.failed err) = some err := by
  cases err with
  | aws code message =>
    have hc : code ≠ "BucketRegionError" := fun h => hne message (by rw [h])
    simp [fatalProbe, hc]
  | other message => rfl

/-- C14. Region-access recovery: when the versioning probe of a bucket fails with the code
`BucketRegionError`, `isVersioningEnabled` returns `false` and no error, and the loop of
`filterBucketsByVersioningEnabled` goes on to the remaining buckets with its result list
unchanged, so the bucket is excluded and the run is not aborted. On every run of
`filterBucketsByVersioningEnabled` in which probes fail only with `BucketRegionError`,
every bucket is probed and a list is returned; a bucket whose probe failed is not counted
as enabled. If a probe fails with any other error, that error is returned, with no list,
and the failed probe is the last call. -/
theorem region_access_recovery {σ : Type} (api : S3API σ) (bucket : String) (w : Run σ)
    (message : String)
    (hprobe : (api.GetBucketVersioning bucket w.remote).1 =
      Except.error (GoError.aws "BucketRegionError" message)) :
    (isVersioningEnabled api bucket w).1 = Except.ok false ∧
    (isVersioningEnabled api bucket w).2.calls =
      w.calls ++ [Exchange.mk (Call.getBucketVersioning bucket)
        (Response.failed (GoError.aws "BucketRegionError" message))] ∧
    (∀ rest acc : List String,
      filterLoop api (bucket :: rest) acc w =
        filterLoop api rest acc (isVersioningEnabled api bucket w).2) ∧
    (∀ err : GoError, reportsEnabled (Response.failed err) = false) ∧
    (∀ (buckets : List String) (w' : Run σ),
      (∀ x ∈ callsSince w' (filterBucketsByVersioningEnabled api buckets w').2,
        ∀ err : GoError, x.response = Response.failed err →
          ∃ m : String, err = GoError.aws "BucketRegionError" m) →
      (filterBucketsByVersioningEnabled api buckets w').1 =
        Except.ok (((buckets.zip
          (callsSince w' (filterBucketsByVersioningEnabled api buckets w').2)).filter
            (fun p => reportsEnabled p.2.response)).map Prod.fst) ∧
      (callsSince w' (filterBucketsByVersioningEnabled api buckets w').2).map
          (fun x => x.call) = buckets.map Call.getBucketVersioning) ∧
    (∀ (buckets : List String) (w' : Run σ) (j : Nat) (err : GoError),
      ((callsSince w' (filterBucketsByVersioningEnabled api buckets w').2)[j]?).map
          (fun x => x.response) = some (Response.failed err) →
      (∀ m : String, err ≠ GoError.aws "BucketRegionError" m) →
      (filterBucketsByVersioningEnabled api buckets w').1 = Except.error err ∧
      (callsSince w' (filterBucketsByVersioningEnabled api buckets w').2).length = j + 1) := by
  have hstep : isVersioningEnabled api bucket w =
      (Except.ok false, w.exchange (Call.getBucketVersioning bucket)
        (Response.failed (GoError.aws "BucketRegionError" message))
        (api.GetBucketVersioning bucket w.remote).2) := by
    unfold isVersioningEnabled
    rcases hres : api.GetBucketVersioning bucket w.remote with ⟨res, remote⟩
    rw [hres] at hprobe
    simp only at hprobe
    subst hprobe
    simp
  refine ⟨by rw [hstep], by rw [hstep]; rfl, ?_, fun _ => rfl, ?_, ?_⟩
  · intro rest acc
    conv_lhs => unfold filterLoop
    rw [hstep]
    simp
  · intro buckets w' honly
    obtain ⟨_, hmap, hend⟩ := filterBuckets_trace api buckets w'
    rcases hend with ⟨hres, hlen, _⟩ | ⟨e, E', x, _, hE, hfatal, hfailed, _⟩
    · exact ⟨by rw [hres, enabledBuckets_eq_filter], by rw [hmap, hlen, List.take_length]⟩
    · exfalso
      obtain ⟨m, hm⟩ := honly x (by rw [hE]; simp) e hfailed
      rw [hfailed, hm] at hfatal
      simp [fatalProbe] at hfatal
  · intro buckets w' j err hj hne
    obtain ⟨z, hz, hzr⟩ := Option.map_eq_some'.1 hj
    have hzfatal : fatalProbe z.response ≠ none := by
      rw [hzr, fatalProbe_failed_of_ne err hne]; simp
    obtain ⟨_, _, hend⟩ := filterBuckets_trace api buckets w'
    rcases hend with ⟨_, _, hclean⟩ | ⟨e, E', x, hres, hE, hfatal, _, hclean⟩
    · exact absurd (hclean z (List.mem_iff_getElem?.2 ⟨j, hz⟩)) hzfatal
    · rw [hE] at hz
      obtain ⟨hjlen, hzx⟩ := eq_last_of_getElem?_append
        (p := fun y => fatalProbe y.response ≠ none) E' x z j
        (fun y hy h => h (hclean y hy)) hz hzfatal
      subst hzx
      rw [hzr, fatalProbe_failed_of_ne err hne] at hfatal
      simp only [Option.some.injEq] at hfatal
      subst hfatal
      exact ⟨hres, by rw [hE, hjlen]; simp⟩

/-- Witness for C14: the bucket `bucket-in-wrong-region` of the tests, listed first. Its
probe fails with `BucketRegionError`; the run of `Delete` goes on, probes `b2` and `b1`,
prunes `b1` down to one version per key and returns `nil`. -/
theorem region_access_recovery_witness :
    (mockService.GetBucketVersioning "bucket-in-wrong-region"
        (Run.start regionFirstMock).remote).1 =
      Except.error (GoError.aws "BucketRegionError" "BucketRegionError") ∧
    (isVersioningEnabled mockService "bucket-in-wrong-region"
        (Run.start regionFirstMock)).1 = Except.ok false ∧
    (Delete mockService stdSorter (testConfig true) 10 (Run.start regionFirstMock)).1 =
      Outcome.returned () ∧
    ((Delete mockService stdSorter (testConfig true) 10
        (Run.start regionFirstMock)).2.calls.map (fun x => x.call)).take 4 =
      [Call.listBuckets, Call.getBucketVersioning "bucket-in-wrong-region",
       Call.getBucketVersioning "b2", Call.getBucketVersioning "b1"] ∧
    ((Delete mockService stdSorter (testConfig true) 10
        (Run.start regionFirstMock)).2.remote.buckets.lookup "b1").map
        (fun b => b.Objects.map (fun entry => (entry.1, entry.2.length))) =
      some [("key1", 1), ("key2", 1)] :=
  ⟨rfl,
    (region_access_recovery mockService "bucket-in-wrong-region" (Run.start regionFirstMock)
      "BucketRegionError" rfl).1,
    by decide, by decide, by decide⟩

/-! ## C15: a named target -/

/-- C15. Named target: for a configured bucket name other than `*`, `getBuckets` makes one
existence probe (`HeadBucket`) and no other call. If the probe succeeds it returns the
one-element list with the name and no error. If the probe fails with the code `NotFound`
it returns no list and the error `Bucket doesn't exist: ` followed by the name. If the
probe fails with any other error it returns no list and that error unchanged. -/
theorem named_target {σ : Type} (api : S3API σ) (config : Config) (w : Run σ)
    (hname : config.BucketName ≠ "*") :
    ((api.HeadBucket config.BucketName w.remote).1 = Except.ok () →
      (getBuckets api config w).1 = Except.ok [config.BucketName]) ∧
    (∀ message : String,
      (api.HeadBucket config.BucketName w.remote).1 =
        Except.error (GoError.aws "NotFound" message) →
      (getBuckets api config w).1 =
        Except.error (GoError.other ("Bucket doesn't exist: " ++ config.BucketName))) ∧
    (∀ err : GoError,
      (api.HeadBucket config.BucketName w.remote).1 = Except.error err →
      (∀ message : String, err ≠ GoError.aws "NotFound" message) →
      (getBuckets api config w).1 = Except.error err) ∧
    (callsSince w (getBuckets api config w).2).map (fun x => x.call) =
      [Call.headBucket config.BucketName] ∧
    (getBuckets api config w).2.calls = w.calls ++ callsSince w (getBuckets api config w).2 := by
  unfold getBuckets existsBucket callsSince
  rw [if_neg hname]
  rcases hres : api.HeadBucket config.BucketName w.remote with ⟨res, remote⟩
  cases res with
  | ok u =>
    refine ⟨?_, ?_, ?_, ?_, ?_⟩
    · intro _; rfl
    · intro m h; cases h
    · intro e h; cases h
    · simp [Run.exchange]
    · simp [Run.exchange]
  | error err =>
    cases err with
    | aws code message =>
      by_cases hc : code = "NotFound"
      · subst hc
        refine ⟨?_, ?_, ?_, ?_, ?_⟩
        · intro h; cases h
        · intro m _; simp
        · intro e h hne
          simp only [Except.error.injEq] at h
          exact absurd h.symm (hne message)
        · simp [Run.exchange]
        · simp [Run.exchange]
      · refine ⟨?_, ?_, ?_, ?_, ?_⟩
        · intro h; cases h
        · intro m h
          simp only [Except.error.injEq, GoError.aws.injEq] at h
          exact absurd h.1 hc
        · intro e h _
          simp only [Except.error.injEq] at h
          subst h
          simp [hc]
        · simp [hc, Run.exchange]
        · simp [hc, Run.exchange]
    | other message =>
      refine ⟨?_, ?_, ?_, ?_, ?_⟩
      · intro h; cases h
      · intro m h; cases h
      · intro e h _
        simp only [Except.error.injEq] at h
        subst h
        rfl
      · simp [Run.exchange]
      · simp [Run.exchange]

/-- Witness for C15: the tests `TestGetBuckets_OneBucketConfig` and
`TestGetBuckets_MissingBucketConfig`. The name `b1` gives the list with `b1`; the name
`missing-bucket` gives the error `Bucket doesn't exist: missing-bucket`. -/
theorem named_target_witness :
    (namedConfig "b1").BucketName ≠ "*" ∧
    (getBuckets mockService (namedConfig "b1") (Run.start testMock)).1 = Except.ok ["b1"] ∧
    (getBuckets mockService (namedConfig "missing-bucket") (Run.start testMock)).1 =
      Except.error (GoError.other "Bucket doesn't exist: missing-bucket") :=
  ⟨by decide,
    (named_target mockService (namedConfig "b1") (Run.start testMock) (by decide)).1 rfl,
    (named_target mockService (namedConfig "missing-bucket") (Run.start testMock)
      (by decide)).2.1 "NotFound" rfl⟩

/-! ## C16: the wildcard target -/

/-- C16. Wildcard target: for the configured bucket name `*`, `getBuckets` makes one
`ListBuckets` call and no other call, so no existence probe. If the call succeeds it
returns exactly the bucket names of the response, in the order of the response; if the
call fails it returns no list and the error of the call unchanged. -/
theorem wildcard_target {σ : Type} (api : S3API σ) (config : Config) (w : Run σ)
    (hname : config.BucketName = "*") :
    (∀ output : ListBucketsOutput,
      (api.ListBuckets w.remote).1 = Except.ok output →
      (getBuckets api config w).1 = Except.ok output.Buckets) ∧
    (∀ err : GoError,
      (api.ListBuckets w.remote).1 = Except.error err →
      (getBuckets api config w).1 = Except.error err) ∧
    (callsSince w (getBuckets api config w).2).map (fun x => x.call) = [Call.listBuckets] ∧
    (getBuckets api config w).2.calls = w.calls ++ callsSince w (getBuckets api config w).2 := by
  unfold getBuckets getAllBuckets callsSince
  rw [if_pos hname]
  dsimp only [Run.logLine]
  rcases hres : api.ListBuckets w.remote with ⟨res, remote⟩
  cases res with
  | ok output =>
    refine ⟨?_, ?_, ?_, ?_⟩
    · intro o h
      simp only [Except.ok.injEq] at h
      subst h
      rfl
    · intro e h; cases h
    · simp [Run.exchange]
    · simp [Run.exchange]
  | error err =>
    refine ⟨?_, ?_, ?_, ?_⟩
    · intro o h; cases h
    · intro e h
      simp only [Except.error.injEq] at h
      subst h
      rfl
    · simp [Run.exchange]
    · simp [Run.exchange]

/-- Witness for C16: the test `TestGetBuckets`. With the name `*` the three buckets of
the test data are returned. -/
theorem wildcard_target_witness :
    (testConfig true).BucketName = "*" ∧
    (getBuckets mockService (testConfig true) (Run.start testMock)).1 =
      Except.ok ["b1", "b2", "bucket-in-wrong-region"] :=
  ⟨rfl,
    (wildcard_target mockService (testConfig true) (Run.start testMock) rfl).1
      (ListBucketsOutput.mk ["b1", "b2", "bucket-in-wrong-region"]) rfl⟩

/-! ## C20: key independence -/

/-- C20. Key independence: for every `N` and every two well-formed version histories that
hold the same record list under a key `k`, the purge targets naming `k` are the same for
both histories, and so a record of `k` is in the purge list of the one exactly when it is
in the purge list of the other, whatever the other keys hold. -/
theorem key_independence (S : SliceSorter) (N : Int) (bucket₁ bucket₂ : String)
    (fv₁ fv₂ : FileVersions) (k : String) (hwf₁ : WellFormed fv₁) (hwf₂ : WellFormed fv₂)
    (hsame : recordsOf fv₁ k = recordsOf fv₂ k) :
    targetsOfKey (evaluate S N bucket₁ fv₁).versionsToDelete k =
      targetsOfKey (evaluate S N bucket₂ fv₂).versionsToDelete k ∧
    ∀ v ∈ recordsOf fv₁ k,
      (toIdentifier v ∈ (evaluate S N bucket₁ fv₁).versionsToDelete ↔
        toIdentifier v ∈ (evaluate S N bucket₂ fv₂).versionsToDelete) := by
  have htargets : targetsOfKey (evaluate S N bucket₁ fv₁).versionsToDelete k =
      targetsOfKey (evaluate S N bucket₂ fv₂).versionsToDelete k := by
    rw [targetsOfKey_evaluate S N bucket₁ fv₁ hwf₁ k,
      targetsOfKey_evaluate S N bucket₂ fv₂ hwf₂ k]
    unfold recordCount
    rw [hsame]
  refine ⟨htargets, ?_⟩
  intro v hv
  have hkey : (toIdentifier v).Key = k := key_of_mem_recordsOf fv₁ hwf₁ k v hv
  have h₁ := mem_targetsOfKey (evaluate S N bucket₁ fv₁).versionsToDelete k (toIdentifier v)
  have h₂ := mem_targetsOfKey (evaluate S N bucket₂ fv₂).versionsToDelete k (toIdentifier v)
  rw [htargets] at h₁
  constructor
  · intro h
    exact (h₂.1 (h₁.2 ⟨h, hkey⟩)).1
  · intro h
    exact (h₁.1 (h₂.2 ⟨h, hkey⟩)).1

/-- Witness for C20: the scenario `[liveA, liveB, deleteMarkerC]` alone and next to a
second key; under `N = 1` the targets naming the key of the scenario are `B` and `C` in
both histories. -/
theorem key_independence_witness :
    WellFormed scenarioLiveLiveMarker ∧ WellFormed scenarioTwoKeys ∧
    recordsOf scenarioLiveLiveMarker scenarioKey = recordsOf scenarioTwoKeys scenarioKey ∧
    targetsOfKey (evaluate stdSorter 1 "b" scenarioTwoKeys).versionsToDelete scenarioKey =
      [ObjectIdentifier.mk "k" "B", ObjectIdentifier.mk "k" "C"] ∧
    targetsOfKey (evaluate stdSorter 1 "b" scenarioLiveLiveMarker).versionsToDelete
        scenarioKey =
      targetsOfKey (evaluate stdSorter 1 "b" scenarioTwoKeys).versionsToDelete scenarioKey :=
  ⟨by decide, by decide, by decide, by decide,
    (key_independence stdSorter 1 "b" "b" scenarioLiveLiveMarker scenarioTwoKeys scenarioKey
      (by decide) (by decide) (by decide)).1⟩

/-! ## C19: running the evaluator again -/

theorem foldl_keyStep_fileVersions (S : SliceSorter) (N : Int) (fv : FileVersions)
    (acc : VersionsInfo) :
    (fv.foldl (keyStep S N) acc).fileVersions =
      acc.fileVersions ++ fv.map (fun entry => (entry.1, S.sort entry.2)) := by
  induction fv generalizing acc with
  | nil => simp
  | cons e rest ih =>
    rw [List.foldl_cons, ih]
    simp [keyStep]

/-- The map the evaluator leaves behind: the keys the threshold filter kept, each with its
slice sorted. -/
theorem evaluate_fileVersions (S : SliceSorter) (N : Int) (bucket : String)
    (fv : FileVersions) :
    (evaluate S N bucket fv).fileVersions =
      (ignoreFilesWithFewerVersions fv N).map (fun entry => (entry.1, S.sort entry.2)) := by
  simp [evaluate, computeAndPrintVersionsInfo, foldl_keyStep_fileVersions]

/-- A list of records with pairwise distinct times has one arrangement by descending
time. -/
theorem eq_of_perm_of_descending (l₁ l₂ : List fileVersion) (hperm : List.Perm l₁ l₂)
    (h₁ : List.Pairwise (fun a b => a.LastModified ≥ b.LastModified) l₁)
    (h₂ : List.Pairwise (fun a b => a.LastModified ≥ b.LastModified) l₂)
    (hnd : (l₁.map (fun v => v.LastModified)).Nodup) : l₁ = l₂ := by
  have hmap : l₁.map (fun v => v.LastModified) = l₂.map (fun v => v.LastModified) := by
    apply List.eq_of_perm_of_sorted (r := fun a b : Int => a ≥ b) (List.Perm.map _ hperm)
    · exact List.pairwise_map.2 h₁
    · exact List.pairwise_map.2 h₂
  apply List.ext_getElem (List.Perm.length_eq hperm)
  intro n hn₁ hn₂
  have hmem₁ : l₁[n] ∈ l₁ := List.getElem_mem hn₁
  have hmem₂ : l₂[n] ∈ l₁ := (List.Perm.mem_iff hperm).2 (List.getElem_mem hn₂)
  apply List.inj_on_of_nodup_map hnd hmem₁ hmem₂
  have h := congrArg (fun l => l[n]?) hmap
  simpa [List.getElem?_map, List.getElem?_eq_getElem hn₁, List.getElem?_eq_getElem hn₂]
    using h

/-- Sorting a sorted slice again changes nothing when the times are pairwise distinct. -/
theorem sort_sort_of_distinct (S : SliceSorter) (l : List fileVersion)
    (hnd : (l.map (fun v => v.LastModified)).Nodup) : S.sort (S.sort l) = S.sort l := by
  apply eq_of_perm_of_descending _ _ (S.perm (S.sort l)) (sorted_descending S _)
    (sorted_descending S _)
  exact (List.Perm.nodup_iff (List.Perm.map _ ((S.perm (S.sort l)).trans (S.perm l)))).2 hnd

theorem ignore_map_sort (S : SliceSorter) (N : Int) (fv : FileVersions) :
    ignoreFilesWithFewerVersions
        ((ignoreFilesWithFewerVersions fv N).map (fun entry => (entry.1, S.sort entry.2))) N =
      (ignoreFilesWithFewerVersions fv N).map (fun entry => (entry.1, S.sort entry.2)) := by
  unfold ignoreFilesWithFewerVersions
  rw [List.filter_eq_self]
  intro e he
  obtain ⟨e0, he0, rfl⟩ := List.mem_map.1 he
  have := (List.mem_filter.1 he0).2
  simpa [length_sort] using this

/-- The purge list of a second run, on the history as the first run left it. -/
theorem evaluate_again (S : SliceSorter) (N : Int) (bucket : String) (fv : FileVersions) :
    (evaluate S N bucket (evaluate S N bucket fv).fileVersions).versionsToDelete =
      (ignoreFilesWithFewerVersions fv N).flatMap
        (fun entry => (purgedFrom N 0 (S.sort (S.sort entry.2))).map toIdentifier) := by
  rw [evaluate_fileVersions]
  conv_lhs => rw [evaluate, computeAndPrintVersionsInfo_versionsToDelete, ignore_map_sort]
  rw [List.flatMap_map]

/-- Insertion sort leaves a slice that is in order as it is. -/
theorem leavesSorted_stdSorter : LeavesSorted stdSorter := by
  intro l h
  show insertionSort l = l
  induction l with
  | nil => rfl
  | cons v rest ih =>
    rw [List.pairwise_cons] at h
    unfold insertionSort
    rw [ih h.2]
    cases rest with
    | nil => rfl
    | cons w tail =>
      unfold orderedInsert
      rw [h.1 w (List.mem_cons_self _ _)]
      rfl

/-- Sorting a sorted slice again changes nothing. -/
theorem sort_sort_of_leavesSorted (S : SliceSorter) (hS : LeavesSorted S)
    (l : List fileVersion) : S.sort (S.sort l) = S.sort l :=
  hS (S.sort l) (S.sorted l)

/-- The step for a key depends on the slice of the key only through its sorted form. -/
theorem keyStep_sorted (S : SliceSorter) (hS : LeavesSorted S) (N : Int)
    (acc : VersionsInfo) (entry : String × List fileVersion) :
    keyStep S N acc (entry.1, S.sort entry.2) = keyStep S N acc entry := by
  simp only [keyStep, sort_sort_of_leavesSorted S hS]

theorem foldl_keyStep_sorted (S : SliceSorter) (hS : LeavesSorted S) (N : Int)
    (fv : FileVersions) (acc : VersionsInfo) :
    (fv.map (fun entry => (entry.1, S.sort entry.2))).foldl (keyStep S N) acc =
      fv.foldl (keyStep S N) acc := by
  induction fv generalizing acc with
  | nil => rfl
  | cons e rest ih =>
    rw [List.map_cons, List.foldl_cons, List.foldl_cons, keyStep_sorted S hS, ih]

/-- C19. Idempotence of the evaluator: for every version history and every `N`, with a
sort that meets the contract of `sort.Slice` and, as `sort.Slice` does, leaves a slice that
is already in order as it is, running the evaluator (`ignoreFilesWithFewerVersions`, then
`computeAndPrintVersionsInfo`) a second time, on the history as the first run left it
(exempt keys removed, slices sorted in place), yields a purge list identical to that of the
first run, whether or not records of a key carry the same `lastModified`; the second run
also reports what the first reported and leaves the history as it found it. If the second
run visits the keys of the map in another order, its purge list holds the same targets,
rearranged across keys. -/
theorem evaluator_idempotent (S : SliceSorter) (hS : LeavesSorted S) (N : Int)
    (bucket : String) (fv : FileVersions) :
    (evaluate S N bucket (evaluate S N bucket fv).fileVersions).versionsToDelete =
      (evaluate S N bucket fv).versionsToDelete ∧
    evaluate S N bucket (evaluate S N bucket fv).fileVersions = evaluate S N bucket fv ∧
    ∀ reordered : FileVersions,
      List.Perm reordered (evaluate S N bucket fv).fileVersions →
      List.Perm (evaluate S N bucket reordered).versionsToDelete
        (evaluate S N bucket fv).versionsToDelete := by
  have hwhole : evaluate S N bucket (evaluate S N bucket fv).fileVersions =
      evaluate S N bucket fv := by
    rw [evaluate_fileVersions]
    conv_lhs => rw [evaluate, ignore_map_sort]
    conv_rhs => rw [evaluate]
    simp only [computeAndPrintVersionsInfo, foldl_keyStep_sorted S hS]
  have hfirst : (evaluate S N bucket (evaluate S N bucket fv).fileVersions).versionsToDelete =
      (evaluate S N bucket fv).versionsToDelete := by
    rw [hwhole]
  refine ⟨hfirst, hwhole, ?_⟩
  intro reordered hperm
  rw [← hfirst]
  have hfilter : List.Perm (ignoreFilesWithFewerVersions reordered N)
      (ignoreFilesWithFewerVersions (evaluate S N bucket fv).fileVersions N) :=
    List.Perm.filter _ hperm
  rw [evaluate, computeAndPrintVersionsInfo_versionsToDelete]
  conv_rhs => rw [evaluate, computeAndPrintVersionsInfo_versionsToDelete]
  exact List.Perm.flatMap_right _ hfilter

/-- Witness for C19: a key with two live versions `A` and `B` of the same `lastModified`,
under `N = 1`. The first run keeps the order `A, B` and purges `B`; the second run, on the
history as the first left it, purges `B` again. -/
theorem evaluator_idempotent_witness :
    LeavesSorted stdSorter ∧
    (evaluate stdSorter 1 "b" scenarioTie).versionsToDelete =
      [ObjectIdentifier.mk "k" "B"] ∧
    (evaluate stdSorter 1 "b" scenarioTie).fileVersions =
      [(scenarioKey, [liveRecord "A" 10, liveRecord "B" 10])] ∧
    (evaluate stdSorter 1 "b"
        (evaluate stdSorter 1 "b" scenarioTie).fileVersions).versionsToDelete =
      (evaluate stdSorter 1 "b" scenarioTie).versionsToDelete :=
  ⟨leavesSorted_stdSorter, by decide, by decide,
    (evaluator_idempotent stdSorter leavesSorted_stdSorter 1 "b" scenarioTie).1⟩

/-! ## Runs that stop at the first fatal error -/

theorem propagates_refl {σ : Type} (w : Run σ) (err : Option GoError) :
    Propagates w w err :=
  ⟨[], by simp, Or.inl (by simp)⟩

theorem propagates_of_clean {σ : Type} {w w' : Run σ} (h : Propagates w w' none)
    (err : Option GoError) : Propagates w w' err := by
  obtain ⟨E, hE, hcases⟩ := h
  rcases hcases with hclean | ⟨e, _, _, he, _⟩
  · exact ⟨E, hE, Or.inl hclean⟩
  · cases he

theorem propagates_trans {σ : Type} {w₁ w₂ w₃ : Run σ} {err : Option GoError}
    (h₁ : Propagates w₁ w₂ none) (h₂ : Propagates w₂ w₃ err) : Propagates w₁ w₃ err := by
  obtain ⟨E₁, hE₁, hcases₁⟩ := h₁
  obtain ⟨E₂, hE₂, hcases₂⟩ := h₂
  have hclean₁ : ∀ x ∈ E₁, fatalError x = none := by
    rcases hcases₁ with h | ⟨e, _, _, he, _⟩
    · exact h
    · cases he
  refine ⟨E₁ ++ E₂, by rw [hE₂, hE₁, List.append_assoc], ?_⟩
  rcases hcases₂ with hclean₂ | ⟨e, E', x, he, hE, hx, hclean'⟩
  · left
    intro x hx
    rcases List.mem_append.1 hx with hx | hx
    · exact hclean₁ x hx
    · exact hclean₂ x hx
  · right
    refine ⟨e, E₁ ++ E', x, he, by rw [hE, List.append_assoc], hx, ?_⟩
    intro y hy
    rcases List.mem_append.1 hy with hy | hy
    · exact hclean₁ y hy
    · exact hclean' y hy

theorem propagates_logLine {σ : Type} (w : Run σ) (line : LogLine) (err : Option GoError) :
    Propagates w (w.logLine line) err :=
  ⟨[], by simp [Run.logLine], Or.inl (by simp)⟩

theorem propagates_exchange_clean {σ : Type} (w : Run σ) (call : Call) (response : Response)
    (remote : σ) (err : Option GoError)
    (h : fatalError (Exchange.mk call response) = none) :
    Propagates w (w.exchange call response remote) err :=
  ⟨[Exchange.mk call response], by simp [Run.exchange], Or.inl (by simpa using h)⟩

theorem propagates_exchange_fatal {σ : Type} (w : Run σ) (call : Call) (response : Response)
    (remote : σ) (e : GoError)
    (h : fatalError (Exchange.mk call response) = some e) :
    Propagates w (w.exchange call response remote) (some e) :=
  ⟨[Exchange.mk call response], by simp [Run.exchange],
    Or.inr ⟨e, [], Exchange.mk call response, rfl, by simp, h, by simp⟩⟩

theorem propagates_getAllBuckets {σ : Type} (api : S3API σ) (w : Run σ) :
    Propagates w (getAllBuckets api w).2 (errorOfExcept (getAllBuckets api w).1) := by
  have hlog := propagates_logLine w LogLine.listAllBuckets none
  unfold getAllBuckets
  dsimp only
  split
  next err remote heq =>
    exact propagates_trans hlog (propagates_exchange_fatal _ _ _ _ err rfl)
  next response remote heq =>
    exact propagates_trans hlog (propagates_exchange_clean _ _ _ _ _ rfl)

theorem propagates_existsBucket {σ : Type} (api : S3API σ) (name : String) (w : Run σ) :
    Propagates w (existsBucket api name w).2 (errorOfExcept (existsBucket api name w).1) := by
  unfold existsBucket
  rcases hres : api.HeadBucket name w.remote with ⟨res, remote⟩
  cases res with
  | ok _ => exact propagates_exchange_clean _ _ _ _ _ rfl
  | error err =>
    cases err with
    | aws code message =>
      simp only
      by_cases hc : code = "NotFound"
      · rw [if_pos hc]
        exact propagates_exchange_clean _ _ _ _ _ (by simp [fatalError, hc])
      · rw [if_neg hc]
        exact propagates_exchange_fatal _ _ _ _ _ (by simp [fatalError, hc])
    | other message => exact propagates_exchange_fatal _ _ _ _ _ rfl

theorem propagates_getBuckets {σ : Type} (api : S3API σ) (config : Config) (w : Run σ) :
    Propagates w (getBuckets api config w).2 (errorOfExcept (getBuckets api config w).1) := by
  unfold getBuckets
  split
  · exact propagates_getAllBuckets api w
  · have h := propagates_existsBucket api config.BucketName w
    rcases hres : existsBucket api config.BucketName w with ⟨res, w1⟩
    rw [hres] at h
    cases res with
    | error err => exact h
    | ok found =>
      cases found
      · exact propagates_of_clean h _
      · exact h

theorem propagates_isVersioningEnabled {σ : Type} (api : S3API σ) (bucket : String)
    (w : Run σ) :
    Propagates w (isVersioningEnabled api bucket w).2
      (errorOfExcept (isVersioningEnabled api bucket w).1) := by
  unfold isVersioningEnabled
  rcases hres : api.GetBucketVersioning bucket w.remote with ⟨res, remote⟩
  cases res with
  | ok _ => exact propagates_exchange_clean _ _ _ _ _ rfl
  | error err =>
    cases err with
    | aws code message =>
      simp only
      by_cases hc : code = "BucketRegionError"
      · rw [if_pos hc]
        exact propagates_exchange_clean _ _ _ _ _ (by simp [fatalError, hc])
      · rw [if_neg hc]
        exact propagates_exchange_fatal _ _ _ _ _ (by simp [fatalError, hc])
    | other message => exact propagates_exchange_fatal _ _ _ _ _ rfl

theorem propagates_filterLoop {σ : Type} (api : S3API σ) (buckets acc : List String)
    (w : Run σ) :
    Propagates w (filterLoop api buckets acc w).2
      (errorOfExcept (filterLoop api buckets acc w).1) := by
  induction buckets generalizing acc w with
  | nil => exact propagates_refl w _
  | cons bucket rest ih =>
    have h := propagates_isVersioningEnabled api bucket w
    unfold filterLoop
    rcases hres : isVersioningEnabled api bucket w with ⟨res, w1⟩
    rw [hres] at h
    cases res with
    | error err => exact h
    | ok enabled => exact propagates_trans h (ih _ w1)

theorem propagates_listLoop {σ : Type} (api : S3API σ) (config : Config) (bucket : String)
    (pages : Nat) (fv : FileVersions) (keyMarker : Option String)
    (pageNumber versionCount : Int) (w : Run σ) :
    Propagates w (listLoop api config bucket pages fv keyMarker pageNumber versionCount w).2
      (errorOfOutcome
        (listLoop api config bucket pages fv keyMarker pageNumber versionCount w).1) := by
  induction pages generalizing fv keyMarker pageNumber versionCount w with
  | zero => exact propagates_refl w _
  | succ pages ih =>
    unfold listLoop
    simp only
    rcases hres : api.ListObjectVersions (listRequest config bucket keyMarker) w.remote with
      ⟨res, remote⟩
    cases res with
    | error err => exact propagates_exchange_fatal _ _ _ _ _ rfl
    | ok response =>
      have h1 : Propagates w
          ((w.exchange (Call.listObjectVersions (listRequest config bucket keyMarker))
            (Response.versions response) remote).logLine
            (LogLine.gotPage
              ((response.Versions.length : Int) + (response.DeleteMarkers.length : Int))
              pageNumber)) none :=
        propagates_trans
          (propagates_exchange_clean w
            (Call.listObjectVersions (listRequest config bucket keyMarker))
            (Response.versions response) remote none rfl)
          (propagates_logLine _ _ _)
      simp only
      cases hm : response.NextKeyMarker with
      | none => exact h1
      | some marker =>
        simp only
        split
        · exact h1
        · exact propagates_trans h1 (ih _ _ _ _ _)

theorem propagates_getFileVersions {σ : Type} (api : S3API σ) (config : Config)
    (bucket : String) (pages : Nat) (w : Run σ) :
    Propagates w (getFileVersions api config bucket pages w).2
      (errorOfOutcome (getFileVersions api config bucket pages w).1) := by
  have h := propagates_trans
    (propagates_logLine w (LogLine.getFileVersions bucket config.BucketPrefix) none)
    (propagates_listLoop api config bucket pages [] none 1 0 _)
  unfold getFileVersions
  dsimp only
  split
  next fileVersions versionCount w1 heq =>
    rw [heq] at h
    exact propagates_trans h (propagates_logLine _ _ _)
  next err w1 heq =>
    rw [heq] at h
    exact h
  next w1 heq =>
    rw [heq] at h
    exact h

theorem propagates_runChunks {σ : Type} (api : S3API σ) (bucket : String)
    (chunks : List (List ObjectIdentifier)) (w : Run σ) :
    Propagates w (runChunks api bucket chunks w).2 (runChunks api bucket chunks w).1 := by
  induction chunks generalizing w with
  | nil => exact propagates_refl w _
  | cons objects rest ih =>
    unfold runChunks
    rcases hres : api.DeleteObjects { Bucket := bucket, Objects := objects } w.remote with
      ⟨res, remote⟩
    cases res with
    | error err => exact propagates_exchange_fatal _ _ _ _ _ rfl
    | ok response =>
      exact propagates_trans
        (propagates_trans
          (propagates_exchange_clean w (deleteCall bucket objects)
            (Response.deleted response) remote none rfl)
          (propagates_logLine _ _ none)) (ih _)

theorem propagates_deleteS3Versions {σ : Type} (api : S3API σ) (config : Config)
    (bucket : String) (l : List ObjectIdentifier) (w : Run σ) :
    Propagates w (deleteS3Versions api config bucket l w).2
      (deleteS3Versions api config bucket l w).1 := by
  rw [deleteS3Versions_eq_runChunks]
  exact propagates_trans (propagates_logLine w _ none) (propagates_runChunks api bucket _ _)

theorem propagates_findAndRemoveVersions {σ : Type} (api : S3API σ) (S : SliceSorter)
    (config : Config) (pages : Nat) (bucket : String) (w : Run σ) :
    Propagates w (findAndRemoveVersions api S config pages bucket w).2
      (errorOfOutcome (findAndRemoveVersions api S config pages bucket w).1) := by
  have h := propagates_getFileVersions api config bucket pages w
  unfold findAndRemoveVersions
  rcases hres : getFileVersions api config bucket pages w with ⟨res, w1⟩
  rw [hres] at h
  cases res with
  | failed err => exact h
  | running => exact h
  | returned fv =>
    simp only
    have h2 : Propagates w
        { w1 with log := w1.log ++ (evaluate S config.VersionsCount bucket fv).log } none :=
      propagates_trans h ⟨[], by simp, Or.inl (by simp)⟩
    by_cases hc : config.Confirm = true
    · rw [if_pos hc]
      have h3 := propagates_deleteS3Versions api config bucket
        (evaluate S config.VersionsCount bucket fv).versionsToDelete
        { w1 with log := w1.log ++ (evaluate S config.VersionsCount bucket fv).log }
      rcases hdel : deleteS3Versions api config bucket
        (evaluate S config.VersionsCount bucket fv).versionsToDelete
        { w1 with log := w1.log ++ (evaluate S config.VersionsCount bucket fv).log } with
        ⟨res2, w3⟩
      rw [hdel] at h3
      cases res2 with
      | none => exact propagates_trans h2 h3
      | some err => exact propagates_trans h2 h3
    · rw [if_neg hc]
      exact h2

theorem propagates_bucketLoop {σ : Type} (api : S3API σ) (S : SliceSorter) (config : Config)
    (pages : Nat) (buckets : List String) (w : Run σ) :
    Propagates w (bucketLoop api S config pages buckets w).2
      (errorOfOutcome (bucketLoop api S config pages buckets w).1) := by
  induction buckets generalizing w with
  | nil => exact propagates_refl w _
  | cons bucket rest ih =>
    have h := propagates_findAndRemoveVersions api S config pages bucket w
    unfold bucketLoop
    rcases hres : findAndRemoveVersions api S config pages bucket w with ⟨res, w1⟩
    rw [hres] at h
    cases res with
    | returned _ => exact propagates_trans h (ih w1)
    | failed err => exact h
    | running => exact h

theorem propagates_Delete {σ : Type} (api : S3API σ) (S : SliceSorter) (config : Config)
    (pages : Nat) (w : Run σ) :
    Propagates w (Delete api S config pages w).2
      (errorOfOutcome (Delete api S config pages w).1) := by
  have h1 := propagates_getBuckets api config w
  unfold Delete
  rcases hres : getBuckets api config w with ⟨res, w1⟩
  rw [hres] at h1
  cases res with
  | error err => exact h1
  | ok buckets =>
    dsimp only
    have h2 : Propagates w (w1.logLine (LogLine.foundBuckets buckets)) none :=
      propagates_trans h1 (propagates_logLine _ _ _)
    have h3 := propagates_filterLoop api buckets []
      (w1.logLine (LogLine.foundBuckets buckets))
    unfold filterBucketsByVersioningEnabled
    rcases hres2 : filterLoop api buckets [] (w1.logLine (LogLine.foundBuckets buckets)) with
      ⟨res2, w3⟩
    rw [hres2] at h3
    cases res2 with
    | error err => exact propagates_trans h2 h3
    | ok versioned =>
      exact propagates_trans
        (propagates_trans (propagates_trans h2 h3) (propagates_logLine w3 _ none))
        (propagates_bucketLoop api S config pages versioned _)

/-! ## C18: fatal errors -/

/-- C18. Fatal error propagation: on every run of `Delete`, if a remote call returns an
error that is fatal (any error of `ListBuckets`, `ListObjectVersions` or `DeleteObjects`,
an error of `HeadBucket` other than code `NotFound`, an error of `GetBucketVersioning`
other than code `BucketRegionError`), then `Delete` returns exactly that error and the
failed call is the last call of the run: it is not retried and no later bucket is listed
or purged. -/
theorem fatal_error_propagation {σ : Type} (api : S3API σ) (S : SliceSorter)
    (config : Config) (pages : Nat) (w : Run σ) (j : Nat) (e : GoError)
    (hfatal : ((callsSince w (Delete api S config pages w).2)[j]?).bind fatalError = some e) :
    (Delete api S config pages w).1 = Outcome.failed e ∧
    (callsSince w (Delete api S config pages w).2).length = j + 1 ∧
    (∀ x ∈ (callsSince w (Delete api S config pages w).2).take j, fatalError x = none) ∧
    (Delete api S config pages w).2.calls =
      w.calls ++ callsSince w (Delete api S config pages w).2 := by
  obtain ⟨E, hE, hcases⟩ := propagates_Delete api S config pages w
  have hcs : callsSince w (Delete api S config pages w).2 = E := by
    unfold callsSince
    rw [hE]
    simp
  rw [hcs] at hfatal ⊢
  obtain ⟨z, hz, hzf⟩ := Option.bind_eq_some.1 hfatal
  have hzne : fatalError z ≠ none := by rw [hzf]; simp
  rcases hcases with hclean | ⟨e', E', x, herr, hEE, hx, hclean⟩
  · exact absurd (hclean z (List.mem_iff_getElem?.2 ⟨j, hz⟩)) hzne
  · rw [hEE] at hz
    obtain ⟨hj, hzx⟩ := eq_last_of_getElem?_append (p := fun y => fatalError y ≠ none)
      E' x z j (fun y hy h => h (hclean y hy)) hz hzne
    subst hzx
    rw [hzf] at hx
    simp only [Option.some.injEq] at hx
    subst hx
    refine ⟨?_, by rw [hEE, hj]; simp, ?_, hE⟩
    · cases hout : (Delete api S config pages w).1 with
      | failed err =>
        rw [hout] at herr
        simp only [errorOfOutcome, Option.some.injEq] at herr
        rw [herr]
      | returned v => rw [hout] at herr; simp [errorOfOutcome] at herr
      | running => rw [hout] at herr; simp [errorOfOutcome] at herr
    · intro y hy
      rw [hEE, hj] at hy
      simp only [List.take_left'] at hy
      exact hclean y (by simpa using hy)

/-- Witness for C18: the test data served by a store whose bulk delete always fails.
`Delete` with `Confirm = true` lists the buckets, probes them, lists `b1` in three pages
and sends one bulk delete, call number 7; it fails with `AccessDenied`, which `Delete`
returns after these eight calls. -/
theorem fatal_error_propagation_witness :
    ((callsSince (Run.start testMock)
        (Delete deniedDeletes stdSorter (testConfig true) 10
          (Run.start testMock)).2)[7]?).bind fatalError = some (awsError "AccessDenied") ∧
    (Delete deniedDeletes stdSorter (testConfig true) 10 (Run.start testMock)).1 =
      Outcome.failed (awsError "AccessDenied") ∧
    (callsSince (Run.start testMock)
        (Delete deniedDeletes stdSorter (testConfig true) 10
          (Run.start testMock)).2).length = 7 + 1 :=
  have h := fatal_error_propagation deniedDeletes stdSorter (testConfig true) 10
    (Run.start testMock) 7 (awsError "AccessDenied") (by decide)
  ⟨by decide, h.1, h.2.1⟩

/-! ## The in-memory service: page numbers as key markers -/

theorem digitValue_digitChar (d : Nat) (hd : d < 10) :
    digitValue (Nat.digitChar d) = some d := by
  interval_cases d <;> rfl

theorem parseDigits_toDigitsCore (fuel n : Nat) (hfuel : n < fuel) (ds : List Char) :
    parseDigits (Nat.toDigitsCore 10 fuel n ds) 0 = parseDigits ds n := by
  induction fuel generalizing n ds with
  | zero => omega
  | succ fuel ih =>
    unfold Nat.toDigitsCore
    simp only
    by_cases h0 : n / 10 = 0
    · rw [if_pos h0]
      have hlt : n < 10 := by omega
      simp only [parseDigits, digitValue_digitChar (n % 10) (Nat.mod_lt _ (by decide))]
      congr 1
      omega
    · rw [if_neg h0, ih (n / 10) (by omega)]
      simp only [parseDigits, digitValue_digitChar (n % 10) (Nat.mod_lt _ (by decide))]
      congr 1
      omega

theorem toDigitsCore_ne_nil (fuel n : Nat) (ds : List Char) (hds : ds.length ≠ 0 ∨ fuel ≠ 0) :
    (Nat.toDigitsCore 10 fuel n ds).length ≠ 0 := by
  induction fuel generalizing n ds with
  | zero =>
    rcases hds with h | h
    · simpa [Nat.toDigitsCore] using h
    · exact absurd rfl h
  | succ fuel ih =>
    unfold Nat.toDigitsCore
    simp only
    split
    · simp
    · exact ih _ _ (Or.inl (by simp))

theorem digitValue_of_parseDigits (l : List Char) (acc m : Nat)
    (h : parseDigits l acc = some m) : ∀ c ∈ l, ∃ d, digitValue c = some d := by
  induction l generalizing acc with
  | nil => intro c hc; simp at hc
  | cons x rest ih =>
    intro c hc
    unfold parseDigits at h
    cases hx : digitValue x with
    | none => rw [hx] at h; cases h
    | some d =>
      rw [hx] at h
      rcases List.mem_cons.1 hc with rfl | hc
      · exact ⟨d, hx⟩
      · exact ih _ h c hc

/-- The library functions `strconv.Itoa` and `strconv.Atoi` are inverse on page numbers. -/
theorem atoi_itoa (n : Nat) : atoi (itoa (n : Int)) = some (n : Int) := by
  have hparse : parseDigits (Nat.toDigits 10 n) 0 = some n := by
    unfold Nat.toDigits
    rw [parseDigits_toDigitsCore _ _ (Nat.lt_succ_self n)]
    rfl
  have hne : (Nat.toDigits 10 n).length ≠ 0 := by
    unfold Nat.toDigits
    exact toDigitsCore_ne_nil _ _ _ (Or.inr (Nat.succ_ne_zero n))
  have hitoa : itoa (n : Int) = String.mk (Nat.toDigits 10 n) := by
    unfold itoa
    rw [if_neg (by omega)]
    simp
  rw [hitoa]
  unfold atoi
  cases hl : Nat.toDigits 10 n with
  | nil => rw [hl] at hne; simp at hne
  | cons c rest =>
    simp only
    rw [hl] at hparse
    obtain ⟨d, hd⟩ := digitValue_of_parseDigits _ _ _ hparse c (List.mem_cons_self _ _)
    have hminus : c ≠ '-' := by
      intro h
      have hnone : digitValue '-' = none := by decide
      rw [h, hnone] at hd
      cases hd
    have hplus : c ≠ '+' := by
      intro h
      have hnone : digitValue '+' = none := by decide
      rw [h, hnone] at hd
      cases hd
    rw [if_neg hminus, if_neg hplus, hparse]
    rfl

theorem length_itoa_ne_zero (n : Nat) : (itoa (n : Int)).length ≠ 0 := by
  have hitoa : itoa (n : Int) = String.mk (Nat.toDigits 10 n) := by
    unfold itoa
    rw [if_neg (by omega)]
    simp
  rw [hitoa]
  unfold Nat.toDigits
  exact toDigitsCore_ne_nil _ _ _ (Or.inr (Nat.succ_ne_zero n))

/-! ## The in-memory service: pages -/

theorem mockPage_take (s e : Nat) (L : List (String × fakeVersion)) (n : Nat)
    (hs : s ≤ n) (he : n ≤ e) :
    mockPage (s : Int) (e : Int) ((n : Int) - 1) L =
      (listedVersions (L.take (e - n)), listedMarkers (L.take (e - n)),
        decide (e - n < L.length)) := by
  induction L generalizing n with
  | nil => simp [mockPage, listedVersions, listedMarkers]
  | cons x rest ih =>
    obtain ⟨key, version⟩ := x
    unfold mockPage
    have h1 : ¬ ((n : Int) - 1 + 1 < (s : Int)) := by omega
    rw [if_neg h1]
    by_cases hne : n = e
    · subst hne
      have h2 : (n : Int) - 1 + 1 ≥ (n : Int) := by omega
      rw [if_pos h2]
      simp [listedVersions, listedMarkers]
    · have h2 : ¬ ((n : Int) - 1 + 1 ≥ (e : Int)) := by omega
      rw [if_neg h2]
      have hidx : (n : Int) - 1 + 1 = ((n + 1 : Nat) : Int) - 1 := by push_cast; omega
      have hsub : e - n = (e - (n + 1)) + 1 := by omega
      rw [hidx, ih (n + 1) (by omega) (by omega), hsub]
      by_cases hm : version.IsDeleteMarker = true
      · simp [hm, listedVersions, listedMarkers]
      · simp [hm, listedVersions, listedMarkers]

theorem mockPage_drop (s e : Nat) (L : List (String × fakeVersion)) (n : Nat)
    (hn : n ≤ s) (hs : s ≤ n + L.length) :
    mockPage (s : Int) (e : Int) ((n : Int) - 1) L =
      mockPage (s : Int) (e : Int) ((s : Int) - 1) (L.drop (s - n)) := by
  induction L generalizing n with
  | nil =>
    simp only [List.length_nil, Nat.add_zero] at hs
    have : n = s := by omega
    subst this
    simp
  | cons x rest ih =>
    by_cases hlt : n < s
    · obtain ⟨key, version⟩ := x
      conv_lhs => unfold mockPage
      have h1 : (n : Int) - 1 + 1 < (s : Int) := by omega
      rw [if_pos h1]
      have hidx : (n : Int) - 1 + 1 = ((n + 1 : Nat) : Int) - 1 := by push_cast; omega
      have hsub : s - n = (s - (n + 1)) + 1 := by omega
      rw [hidx, ih (n + 1) (by omega) (by simp at hs; omega), hsub]
      simp
    · have : n = s := by omega
      subst this
      simp

/-- What the in-memory service lists for a page: the versions at the positions
`[perPage * p, perPage * p + perPage)` of the listing, and a continuation token exactly when
versions remain after them. -/
theorem mockPage_page (perPage p : Nat) (L : List (String × fakeVersion))
    (hp : perPage * p ≤ L.length) :
    mockPage ((perPage : Int) * (p : Int)) ((perPage : Int) * ((p : Int) + 1)) (-1) L =
      (listedVersions ((L.drop (perPage * p)).take perPage),
        listedMarkers ((L.drop (perPage * p)).take perPage),
        decide (perPage * (p + 1) < L.length)) := by
  have hs : (perPage : Int) * (p : Int) = ((perPage * p : Nat) : Int) := by push_cast; rfl
  have he : (perPage : Int) * ((p : Int) + 1) = ((perPage * (p + 1) : Nat) : Int) := by
    push_cast; rfl
  have h0 : (-1 : Int) = ((0 : Nat) : Int) - 1 := by simp
  rw [hs, he, h0, mockPage_drop _ _ L 0 (Nat.zero_le _) (by simpa using hp),
    mockPage_take _ _ _ (perPage * p) (le_refl _) (by rw [Nat.mul_add]; omega)]
  have hsub : perPage * (p + 1) - perPage * p = perPage := by rw [Nat.mul_add]; omega
  simp only [Nat.sub_zero, hsub, List.length_drop]
  congr 2
  rw [Nat.mul_add] 
  simp only [decide_eq_decide]
  omega

theorem mock_listObjectVersions (c : s3apiMock) (b : String) (bk : fakeBucket)
    (hb : c.buckets.lookup b = some bk) (perPage : Nat)
    (hper : c.versionsPerPage = (perPage : Int)) (config : Config) (p : Nat)
    (hp : perPage * p ≤ (mockListing bk).length) :
    mockService.ListObjectVersions (listRequest config b (pageMarker p)) c =
      (Except.ok (mockPageOutput perPage (mockListing bk) p), c) := by
  show s3apiMock.ListObjectVersions (listRequest config b (pageMarker p)) c = _
  unfold s3apiMock.ListObjectVersions
  have hbucket : (listRequest config b (pageMarker p)).Bucket = b := rfl
  have hmarker : (listRequest config b (pageMarker p)).KeyMarker = pageMarker p := rfl
  rw [hbucket, hb]
  simp only [hmarker]
  have hparsed : (match pageMarker p with
      | none => some (0 : Int)
      | some marker => atoi marker) = some (p : Int) := by
    unfold pageMarker
    by_cases h0 : p = 0
    · subst h0; simp
    · rw [if_neg h0]
      simp only
      exact atoi_itoa p
  rw [hparsed]
  simp only [hper]
  rw [mockPage_page perPage p (mockListing bk) hp]
  simp only [mockPageOutput]
  by_cases hnext : perPage * (p + 1) < (mockListing bk).length
  · simp [hnext]
  · simp [hnext]

/-- Against the in-memory service, with a positive page size and a budget that covers the
listing, the loop of `getFileVersions` returns the map built from the pages and leaves
the service as it was. -/
theorem listLoop_mock (c : s3apiMock) (b : String) (bk : fakeBucket)
    (hb : c.buckets.lookup b = some bk) (perPage : Nat)
    (hper : c.versionsPerPage = (perPage : Int)) (config : Config) (budget p : Nat)
    (hp : perPage * p ≤ (mockListing bk).length)
    (hbudget : (mockListing bk).length < perPage * (p + budget)) (fv : FileVersions)
    (pageNumber versionCount : Int) (w : Run s3apiMock) (hw : w.remote = c) :
    ∃ (count : Int) (w' : Run s3apiMock),
      listLoop mockService config b budget fv (pageMarker p) pageNumber versionCount w =
        (Outcome.returned
          ((mockPagesFrom perPage (mockListing bk) budget p).foldl pageStep fv, count), w') ∧
      w'.remote = c := by
  induction budget generalizing p fv pageNumber versionCount w with
  | zero => simp at hbudget; omega
  | succ budget ih =>
    unfold listLoop
    simp only
    rw [hw, mock_listObjectVersions c b bk hb perPage hper config p hp]
    simp only
    by_cases hnext : perPage * (p + 1) < (mockListing bk).length
    · have hm : (mockPageOutput perPage (mockListing bk) p).NextKeyMarker =
          some (itoa ((p + 1 : Nat) : Int)) := by simp [mockPageOutput, hnext]
      have hpm : pageMarker (p + 1) = some (itoa ((p + 1 : Nat) : Int)) := by
        simp [pageMarker]
      rw [hm]
      simp only [length_itoa_ne_zero, if_false]
      rw [← hpm]
      obtain ⟨count, w', heq, hrem⟩ := ih (p + 1) (le_of_lt hnext)
        (by rw [show p + 1 + budget = p + (budget + 1) by omega]; exact hbudget)
        (appendDeleteMarkers
          (appendFileVersions fv (mockPageOutput perPage (mockListing bk) p).Versions)
          (mockPageOutput perPage (mockListing bk) p).DeleteMarkers)
        (pageNumber + 1)
        (versionCount +
          (((mockPageOutput perPage (mockListing bk) p).Versions.length : Int) +
            ((mockPageOutput perPage (mockListing bk) p).DeleteMarkers.length : Int)))
        ((w.exchange (Call.listObjectVersions (listRequest config b (pageMarker p)))
          (Response.versions (mockPageOutput perPage (mockListing bk) p)) c).logLine
          (LogLine.gotPage
            (((mockPageOutput perPage (mockListing bk) p).Versions.length : Int) +
              ((mockPageOutput perPage (mockListing bk) p).DeleteMarkers.length : Int))
            pageNumber))
        rfl
      refine ⟨count, w', ?_, hrem⟩
      have hpages : mockPagesFrom perPage (mockListing bk) (budget + 1) p =
          mockPageOutput perPage (mockListing bk) p ::
            mockPagesFrom perPage (mockListing bk) budget (p + 1) := by
        simp [mockPagesFrom, hnext]
      rw [heq, hpages]
      rfl
    · have hm : (mockPageOutput perPage (mockListing bk) p).NextKeyMarker = none := by
        simp [mockPageOutput, hnext]
      rw [hm]
      have hpages : mockPagesFrom perPage (mockListing bk) (budget + 1) p =
          [mockPageOutput perPage (mockListing bk) p] := by
        simp [mockPagesFrom, hnext]
      rw [hpages]
      exact ⟨_, _, rfl, rfl⟩

theorem getFileVersions_mock (c : s3apiMock) (b : String) (bk : fakeBucket)
    (hb : c.buckets.lookup b = some bk) (perPage : Nat)
    (hper : c.versionsPerPage = (perPage : Int)) (hpos : 0 < perPage) (config : Config)
    (budget : Nat) (hbudget : (mockListing bk).length < budget) (w : Run s3apiMock)
    (hw : w.remote = c) :
    ∃ w' : Run s3apiMock,
      getFileVersions mockService config b budget w =
        (Outcome.returned (enumeratedHistory perPage budget bk), w') ∧
      w'.remote = c := by
  have hb2 : (mockListing bk).length < perPage * (0 + budget) := by
    have : budget ≤ perPage * budget := Nat.le_mul_of_pos_left budget hpos
    rw [Nat.zero_add]
    omega
  obtain ⟨count, w', heq, hrem⟩ := listLoop_mock c b bk hb perPage hper config budget 0
    (by simp) hb2 [] 1 0 (w.logLine (LogLine.getFileVersions b config.BucketPrefix)) hw
  have hpm : pageMarker 0 = none := rfl
  rw [hpm] at heq
  unfold getFileVersions
  simp only [heq]
  exact ⟨_, rfl, hrem⟩

theorem listed_records_perm (chunk : List (String × fakeVersion)) :
    List.Perm
      ((listedVersions chunk).map recordOfVersion ++ (listedMarkers chunk).map recordOfMarker)
      (chunk.map recordOfListed) := by
  induction chunk with
  | nil => simp [listedVersions, listedMarkers]
  | cons x rest ih =>
    by_cases hm : x.2.IsDeleteMarker = true
    · simp only [listedVersions, listedMarkers, hm, if_true, List.map_cons, recordOfListed]
      exact List.perm_middle.trans (List.Perm.cons _ ih)
    · simp only [listedVersions, listedMarkers, hm, if_false, List.map_cons, recordOfListed,
        List.cons_append]
      exact List.Perm.cons _ ih

/-- The records of the pages from number `p` on are, up to order, the records of the
listing from position `perPage * p` on. -/
theorem mockPagesFrom_records_perm (perPage : Nat) (L : List (String × fakeVersion))
    (budget p : Nat) (hbudget : L.length < perPage * (p + budget)) :
    List.Perm ((mockPagesFrom perPage L budget p).flatMap pageRecords)
      ((L.drop (perPage * p)).map recordOfListed) := by
  induction budget generalizing p with
  | zero =>
    have : L.drop (perPage * p) = [] := List.drop_of_length_le (by simpa using le_of_lt hbudget)
    simp [mockPagesFrom, this]
  | succ budget ih =>
    have hpage : List.Perm (pageRecords (mockPageOutput perPage L p))
        (((L.drop (perPage * p)).take perPage).map recordOfListed) :=
      listed_records_perm _
    by_cases hnext : perPage * (p + 1) < L.length
    · have hpages : mockPagesFrom perPage L (budget + 1) p =
          mockPageOutput perPage L p :: mockPagesFrom perPage L budget (p + 1) := by
        simp [mockPagesFrom, hnext]
      have hsplit : L.drop (perPage * p) =
          (L.drop (perPage * p)).take perPage ++ L.drop (perPage * (p + 1)) := by
        have h := (List.take_append_drop perPage (L.drop (perPage * p))).symm
        rw [List.drop_drop] at h
        rw [show perPage * (p + 1) = perPage * p + perPage by rw [Nat.mul_add]; omega]
        exact h
      rw [hpages, List.flatMap_cons]
      conv_rhs => rw [hsplit, List.map_append]
      exact List.Perm.append hpage
        (ih (p + 1) (by rw [show p + 1 + budget = p + (budget + 1) by omega]; exact hbudget))
    · have hpages : mockPagesFrom perPage L (budget + 1) p = [mockPageOutput perPage L p] := by
        simp [mockPagesFrom, hnext]
      have htake : (L.drop (perPage * p)).take perPage = L.drop (perPage * p) := by
        apply List.take_of_length_le
        rw [List.length_drop, Nat.mul_add] at *
        omega
      rw [hpages]
      simp only [List.flatMap_cons, List.flatMap_nil, List.append_nil]
      rw [← htake]
      simpa [htake] using hpage

/-- The history enumerated from a bucket is built from a rearrangement of the records of
its listing. -/
theorem enumeratedHistory_eq (perPage budget : Nat) (bk : fakeBucket) (hpos : 0 < perPage)
    (hbudget : (mockListing bk).length < budget) :
    ∃ A : List fileVersion,
      enumeratedHistory perPage budget bk = A.foldl appendRecord [] ∧
      List.Perm A ((mockListing bk).map recordOfListed) := by
  refine ⟨(mockPagesFrom perPage (mockListing bk) budget 0).flatMap pageRecords, ?_, ?_⟩
  · unfold enumeratedHistory
    rw [foldl_pageStep_eq_foldl]
  · have h := mockPagesFrom_records_perm perPage (mockListing bk) budget 0 (by
      have : budget ≤ perPage * budget := Nat.le_mul_of_pos_left budget hpos
      rw [Nat.zero_add]
      omega)
    simpa using h

/-! ## The in-memory service: bulk delete -/

theorem lookup_setObjects (objects : List (String × List fakeVersion)) (key : String)
    (versions : List fakeVersion) (k : String) :
    (setObjects objects key versions).lookup k =
      if k = key then some versions else objects.lookup k := by
  induction objects with
  | nil =>
    by_cases hk : k = key
    · simp [setObjects, List.lookup_cons, hk]
    · have hb : (k == key) = false := by simpa using hk
      simp [setObjects, List.lookup_cons, hk, hb]
  | cons e rest ih =>
    obtain ⟨k', v⟩ := e
    unfold setObjects
    by_cases hkk : k' = key
    · subst hkk
      by_cases hk : k = k'
      · simp [List.lookup_cons, hk]
      · have hb : (k == k') = false := by simpa using hk
        simp [List.lookup_cons, hk, hb]
    · rw [if_neg hkk]
      by_cases hk : k = k'
      · subst hk
        simp [List.lookup_cons, hkk]
      · have hb : (k == k') = false := by simpa using hk
        simp only [List.lookup_cons, hb, ih]

/-- Among versions with pairwise distinct IDs, removing the first version with an ID
removes every version with that ID. -/
theorem removeVersion_eq_filter (versionID : String) (versions : List fakeVersion)
    (hids : (versions.map (fun v => v.VersionID)).Nodup) :
    (removeVersion versionID versions).1 =
      versions.filter (fun v => decide (v.VersionID ≠ versionID)) := by
  induction versions with
  | nil => rfl
  | cons v rest ih =>
    rw [List.map_cons, List.nodup_cons] at hids
    unfold removeVersion
    by_cases hv : v.VersionID = versionID
    · rw [if_pos hv]
      have hrest : ∀ u ∈ rest, u.VersionID ≠ versionID := by
        intro u hu hid
        exact hids.1 (List.mem_map.2 ⟨u, hu, by rw [hid, hv]⟩)
      rw [List.filter_cons]
      simp only [hv, ne_eq, not_true_eq_false, decide_False, Bool.false_eq_true, if_false]
      symm
      rw [List.filter_eq_self]
      intro u hu
      simpa using hrest u hu
    · rw [if_neg hv, List.filter_cons]
      simp only [ne_eq, hv, not_false_eq_true, decide_True, if_true]
      show v :: (removeVersion versionID rest).1 = _
      rw [ih hids.2]

theorem removeVersion_not_found (versionID : String) (versions : List fakeVersion)
    (h : (removeVersion versionID versions).2 = false) :
    (removeVersion versionID versions).1 = versions := by
  induction versions with
  | nil => rfl
  | cons v rest ih =>
    unfold removeVersion at h ⊢
    by_cases hv : v.VersionID = versionID
    · rw [if_pos hv] at h
      cases h
    · rw [if_neg hv] at h ⊢
      show v :: (removeVersion versionID rest).1 = _
      rw [ih h]

theorem nodup_ids_filter (versions : List fakeVersion) (p : fakeVersion → Bool)
    (hids : (versions.map (fun v => v.VersionID)).Nodup) :
    ((versions.filter p).map (fun v => v.VersionID)).Nodup :=
  List.Nodup.sublist (List.Sublist.map _ (List.filter_sublist versions)) hids

/-- The bulk delete of the in-memory service, on a map whose requested keys are all
present and whose versions have distinct IDs within each key: the call is answered, and
afterwards every key holds the versions it held before except the requested ones. -/
theorem mockDeleteLoop_spec (requested : List ObjectIdentifier)
    (objects : List (String × List fakeVersion)) (deleted : List DeletedObject)
    (hkeys : ∀ t ∈ requested, (objects.lookup t.Key).isSome = true)
    (hids : ∀ k vs, objects.lookup k = some vs → (vs.map (fun v => v.VersionID)).Nodup) :
    (∃ confirmed, (mockDeleteLoop requested objects deleted).1 = Except.ok confirmed) ∧
    ∀ k, (mockDeleteLoop requested objects deleted).2.lookup k =
      (objects.lookup k).map (fun vs =>
        vs.filter (fun v => decide (ObjectIdentifier.mk k v.VersionID ∉ requested))) := by
  induction requested generalizing objects deleted with
  | nil =>
    refine ⟨⟨deleted, rfl⟩, ?_⟩
    intro k
    simp [mockDeleteLoop]
  | cons t rest ih =>
    have ht := hkeys t (List.mem_cons_self _ _)
    cases hl : objects.lookup t.Key with
    | none => rw [hl] at ht; cases ht
    | some versions =>
      have hv := hids t.Key versions hl
      -- the map after the first requested object
      have hstep : ∃ objects1 deleted1,
          mockDeleteLoop (t :: rest) objects deleted = mockDeleteLoop rest objects1 deleted1 ∧
          ∀ k, objects1.lookup k = (objects.lookup k).map (fun vs =>
            vs.filter (fun v => decide (ObjectIdentifier.mk k v.VersionID ≠ t))) := by
        by_cases hfound : (removeVersion t.VersionId versions).2 = true
        · refine ⟨setObjects objects t.Key (removeVersion t.VersionId versions).1,
            deleted ++ [{ VersionId := t.VersionId }], ?_, ?_⟩
          · conv_lhs => unfold mockDeleteLoop
            simp only [hl, hfound, if_true]
          · intro k
            rw [lookup_setObjects]
            by_cases hk : k = t.Key
            · subst hk
              rw [if_pos rfl, hl, removeVersion_eq_filter _ _ hv]
              simp only [Option.map_some']
              congr 1
              apply List.filter_congr
              intro v _
              cases t
              simp
            · rw [if_neg hk]
              cases hk2 : objects.lookup k with
              | none => rfl
              | some vs =>
                simp only [Option.map_some']
                congr 1
                symm
                rw [List.filter_eq_self]
                intro v _
                cases t
                simp only [ne_eq, ObjectIdentifier.mk.injEq, not_and, decide_eq_true_eq]
                intro hk3
                exact absurd hk3 hk
        · have hnot : (removeVersion t.VersionId versions).2 = false := by
            simpa using hfound
          refine ⟨objects, deleted, ?_, ?_⟩
          · conv_lhs => unfold mockDeleteLoop
            simp only [hl, hnot, Bool.false_eq_true, if_false]
          · intro k
            cases hk2 : objects.lookup k with
            | none => rfl
            | some vs =>
              simp only [Option.map_some']
              congr 1
              symm
              rw [List.filter_eq_self]
              intro v hvmem
              cases t with
              | mk tk tid =>
                simp only [ne_eq, ObjectIdentifier.mk.injEq, not_and, decide_eq_true_eq]
                intro hk3 hid
                subst hk3
                rw [hl] at hk2
                cases hk2
                have h1 := removeVersion_not_found tid versions hnot
                rw [removeVersion_eq_filter _ _ hv] at h1
                have h2 : v ∈ versions.filter (fun v => decide (v.VersionID ≠ tid)) := by
                  rw [h1]; exact hvmem
                simp [hid] at h2
      obtain ⟨objects1, deleted1, heq, hlook⟩ := hstep
      have hkeys1 : ∀ t' ∈ rest, (objects1.lookup t'.Key).isSome = true := by
        intro t' ht'
        have := hkeys t' (List.mem_cons_of_mem _ ht')
        rw [hlook]
        cases h : objects.lookup t'.Key with
        | none => rw [h] at this; cases this
        | some vs => rfl
      have hids1 : ∀ k vs, objects1.lookup k = some vs →
          (vs.map (fun v => v.VersionID)).Nodup := by
        intro k vs hk
        rw [hlook] at hk
        cases h : objects.lookup k with
        | none => rw [h] at hk; cases hk
        | some vs0 =>
          rw [h] at hk
          simp only [Option.map_some', Option.some.injEq] at hk
          rw [← hk]
          exact nodup_ids_filter vs0 _ (hids k vs0 h)
      obtain ⟨hok, hfinal⟩ := ih objects1 deleted1 hkeys1 hids1
      rw [heq]
      refine ⟨hok, ?_⟩
      intro k
      rw [hfinal, hlook]
      cases h : objects.lookup k with
      | none => rfl
      | some vs0 =>
        simp only [Option.map_some', List.filter_filter]
        congr 1
        apply List.filter_congr
        intro v _
        simp only [List.mem_cons, not_or, ne_eq]
        by_cases h1 : ObjectIdentifier.mk k v.VersionID = t
        · simp [h1]
        · simp [h1]

theorem lookup_setBucketObjects (buckets : List (String × fakeBucket)) (name : String)
    (objects : List (String × List fakeVersion)) (b : String) :
    (setBucketObjects buckets name objects).lookup b =
      if b = name then
        (buckets.lookup b).map (fun bucket => { bucket with Objects := objects })
      else buckets.lookup b := by
  induction buckets with
  | nil => simp [setBucketObjects]
  | cons e rest ih =>
    obtain ⟨k, bucket⟩ := e
    unfold setBucketObjects at ih ⊢
    rw [List.map_cons]
    by_cases hk : k = name
    · subst hk
      simp only [if_true]
      by_cases hb : b = k
      · subst hb
        simp [List.lookup_cons]
      · have hbeq : (b == k) = false := by simpa using hb
        rw [if_neg hb] at ih ⊢
        simp only [List.lookup_cons, hbeq, ih]
    · simp only [hk, if_false]
      by_cases hb : b = k
      · subst hb
        simp [List.lookup_cons, hk]
      · have hbeq : (b == k) = false := by simpa using hb
        simp only [List.lookup_cons, hbeq, ih]

theorem purged_nil (bucket : fakeBucket) : Purged [] bucket bucket := by
  refine ⟨rfl, ?_⟩
  intro k
  cases h : bucket.Objects.lookup k with
  | none => rfl
  | some vs => simp

theorem purged_append (p₁ p₂ : List ObjectIdentifier) (b₀ b₁ b₂ : fakeBucket)
    (h₁ : Purged p₁ b₀ b₁) (h₂ : Purged p₂ b₁ b₂) : Purged (p₁ ++ p₂) b₀ b₂ := by
  refine ⟨h₂.1.trans h₁.1, ?_⟩
  intro k
  rw [h₂.2, h₁.2]
  cases h : b₀.Objects.lookup k with
  | none => rfl
  | some vs =>
    simp only [Option.map_some', List.filter_filter]
    congr 1
    apply List.filter_congr
    intro v _
    simp only [List.mem_append, not_or]
    by_cases h1 : ObjectIdentifier.mk k v.VersionID ∈ p₁
    · simp [h1]
    · simp [h1]

theorem distinctIDs_of_purged (purge : List ObjectIdentifier) (before after : fakeBucket)
    (h : Purged purge before after) (hids : DistinctIDs before) : DistinctIDs after := by
  intro k vs hk
  rw [h.2] at hk
  cases h0 : before.Objects.lookup k with
  | none => rw [h0] at hk; cases hk
  | some vs0 =>
    rw [h0] at hk
    simp only [Option.map_some', Option.some.injEq] at hk
    rw [← hk]
    exact nodup_ids_filter vs0 _ (hids k vs0 h0)

/-- One bulk delete of the in-memory service on a bucket that holds every requested
key. -/
theorem mock_deleteObjects (c : s3apiMock) (b : String) (bucket : fakeBucket)
    (hb : c.buckets.lookup b = some bucket) (requested : List ObjectIdentifier)
    (hkeys : ∀ t ∈ requested, (bucket.Objects.lookup t.Key).isSome = true)
    (hids : DistinctIDs bucket) :
    ∃ (output : DeleteObjectsOutput) (c' : s3apiMock) (after : fakeBucket),
      mockService.DeleteObjects { Bucket := b, Objects := requested } c =
        (Except.ok output, c') ∧
      c'.versionsPerPage = c.versionsPerPage ∧
      c'.buckets.lookup b = some after ∧ Purged requested bucket after ∧
      ∀ b', b' ≠ b → c'.buckets.lookup b' = c.buckets.lookup b' := by
  obtain ⟨⟨confirmed, hok⟩, hlook⟩ := mockDeleteLoop_spec requested bucket.Objects [] hkeys hids
  show ∃ (output : DeleteObjectsOutput) (c' : s3apiMock) (after : fakeBucket),
    s3apiMock.DeleteObjects { Bucket := b, Objects := requested } c = (Except.ok output, c') ∧ _
  unfold s3apiMock.DeleteObjects
  simp only [hb]
  rcases hres : mockDeleteLoop requested bucket.Objects [] with ⟨res, objects⟩
  rw [hres] at hok hlook
  simp only at hok hlook
  subst hok
  refine ⟨{ Deleted := confirmed }, _, { bucket with Objects := objects }, rfl, rfl, ?_,
    ⟨rfl, hlook⟩, ?_⟩
  · simp only [lookup_setBucketObjects, if_true, hb, Option.map_some']
  · intro b' hb'
    simp only [lookup_setBucketObjects, if_neg hb']

/-- The chunk calls of a purge on the in-memory service: every call is answered, the
bucket ends up without the requested versions, and the other buckets are as before. -/
theorem runChunks_mock (b : String) (chunks : List (List ObjectIdentifier))
    (w : Run s3apiMock) (bucket : fakeBucket) (hb : w.remote.buckets.lookup b = some bucket)
    (hkeys : ∀ chunk ∈ chunks, ∀ t ∈ chunk, (bucket.Objects.lookup t.Key).isSome = true)
    (hids : DistinctIDs bucket) :
    ∃ (w' : Run s3apiMock) (after : fakeBucket),
      runChunks mockService b chunks w = (none, w') ∧
      w'.remote.versionsPerPage = w.remote.versionsPerPage ∧
      w'.remote.buckets.lookup b = some after ∧ Purged chunks.flatten bucket after ∧
      ∀ b', b' ≠ b → w'.remote.buckets.lookup b' = w.remote.buckets.lookup b' := by
  induction chunks generalizing w bucket with
  | nil => exact ⟨w, bucket, rfl, rfl, hb, purged_nil bucket, fun _ _ => rfl⟩
  | cons chunk rest ih =>
    obtain ⟨output, c', mid, hcall, hper, hmid, hpurged, hother⟩ :=
      mock_deleteObjects w.remote b bucket hb chunk
        (hkeys chunk (List.mem_cons_self _ _)) hids
    have hkeys' : ∀ chunk' ∈ rest, ∀ t ∈ chunk',
        (mid.Objects.lookup t.Key).isSome = true := by
      intro chunk' hc t ht
      have := hkeys chunk' (List.mem_cons_of_mem _ hc) t ht
      rw [hpurged.2]
      cases h : bucket.Objects.lookup t.Key with
      | none => rw [h] at this; cases this
      | some vs => rfl
    obtain ⟨w', after, hrun, hper', hafter, hpurged', hother'⟩ :=
      ih ((w.exchange (deleteCall b chunk) (Response.deleted output) c').logLine
        (LogLine.deleted output.Deleted.length)) mid hmid hkeys'
        (distinctIDs_of_purged _ _ _ hpurged hids)
    refine ⟨w', after, ?_, hper'.trans hper, hafter, ?_, ?_⟩
    · unfold runChunks
      simp only [hcall]
      exact hrun
    · rw [List.flatten_cons]
      exact purged_append _ _ _ _ _ hpurged hpurged'
    · intro b' hb'
      rw [hother' b' hb']
      exact hother b' hb'

/-! ## Association lists as Go maps -/

theorem lookup_cons_self {β : Type} (k : String) (v : β) (rest : List (String × β)) :
    List.lookup k ((k, v) :: rest) = some v := by
  simp [List.lookup_cons]

theorem lookup_cons_ne {β : Type} (k k' : String) (v : β) (rest : List (String × β))
    (h : k ≠ k') : List.lookup k ((k', v) :: rest) = List.lookup k rest := by
  have hb : (k == k') = false := by simpa using h
  simp [List.lookup_cons, hb]

theorem mem_of_lookup {β : Type} (l : List (String × β)) (k : String) (v : β)
    (h : l.lookup k = some v) : (k, v) ∈ l := by
  induction l with
  | nil => simp at h
  | cons e rest ih =>
    obtain ⟨k', v'⟩ := e
    by_cases hk : k = k'
    · subst hk
      rw [lookup_cons_self] at h
      cases h
      exact List.mem_cons_self _ _
    · rw [lookup_cons_ne k k' v' rest hk] at h
      exact List.mem_cons_of_mem _ (ih h)

theorem lookup_isSome_iff_mem_keys {β : Type} (l : List (String × β)) (k : String) :
    (l.lookup k).isSome = true ↔ k ∈ l.map Prod.fst := by
  induction l with
  | nil => simp
  | cons e rest ih =>
    obtain ⟨k', v'⟩ := e
    by_cases hk : k = k'
    · subst hk
      rw [lookup_cons_self]
      simp
    · rw [lookup_cons_ne k k' v' rest hk, ih]
      simp [hk]

theorem lookup_of_mem_of_nodup {β : Type} (l : List (String × β))
    (hnd : (l.map Prod.fst).Nodup) (e : String × β) (he : e ∈ l) :
    l.lookup e.1 = some e.2 := by
  induction l with
  | nil => cases he
  | cons x rest ih =>
    obtain ⟨k', v'⟩ := x
    rw [List.map_cons, List.nodup_cons] at hnd
    rcases List.mem_cons.1 he with rfl | he
    · exact lookup_cons_self _ _ _
    · have hne : e.1 ≠ k' := by
        intro h
        have hmem : e.1 ∈ rest.map Prod.fst := List.mem_map_of_mem Prod.fst he
        rw [h] at hmem
        exact hnd.1 hmem
      rw [lookup_cons_ne e.1 k' v' rest hne]
      exact ih hnd.2 he

/-! ## The history built by the enumerator is a well-formed map -/

theorem mem_mapSet (m : FileVersions) (key : String) (value : List fileVersion)
    (e : String × List fileVersion) (he : e ∈ mapSet m key value) :
    e = (key, value) ∨ e ∈ m := by
  induction m with
  | nil =>
    simp only [mapSet, List.mem_singleton] at he
    exact Or.inl he
  | cons x rest ih =>
    obtain ⟨k, v⟩ := x
    unfold mapSet at he
    by_cases hk : k = key
    · rw [if_pos hk] at he
      rcases List.mem_cons.1 he with h | h
      · exact Or.inl h
      · exact Or.inr (List.mem_cons_of_mem _ h)
    · rw [if_neg hk] at he
      rcases List.mem_cons.1 he with h | h
      · exact Or.inr (h ▸ List.mem_cons_self _ _)
      · rcases ih h with h | h
        · exact Or.inl h
        · exact Or.inr (List.mem_cons_of_mem _ h)

theorem keys_mapSet (m : FileVersions) (key : String) (value : List fileVersion) :
    (mapSet m key value).map Prod.fst =
      if key ∈ m.map Prod.fst then m.map Prod.fst else m.map Prod.fst ++ [key] := by
  induction m with
  | nil => simp [mapSet]
  | cons x rest ih =>
    obtain ⟨k, v⟩ := x
    unfold mapSet
    by_cases hk : k = key
    · subst hk
      simp
    · rw [if_neg hk, List.map_cons, ih]
      have hk' : ¬ key = k := fun h => hk h.symm
      by_cases hmem : key ∈ rest.map Prod.fst
      · rw [if_pos hmem, if_pos (by simp [hmem])]
        rfl
      · rw [if_neg hmem, if_neg (by
          simp only [List.map_cons, List.mem_cons, not_or]
          exact ⟨hk', hmem⟩)]
        rfl

theorem wellFormed_appendRecord (m : FileVersions) (r : fileVersion) (h : WellFormed m) :
    WellFormed (appendRecord m r) := by
  have hwf : ∀ value : List fileVersion, (∀ v ∈ value, v.Key = r.Key) →
      WellFormed (mapSet m r.Key value) := by
    intro value hvalue
    constructor
    · rw [keys_mapSet]
      split
      · exact h.1
      · next hmem =>
        exact List.Nodup.append h.1 (List.nodup_singleton _) (by
          intro a ha hb
          rw [List.mem_singleton] at hb
          exact hmem (hb ▸ ha))
    · intro e he v hv
      rcases mem_mapSet m r.Key value e he with rfl | he
      · exact hvalue v hv
      · exact h.2 e he v hv
  unfold appendRecord
  cases hl : m.lookup r.Key with
  | none =>
    apply hwf
    intro v hv
    rw [List.mem_singleton] at hv
    rw [hv]
  | some versions =>
    apply hwf
    intro v hv
    rcases List.mem_append.1 hv with hv | hv
    · exact h.2 (r.Key, versions) (mem_of_lookup m r.Key versions hl) v hv
    · rw [List.mem_singleton] at hv
      rw [hv]

theorem wellFormed_foldl_appendRecord (records : List fileVersion) (m : FileVersions)
    (h : WellFormed m) : WellFormed (records.foldl appendRecord m) := by
  induction records generalizing m with
  | nil => exact h
  | cons r rest ih => exact ih _ (wellFormed_appendRecord m r h)

/-- Under a key, the map built from a sequence of records holds the records of that key,
in arrival order. -/
theorem recordsOf_foldl_appendRecord (records : List fileVersion) (k : String) :
    recordsOf (records.foldl appendRecord []) k =
      records.filter (fun r => decide (r.Key = k)) := by
  unfold recordsOf
  rw [lookup_foldl_appendRecord]
  by_cases h : (records.filter (fun r => decide (r.Key = k))).length = 0
  · rw [if_pos h]
    have := List.eq_nil_of_length_eq_zero h
    rw [this]
    rfl
  · rw [if_neg h]
    simp [recordsOf]

/-! ## The in-memory service: what the enumerator learns about a bucket -/

theorem insertKey_perm (key : String) (keys : List String) :
    List.Perm (insertKey key keys) (key :: keys) := by
  induction keys with
  | nil => exact List.Perm.refl _
  | cons other rest ih =>
    unfold insertKey
    split
    · exact (List.Perm.cons other ih).trans (List.Perm.swap key other rest)
    · exact List.Perm.refl _

theorem sortStrings_perm (keys : List String) : List.Perm (sortStrings keys) keys := by
  induction keys with
  | nil => exact List.Perm.refl _
  | cons key rest ih =>
    unfold sortStrings
    exact (insertKey_perm key _).trans (List.Perm.cons key ih)

theorem key_recordOfListed (entry : String × fakeVersion) :
    (recordOfListed entry).Key = entry.1 := by
  unfold recordOfListed
  split <;> rfl

theorem versionID_recordOfListed (entry : String × fakeVersion) :
    (recordOfListed entry).VersionID = entry.2.VersionID := by
  unfold recordOfListed
  split <;> rfl

theorem mem_mockListing (bucket : fakeBucket) (entry : String × fakeVersion)
    (h : entry ∈ mockListing bucket) :
    ∃ vs, bucket.Objects.lookup entry.1 = some vs ∧ entry.2 ∈ vs := by
  unfold mockListing at h
  rcases List.mem_flatMap.1 h with ⟨key, _, hmem⟩
  rcases List.mem_map.1 hmem with ⟨v, hv, rfl⟩
  cases hl : bucket.Objects.lookup key with
  | none => rw [hl] at hv; simp at hv
  | some vs =>
    rw [hl] at hv
    exact ⟨vs, rfl, by simpa using hv⟩

/-- The entries of a listing under one key, for pairwise distinct keys. -/
theorem filter_flatMap_key (keys : List String) (hnd : keys.Nodup)
    (f : String → List fakeVersion) (k : String) :
    (keys.flatMap (fun key => (f key).map (fun version => (key, version)))).filter
        (fun entry => decide (entry.1 = k)) =
      if k ∈ keys then (f k).map (fun version => (k, version)) else [] := by
  induction keys with
  | nil => rfl
  | cons key rest ih =>
    rw [List.nodup_cons] at hnd
    rw [List.flatMap_cons, List.filter_append, ih hnd.2]
    by_cases hk : key = k
    · subst hk
      have h1 : ((f key).map (fun version => (key, version))).filter
          (fun entry => decide (entry.1 = key)) = (f key).map (fun version => (key, version)) := by
        rw [List.filter_eq_self]
        intro e he
        rcases List.mem_map.1 he with ⟨v, _, rfl⟩
        simp
      rw [h1, if_neg hnd.1, if_pos (List.mem_cons_self _ _), List.append_nil]
    · have h1 : ((f key).map (fun version => (key, version))).filter
          (fun entry => decide (entry.1 = k)) = [] := by
        rw [List.filter_eq_nil_iff]
        intro e he
        rcases List.mem_map.1 he with ⟨v, _, rfl⟩
        simpa using hk
      rw [h1, List.nil_append]
      have hk' : ¬ k = key := fun h => hk h.symm
      by_cases hmem : k ∈ rest
      · rw [if_pos hmem, if_pos (List.mem_cons_of_mem _ hmem)]
      · rw [if_neg hmem, if_neg (by simp [hk', hmem])]

theorem filter_mockListing (bucket : fakeBucket)
    (hnd : (bucket.Objects.map Prod.fst).Nodup) (k : String) :
    (mockListing bucket).filter (fun entry => decide (entry.1 = k)) =
      ((bucket.Objects.lookup k).getD []).map (fun version => (k, version)) := by
  unfold mockListing
  rw [filter_flatMap_key _ ((List.Perm.nodup_iff (sortStrings_perm _)).2 hnd)
    (fun key => (bucket.Objects.lookup key).getD []) k]
  by_cases hmem : k ∈ sortStrings (bucket.Objects.map Prod.fst)
  · rw [if_pos hmem]
  · rw [if_neg hmem]
    have hk : ¬ k ∈ bucket.Objects.map Prod.fst := fun h =>
      hmem ((List.Perm.mem_iff (sortStrings_perm _)).2 h)
    rw [← lookup_isSome_iff_mem_keys] at hk
    cases hl : bucket.Objects.lookup k with
    | none => rfl
    | some vs => rw [hl] at hk; simp at hk

/-- The history the enumerator builds from a bucket of the in-memory service is a
well-formed map, and under every key it holds the records of the versions the bucket
stores under that key, up to order. -/
theorem enumeratedHistory_faithful (perPage budget : Nat) (bucket : fakeBucket)
    (hpos : 0 < perPage) (hbudget : (mockListing bucket).length < budget)
    (hnd : (bucket.Objects.map Prod.fst).Nodup) :
    WellFormed (enumeratedHistory perPage budget bucket) ∧
    ∀ k, List.Perm (recordsOf (enumeratedHistory perPage budget bucket) k)
      (((bucket.Objects.lookup k).getD []).map (fun version => recordOfListed (k, version))) := by
  obtain ⟨A, hA, hperm⟩ := enumeratedHistory_eq perPage budget bucket hpos hbudget
  rw [hA]
  refine ⟨wellFormed_foldl_appendRecord A [] ⟨List.nodup_nil, by simp⟩, ?_⟩
  intro k
  rw [recordsOf_foldl_appendRecord]
  refine (List.Perm.filter _ hperm).trans ?_
  rw [List.filter_map]
  have hfun : ((fun r : fileVersion => decide (r.Key = k)) ∘ recordOfListed) =
      (fun entry : String × fakeVersion => decide (entry.1 = k)) := by
    funext entry
    simp [key_recordOfListed]
  rw [hfun, filter_mockListing bucket hnd k, List.map_map]
  exact List.Perm.refl _

/-- Every purge target computed from the history of a bucket names a key of the
bucket. -/
theorem targets_present (S : SliceSorter) (N : Int) (name : String) (perPage budget : Nat)
    (bucket : fakeBucket) (hpos : 0 < perPage) (hbudget : (mockListing bucket).length < budget)
    (t : ObjectIdentifier)
    (ht : t ∈ (evaluate S N name (enumeratedHistory perPage budget bucket)).versionsToDelete) :
    (bucket.Objects.lookup t.Key).isSome = true := by
  obtain ⟨A, hA, hperm⟩ := enumeratedHistory_eq perPage budget bucket hpos hbudget
  have hwf : WellFormed (enumeratedHistory perPage budget bucket) := by
    rw [hA]
    exact wellFormed_foldl_appendRecord A [] ⟨List.nodup_nil, by simp⟩
  rw [evaluate, computeAndPrintVersionsInfo_versionsToDelete] at ht
  rcases List.mem_flatMap.1 ht with ⟨e, he, hmem⟩
  rcases List.mem_map.1 hmem with ⟨r, hr, rfl⟩
  have hr2 : r ∈ e.2 := (mem_sort_iff S e.2 r).1 (mem_of_mem_purgedFrom N _ 0 r hr)
  have he2 : e ∈ enumeratedHistory perPage budget bucket := by
    unfold ignoreFilesWithFewerVersions at he
    exact (List.mem_filter.1 he).1
  have hlook := lookup_of_mem_of_nodup _ hwf.1 e he2
  have hrec : r ∈ recordsOf (enumeratedHistory perPage budget bucket) e.1 := by
    unfold recordsOf
    rw [hlook]
    exact hr2
  rw [hA, recordsOf_foldl_appendRecord] at hrec
  have hrA : r ∈ A := (List.mem_filter.1 hrec).1
  have hrL := (List.Perm.mem_iff hperm).1 hrA
  rcases List.mem_map.1 hrL with ⟨entry, hentry, rfl⟩
  obtain ⟨vs, hvs, _⟩ := mem_mockListing bucket entry hentry
  show (bucket.Objects.lookup (recordOfListed entry).Key).isSome = true
  rw [key_recordOfListed, hvs]
  rfl

/-! ## Listing calls and bulk deletes are addressed to the processed buckets only -/

theorem within_refl {σ : Type} (buckets : List String) (w : Run σ) : Within buckets w w :=
  ⟨[], by simp, by simp⟩

theorem within_mono {σ : Type} {buckets buckets' : List String} {w w' : Run σ}
    (hsub : ∀ b ∈ buckets, b ∈ buckets') (h : Within buckets w w') : Within buckets' w w' := by
  obtain ⟨E, hE, hall⟩ := h
  exact ⟨E, hE, fun x hx b hb => hsub b (hall x hx b hb)⟩

theorem within_trans {σ : Type} {buckets : List String} {w₁ w₂ w₃ : Run σ}
    (h₁ : Within buckets w₁ w₂) (h₂ : Within buckets w₂ w₃) : Within buckets w₁ w₃ := by
  obtain ⟨E₁, hE₁, hall₁⟩ := h₁
  obtain ⟨E₂, hE₂, hall₂⟩ := h₂
  refine ⟨E₁ ++ E₂, by rw [hE₂, hE₁, List.append_assoc], ?_⟩
  intro x hx
  rcases List.mem_append.1 hx with hx | hx
  · exact hall₁ x hx
  · exact hall₂ x hx

theorem within_logLine {σ : Type} (buckets : List String) (w : Run σ) (line : LogLine) :
    Within buckets w (w.logLine line) :=
  ⟨[], by simp [Run.logLine], by simp⟩

theorem within_log {σ : Type} (buckets : List String) (w : Run σ) (lines : List LogLine) :
    Within buckets w { w with log := w.log ++ lines } :=
  ⟨[], by simp, by simp⟩

theorem within_exchange {σ : Type} (buckets : List String) (w : Run σ) (call : Call)
    (response : Response) (remote : σ)
    (h : ∀ b, touchedBucket call = some b → b ∈ buckets) :
    Within buckets w (w.exchange call response remote) :=
  ⟨[Exchange.mk call response], by simp [Run.exchange], by simpa using h⟩

theorem within_getAllBuckets {σ : Type} (api : S3API σ) (w : Run σ) :
    Within [] w (getAllBuckets api w).2 := by
  have hlog := within_logLine [] w LogLine.listAllBuckets
  unfold getAllBuckets
  dsimp only
  split
  next err remote heq =>
    exact within_trans hlog (within_exchange _ _ _ _ _ (by simp [touchedBucket]))
  next response remote heq =>
    exact within_trans hlog (within_exchange _ _ _ _ _ (by simp [touchedBucket]))

theorem within_existsBucket {σ : Type} (api : S3API σ) (name : String) (w : Run σ) :
    Within [] w (existsBucket api name w).2 := by
  unfold existsBucket
  rcases hres : api.HeadBucket name w.remote with ⟨res, remote⟩
  cases res with
  | ok _ => exact within_exchange _ _ _ _ _ (by simp [touchedBucket])
  | error err =>
    cases err with
    | aws code message =>
      simp only
      split <;> exact within_exchange _ _ _ _ _ (by simp [touchedBucket])
    | other message => exact within_exchange _ _ _ _ _ (by simp [touchedBucket])

theorem within_getBuckets {σ : Type} (api : S3API σ) (config : Config) (w : Run σ) :
    Within [] w (getBuckets api config w).2 := by
  unfold getBuckets
  split
  · exact within_getAllBuckets api w
  · have h := within_existsBucket api config.BucketName w
    rcases hres : existsBucket api config.BucketName w with ⟨res, w1⟩
    rw [hres] at h
    cases res with
    | error err => exact h
    | ok found =>
      cases found
      · exact h
      · exact h

theorem within_isVersioningEnabled {σ : Type} (api : S3API σ) (bucket : String)
    (w : Run σ) : Within [] w (isVersioningEnabled api bucket w).2 := by
  unfold isVersioningEnabled
  rcases hres : api.GetBucketVersioning bucket w.remote with ⟨res, remote⟩
  cases res with
  | ok _ => exact within_exchange _ _ _ _ _ (by simp [touchedBucket])
  | error err =>
    cases err with
    | aws code message =>
      simp only
      split <;> exact within_exchange _ _ _ _ _ (by simp [touchedBucket])
    | other message => exact within_exchange _ _ _ _ _ (by simp [touchedBucket])

theorem within_filterLoop {σ : Type} (api : S3API σ) (buckets acc : List String)
    (w : Run σ) : Within [] w (filterLoop api buckets acc w).2 := by
  induction buckets generalizing acc w with
  | nil => exact within_refl _ w
  | cons bucket rest ih =>
    have h := within_isVersioningEnabled api bucket w
    unfold filterLoop
    rcases hres : isVersioningEnabled api bucket w with ⟨res, w1⟩
    rw [hres] at h
    cases res with
    | error err => exact h
    | ok enabled => exact within_trans h (ih _ w1)

theorem within_listLoop {σ : Type} (api : S3API σ) (config : Config) (bucket : String)
    (pages : Nat) (fv : FileVersions) (keyMarker : Option String)
    (pageNumber versionCount : Int) (w : Run σ) :
    Within [bucket] w
      (listLoop api config bucket pages fv keyMarker pageNumber versionCount w).2 := by
  induction pages generalizing fv keyMarker pageNumber versionCount w with
  | zero => exact within_refl _ w
  | succ pages ih =>
    have hcall : ∀ b, touchedBucket
        (Call.listObjectVersions (listRequest config bucket keyMarker)) = some b →
        b ∈ [bucket] := by
      intro b hb
      simp only [touchedBucket, listRequest, Option.some.injEq] at hb
      simp [hb]
    unfold listLoop
    simp only
    rcases hres : api.ListObjectVersions (listRequest config bucket keyMarker) w.remote with
      ⟨res, remote⟩
    cases res with
    | error err => exact within_exchange _ _ _ _ _ hcall
    | ok response =>
      have h1 : Within [bucket] w
          ((w.exchange (Call.listObjectVersions (listRequest config bucket keyMarker))
            (Response.versions response) remote).logLine
            (LogLine.gotPage
              ((response.Versions.length : Int) + (response.DeleteMarkers.length : Int))
              pageNumber)) :=
        within_trans (within_exchange _ w _ _ remote hcall) (within_logLine _ _ _)
      simp only
      cases hm : response.NextKeyMarker with
      | none => exact h1
      | some marker =>
        simp only
        split
        · exact h1
        · exact within_trans h1 (ih _ _ _ _ _)

theorem within_getFileVersions {σ : Type} (api : S3API σ) (config : Config)
    (bucket : String) (pages : Nat) (w : Run σ) :
    Within [bucket] w (getFileVersions api config bucket pages w).2 := by
  have h := within_trans
    (within_logLine [bucket] w (LogLine.getFileVersions bucket config.BucketPrefix))
    (within_listLoop api config bucket pages [] none 1 0 _)
  unfold getFileVersions
  dsimp only
  split
  next fileVersions versionCount w1 heq =>
    rw [heq] at h
    exact within_trans h (within_logLine _ _ _)
  next err w1 heq =>
    rw [heq] at h
    exact h
  next w1 heq =>
    rw [heq] at h
    exact h

theorem within_runChunks {σ : Type} (api : S3API σ) (bucket : String)
    (chunks : List (List ObjectIdentifier)) (w : Run σ) :
    Within [bucket] w (runChunks api bucket chunks w).2 := by
  induction chunks generalizing w with
  | nil => exact within_refl _ w
  | cons objects rest ih =>
    have hcall : ∀ b, touchedBucket (deleteCall bucket objects) = some b → b ∈ [bucket] := by
      intro b hb
      simp only [touchedBucket, deleteCall, Option.some.injEq] at hb
      simp [hb]
    unfold runChunks
    rcases hres : api.DeleteObjects { Bucket := bucket, Objects := objects } w.remote with
      ⟨res, remote⟩
    cases res with
    | error err => exact within_exchange _ _ _ _ _ hcall
    | ok response =>
      exact within_trans
        (within_trans (within_exchange _ w _ (Response.deleted response) remote hcall)
          (within_logLine _ _ _)) (ih _)

theorem within_deleteS3Versions {σ : Type} (api : S3API σ) (config : Config)
    (bucket : String) (l : List ObjectIdentifier) (w : Run σ) :
    Within [bucket] w (deleteS3Versions api config bucket l w).2 := by
  rw [deleteS3Versions_eq_runChunks]
  exact within_trans (within_logLine _ w _) (within_runChunks api bucket _ _)

theorem within_findAndRemoveVersions {σ : Type} (api : S3API σ) (S : SliceSorter)
    (config : Config) (pages : Nat) (bucket : String) (w : Run σ) :
    Within [bucket] w (findAndRemoveVersions api S config pages bucket w).2 := by
  have h := within_getFileVersions api config bucket pages w
  unfold findAndRemoveVersions
  rcases hres : getFileVersions api config bucket pages w with ⟨res, w1⟩
  rw [hres] at h
  cases res with
  | failed err => exact h
  | running => exact h
  | returned fv =>
    simp only
    have h2 : Within [bucket] w
        { w1 with log := w1.log ++ (evaluate S config.VersionsCount bucket fv).log } :=
      within_trans h (within_log _ _ _)
    by_cases hc : config.Confirm = true
    · rw [if_pos hc]
      have h3 := within_deleteS3Versions api config bucket
        (evaluate S config.VersionsCount bucket fv).versionsToDelete
        { w1 with log := w1.log ++ (evaluate S config.VersionsCount bucket fv).log }
      rcases hdel : deleteS3Versions api config bucket
        (evaluate S config.VersionsCount bucket fv).versionsToDelete
        { w1 with log := w1.log ++ (evaluate S config.VersionsCount bucket fv).log } with
        ⟨res2, w3⟩
      rw [hdel] at h3
      cases res2 with
      | none => exact within_trans h2 h3
      | some err => exact within_trans h2 h3
    · rw [if_neg hc]
      exact h2

theorem within_bucketLoop {σ : Type} (api : S3API σ) (S : SliceSorter) (config : Config)
    (pages : Nat) (buckets : List String) (w : Run σ) :
    Within buckets w (bucketLoop api S config pages buckets w).2 := by
  induction buckets generalizing w with
  | nil => exact within_refl _ w
  | cons bucket rest ih =>
    have h : Within (bucket :: rest) w (findAndRemoveVersions api S config pages bucket w).2 :=
      within_mono (by simp) (within_findAndRemoveVersions api S config pages bucket w)
    unfold bucketLoop
    rcases hres : findAndRemoveVersions api S config pages bucket w with ⟨res, w1⟩
    rw [hres] at h
    cases res with
    | returned _ =>
      exact within_trans h (within_mono (fun b hb => List.mem_cons_of_mem _ hb) (ih w1))
    | failed err => exact h
    | running => exact h

/-! ## The operations of the package on the in-memory service -/

theorem distinctIDs_of_stored (bucket : fakeBucket) (h : DistinctIDsStored bucket) :
    DistinctIDs bucket := by
  intro k vs hk
  exact h (k, vs) (mem_of_lookup _ k vs hk)

theorem getBuckets_mock (config : Config) (w : Run s3apiMock)
    (htarget : ∀ b ∈ targetedBuckets config w.remote, b ∈ w.remote.buckets.map Prod.fst) :
    ∃ w' : Run s3apiMock,
      getBuckets mockService config w = (Except.ok (targetedBuckets config w.remote), w') ∧
      w'.remote = w.remote := by
  unfold getBuckets targetedBuckets at *
  by_cases hall : config.BucketName = "*"
  · rw [if_pos hall, if_pos hall]
    exact ⟨_, rfl, rfl⟩
  · rw [if_neg hall] at htarget
    rw [if_neg hall, if_neg hall]
    have hmem := htarget config.BucketName (List.mem_singleton.2 rfl)
    rw [← lookup_isSome_iff_mem_keys] at hmem
    cases hl : w.remote.buckets.lookup config.BucketName with
    | none => rw [hl] at hmem; cases hmem
    | some bucket =>
      have hhead : mockService.HeadBucket config.BucketName w.remote =
          (Except.ok (), w.remote) := by
        show s3apiMock.HeadBucket config.BucketName w.remote = _
        unfold s3apiMock.HeadBucket
        rw [hl]
      unfold existsBucket
      simp only [hhead]
      exact ⟨_, rfl, rfl⟩

theorem isVersioningEnabled_mock (b : String) (w : Run s3apiMock)
    (hb : b ∈ w.remote.buckets.map Prod.fst) :
    ∃ w' : Run s3apiMock,
      isVersioningEnabled mockService b w = (Except.ok (versioningEnabledOn w.remote b), w') ∧
      w'.remote = w.remote := by
  rw [← lookup_isSome_iff_mem_keys] at hb
  unfold isVersioningEnabled versioningEnabledOn
  by_cases hregion : b = "bucket-in-wrong-region"
  · have hprobe : mockService.GetBucketVersioning b w.remote =
        (Except.error (awsError "BucketRegionError"), w.remote) := by
      show s3apiMock.GetBucketVersioning b w.remote = _
      unfold s3apiMock.GetBucketVersioning
      rw [if_pos hregion]
    simp only [hprobe, awsError, if_true, hregion, ne_eq, not_true_eq_false, decide_False,
      Bool.false_and]
    exact ⟨_, rfl, rfl⟩
  · cases hl : w.remote.buckets.lookup b with
    | none => rw [hl] at hb; cases hb
    | some bucket =>
      have hprobe : mockService.GetBucketVersioning b w.remote =
          (Except.ok { Status := bucket.VersioningStatus }, w.remote) := by
        show s3apiMock.GetBucketVersioning b w.remote = _
        unfold s3apiMock.GetBucketVersioning
        rw [if_neg hregion, hl]
      simp only [hprobe, ne_eq, hregion, not_false_eq_true, decide_True, Bool.true_and,
        Option.some_bind]
      exact ⟨_, rfl, rfl⟩

theorem filterLoop_mock (buckets acc : List String) (w : Run s3apiMock)
    (hb : ∀ b ∈ buckets, b ∈ w.remote.buckets.map Prod.fst) :
    ∃ w' : Run s3apiMock,
      filterLoop mockService buckets acc w =
        (Except.ok (acc ++ buckets.filter (versioningEnabledOn w.remote)), w') ∧
      w'.remote = w.remote := by
  induction buckets generalizing acc w with
  | nil => exact ⟨w, by simp [filterLoop], rfl⟩
  | cons bucket rest ih =>
    obtain ⟨w1, hprobe, hrem⟩ := isVersioningEnabled_mock bucket w
      (hb bucket (List.mem_cons_self _ _))
    obtain ⟨w', hrest, hrem'⟩ := ih
      (if versioningEnabledOn w.remote bucket then acc ++ [bucket] else acc) w1
      (by rw [hrem]; exact fun b hmem => hb b (List.mem_cons_of_mem _ hmem))
    refine ⟨w', ?_, hrem'.trans hrem⟩
    unfold filterLoop
    simp only [hprobe]
    rw [hrest, hrem, List.filter_cons]
    cases versioningEnabledOn w.remote bucket <;> simp

/-- One bucket of the in-memory service under a confirmed run: the history is the one
enumerated from the bucket, the purge is answered, and afterwards the bucket holds what it
held except the purge targets; the other buckets are left as they were. -/
theorem findAndRemoveVersions_mock (S : SliceSorter) (config : Config)
    (hconfirm : config.Confirm = true) (perPage pages : Nat) (hpos : 0 < perPage)
    (b : String) (bucket : fakeBucket) (w : Run s3apiMock)
    (hper : w.remote.versionsPerPage = (perPage : Int))
    (hb : w.remote.buckets.lookup b = some bucket)
    (hids : DistinctIDs bucket) (hbudget : (mockListing bucket).length < pages) :
    ∃ (w' : Run s3apiMock) (after : fakeBucket),
      findAndRemoveVersions mockService S config pages b w = (Outcome.returned (), w') ∧
      w'.remote.versionsPerPage = w.remote.versionsPerPage ∧
      w'.remote.buckets.lookup b = some after ∧
      Purged (evaluate S config.VersionsCount b
        (enumeratedHistory perPage pages bucket)).versionsToDelete bucket after ∧
      ∀ b', b' ≠ b → w'.remote.buckets.lookup b' = w.remote.buckets.lookup b' := by
  obtain ⟨w1, hlist, hrem1⟩ := getFileVersions_mock w.remote b bucket hb perPage hper hpos
    config pages hbudget w rfl
  have hkeys : ∀ chunk ∈ slices (evaluate S config.VersionsCount b
      (enumeratedHistory perPage pages bucket)).versionsToDelete, ∀ t ∈ chunk,
      (bucket.Objects.lookup t.Key).isSome = true := by
    intro chunk hchunk t ht
    apply targets_present S config.VersionsCount b perPage pages bucket hpos hbudget t
    rw [← join_slices (evaluate S config.VersionsCount b
      (enumeratedHistory perPage pages bucket)).versionsToDelete]
    exact List.mem_flatten.2 ⟨chunk, hchunk, ht⟩
  obtain ⟨w', after, hrun, hper', hafter, hpurged, hother⟩ := runChunks_mock b
    (slices (evaluate S config.VersionsCount b
      (enumeratedHistory perPage pages bucket)).versionsToDelete)
    (Run.logLine { w1 with log := w1.log ++ (evaluate S config.VersionsCount b
      (enumeratedHistory perPage pages bucket)).log }
      (LogLine.deleting (evaluate S config.VersionsCount b
        (enumeratedHistory perPage pages bucket)).versionsToDelete.length b
        config.BucketPrefix))
    bucket (by show w1.remote.buckets.lookup b = some bucket; rw [hrem1]; exact hb) hkeys hids
  rw [join_slices] at hpurged
  refine ⟨w', after, ?_, ?_, hafter, hpurged, ?_⟩
  · unfold findAndRemoveVersions
    simp only [hlist, hconfirm, if_true]
    rw [deleteS3Versions_eq_runChunks, hrun]
  · rw [hper']
    show w1.remote.versionsPerPage = _
    rw [hrem1]
  · intro b' hb'
    rw [hother b' hb']
    show w1.remote.buckets.lookup b' = _
    rw [hrem1]

/-- The loop over the processed buckets on the in-memory service, under a confirmed run:
it returns, every bucket of the list ends up purged of the targets computed from its own
history, and every other bucket is left as it was. -/
theorem bucketLoop_mock (S : SliceSorter) (config : Config)
    (hconfirm : config.Confirm = true) (perPage pages : Nat) (hpos : 0 < perPage)
    (buckets : List String) (hnd : buckets.Nodup) (w : Run s3apiMock)
    (hper : w.remote.versionsPerPage = (perPage : Int))
    (hok : ∀ b ∈ buckets, ∃ bucket, w.remote.buckets.lookup b = some bucket ∧
      DistinctIDs bucket ∧ (mockListing bucket).length < pages) :
    ∃ w' : Run s3apiMock,
      bucketLoop mockService S config pages buckets w = (Outcome.returned (), w') ∧
      (∀ b ∈ buckets, ∀ bucket, w.remote.buckets.lookup b = some bucket →
        ∃ after, w'.remote.buckets.lookup b = some after ∧
          Purged (evaluate S config.VersionsCount b
            (enumeratedHistory perPage pages bucket)).versionsToDelete bucket after) ∧
      ∀ b, b ∉ buckets → w'.remote.buckets.lookup b = w.remote.buckets.lookup b := by
  induction buckets generalizing w with
  | nil => exact ⟨w, rfl, by simp, fun _ _ => rfl⟩
  | cons b rest ih =>
    rw [List.nodup_cons] at hnd
    obtain ⟨bucket, hb, hids, hbudget⟩ := hok b (List.mem_cons_self _ _)
    obtain ⟨w1, after1, hrun, hper1, hafter1, hpurged1, hother1⟩ :=
      findAndRemoveVersions_mock S config hconfirm perPage pages hpos b bucket w hper hb hids
        hbudget
    have hne : ∀ b' ∈ rest, b' ≠ b := fun b' hmem h => hnd.1 (h ▸ hmem)
    obtain ⟨w', hloop, hin, hout⟩ := ih hnd.2 w1 (hper1.trans hper) (by
      intro b' hmem
      rw [hother1 b' (hne b' hmem)]
      exact hok b' (List.mem_cons_of_mem _ hmem))
    refine ⟨w', ?_, ?_, ?_⟩
    · unfold bucketLoop
      simp only [hrun]
      exact hloop
    · intro b0 hmem bucket0 hb0
      rcases List.mem_cons.1 hmem with rfl | hmem
      · rw [hb] at hb0
        cases hb0
        exact ⟨after1, by rw [hout _ hnd.1]; exact hafter1, hpurged1⟩
      · exact hin b0 hmem bucket0 (by rw [hother1 b0 (hne b0 hmem)]; exact hb0)
    · intro b0 hmem
      rw [List.mem_cons, not_or] at hmem
      rw [hout b0 hmem.2]
      exact hother1 b0 hmem.1

theorem nodup_processedBuckets (config : Config) (c : s3apiMock)
    (hnames : (c.buckets.map Prod.fst).Nodup) : (processedBuckets config c).Nodup := by
  unfold processedBuckets targetedBuckets
  apply List.Nodup.filter
  split
  · exact hnames
  · exact List.nodup_singleton _

/-- Confirmed run end to end (C17), against the in-memory store of the tests, whose bulk
delete removes the requested `(key, versionID)` versions. Let the store hold buckets with
distinct names, distinct keys and, within each key, distinct version IDs; let every
targeted bucket exist and the page budget exceed the number of versions of each bucket.
Then `Delete` with `Confirm = true` returns without error, and afterwards:
every processed bucket (targeted and reported versioning-enabled) keeps its versioning
status and holds under every key exactly the versions it held except those whose
`(key, versionID)` the Retention Evaluator selected, where the evaluator ran on a
well-formed history that holds under every key the records of the stored versions of that
key; every other bucket holds exactly what it held, and no listing call and no bulk delete
of the run is addressed to it. -/
theorem confirmed_run_end_to_end (S : SliceSorter) (config : Config) (c : s3apiMock)
    (perPage pages : Nat) (hper : c.versionsPerPage = (perPage : Int)) (hpos : 0 < perPage)
    (hconfirm : config.Confirm = true)
    (hnames : (c.buckets.map Prod.fst).Nodup)
    (htarget : ∀ b ∈ targetedBuckets config c, b ∈ c.buckets.map Prod.fst)
    (hbuckets : ∀ entry ∈ c.buckets,
      (entry.2.Objects.map Prod.fst).Nodup ∧ DistinctIDsStored entry.2 ∧
        (mockListing entry.2).length < pages) :
    ∃ w' : Run s3apiMock,
      Delete mockService S config pages (Run.start c) = (Outcome.returned (), w') ∧
      (∀ b ∈ processedBuckets config c, ∀ bucket, c.buckets.lookup b = some bucket →
        WellFormed (enumeratedHistory perPage pages bucket) ∧
        (∀ k, List.Perm (recordsOf (enumeratedHistory perPage pages bucket) k)
          (((bucket.Objects.lookup k).getD []).map
            (fun version => recordOfListed (k, version)))) ∧
        ∃ after, w'.remote.buckets.lookup b = some after ∧
          after.VersioningStatus = bucket.VersioningStatus ∧
          ∀ k, after.Objects.lookup k =
            (bucket.Objects.lookup k).map (fun vs =>
              vs.filter (fun v => decide (ObjectIdentifier.mk k v.VersionID ∉
                (evaluate S config.VersionsCount b
                  (enumeratedHistory perPage pages bucket)).versionsToDelete)))) ∧
      (∀ b, b ∉ processedBuckets config c →
        w'.remote.buckets.lookup b = c.buckets.lookup b ∧
        ∀ x ∈ w'.calls, touchedBucket x.call ≠ some b) := by
  obtain ⟨w1, hget, hrem1⟩ := getBuckets_mock config (Run.start c) htarget
  have hc : (Run.start c).remote = c := rfl
  rw [hc] at hget hrem1
  obtain ⟨w3, hfilter, hrem3⟩ := filterLoop_mock (targetedBuckets config c) []
    (w1.logLine (LogLine.foundBuckets (targetedBuckets config c)))
    (by show ∀ b ∈ targetedBuckets config c, b ∈ w1.remote.buckets.map Prod.fst
        rw [hrem1]; exact htarget)
  have hc1 : (w1.logLine (LogLine.foundBuckets (targetedBuckets config c))).remote = c := hrem1
  rw [hc1, List.nil_append] at hfilter
  rw [hc1] at hrem3
  have hproc : (targetedBuckets config c).filter (versioningEnabledOn c) =
      processedBuckets config c := rfl
  rw [hproc] at hfilter
  have hstored : ∀ b ∈ processedBuckets config c, ∃ bucket,
      c.buckets.lookup b = some bucket ∧ (b, bucket) ∈ c.buckets := by
    intro b hb
    have hmem := htarget b (List.mem_filter.1 hb).1
    rw [← lookup_isSome_iff_mem_keys] at hmem
    cases hl : c.buckets.lookup b with
    | none => rw [hl] at hmem; cases hmem
    | some bucket => exact ⟨bucket, rfl, mem_of_lookup _ b bucket hl⟩
  obtain ⟨w', hloop, hin, hout⟩ := bucketLoop_mock S config hconfirm perPage pages hpos
    (processedBuckets config c) (nodup_processedBuckets config c hnames)
    (w3.logLine (LogLine.foundVersionedBuckets (processedBuckets config c)))
    (by show w3.remote.versionsPerPage = _
        rw [hrem3]; exact hper)
    (by
      intro b hb
      obtain ⟨bucket, hl, hmem⟩ := hstored b hb
      refine ⟨bucket, ?_, distinctIDs_of_stored _ (hbuckets _ hmem).2.1, (hbuckets _ hmem).2.2⟩
      show w3.remote.buckets.lookup b = some bucket
      rw [hrem3]; exact hl)
  have hc3 : (w3.logLine (LogLine.foundVersionedBuckets (processedBuckets config c))).remote =
      c := hrem3
  rw [hc3] at hin hout
  have hrun : Delete mockService S config pages (Run.start c) = (Outcome.returned (), w') := by
    unfold Delete
    simp only [hget]
    unfold filterBucketsByVersioningEnabled
    simp only [hfilter]
    exact hloop
  have hwithin : Within (processedBuckets config c) (Run.start c) w' := by
    have h1 := within_getBuckets mockService config (Run.start c)
    rw [hget] at h1
    have h2 := within_filterLoop mockService (targetedBuckets config c) []
      (w1.logLine (LogLine.foundBuckets (targetedBuckets config c)))
    rw [hfilter] at h2
    have h3 := within_bucketLoop mockService S config pages (processedBuckets config c)
      (w3.logLine (LogLine.foundVersionedBuckets (processedBuckets config c)))
    rw [hloop] at h3
    have h12 : Within [] (Run.start c)
        (w3.logLine (LogLine.foundVersionedBuckets (processedBuckets config c))) :=
      within_trans (within_trans h1 (within_logLine _ _ _))
        (within_trans h2 (within_logLine _ _ _))
    exact within_trans (within_mono (by simp) h12) h3
  refine ⟨w', hrun, ?_, ?_⟩
  · intro b hb bucket hl
    obtain ⟨bucket', hl', hmem⟩ := hstored b hb
    rw [hl] at hl'
    cases hl'
    obtain ⟨hwf, hfaithful⟩ := enumeratedHistory_faithful perPage pages bucket hpos
      (hbuckets _ hmem).2.2 (hbuckets _ hmem).1
    obtain ⟨after, hafter, hpurged⟩ := hin b hb bucket hl
    exact ⟨hwf, hfaithful, after, hafter, hpurged.1, hpurged.2⟩
  · intro b hb
    refine ⟨hout b hb, ?_⟩
    obtain ⟨E, hE, hall⟩ := hwithin
    intro x hx htouch
    have hxE : x ∈ E := by
      rw [hE] at hx
      simpa [Run.start] using hx
    exact hb (hall x hxE b htouch)

theorem confirmed_run_end_to_end_witness :
    ∃ w' : Run s3apiMock,
      Delete mockService stdSorter (testConfig true) 10 (Run.start testMock) =
        (Outcome.returned (), w') ∧
      (∀ b ∈ processedBuckets (testConfig true) testMock, ∀ bucket,
        testMock.buckets.lookup b = some bucket →
        WellFormed (enumeratedHistory 3 10 bucket) ∧
        (∀ k, List.Perm (recordsOf (enumeratedHistory 3 10 bucket) k)
          (((bucket.Objects.lookup k).getD []).map
            (fun version => recordOfListed (k, version)))) ∧
        ∃ after, w'.remote.buckets.lookup b = some after ∧
          after.VersioningStatus = bucket.VersioningStatus ∧
          ∀ k, after.Objects.lookup k =
            (bucket.Objects.lookup k).map (fun vs =>
              vs.filter (fun v => decide (ObjectIdentifier.mk k v.VersionID ∉
                (evaluate stdSorter (testConfig true).VersionsCount b
                  (enumeratedHistory 3 10 bucket)).versionsToDelete)))) ∧
      (∀ b, b ∉ processedBuckets (testConfig true) testMock →
        w'.remote.buckets.lookup b = testMock.buckets.lookup b ∧
        ∀ x ∈ w'.calls, touchedBucket x.call ≠ some b) :=
  confirmed_run_end_to_end stdSorter (testConfig true) testMock 3 10 rfl (by decide) rfl
    (by decide) (by decide) (by decide)

/-- The run of `TestFindAndDelete`, replayed: `Delete` returns without error, both keys
of bucket `b1` keep their newest live version only, and the buckets `b2` and
`bucket-in-wrong-region` keep every version. -/
theorem testFindAndDelete_replay :
    (Delete mockService stdSorter (testConfig true) 10 (Run.start testMock)).1 =
      Outcome.returned () ∧
    (Delete mockService stdSorter (testConfig true) 10 (Run.start testMock)).2.remote.buckets.map
        (fun entry => (entry.1, entry.2.Objects.map
          (fun object => (object.1, object.2.map (fun v => v.VersionID))))) =
      [("b1", [("key1", ["b1-key1-v3"]), ("key2", ["b1-key2-v2"])]),
       ("b2", [("key1", ["b2-key1-v1", "b2-key1-v2"]), ("key2", ["b2-key2-v1"])]),
       ("bucket-in-wrong-region", [("key1", ["b3-key1-v1"])])] := by
  constructor
  · rfl
  · set_option maxRecDepth 100000 in decide

/-! ## The walk over a slice of at most `N` records -/

/-- The walk purges nothing of a slice too short for the counter to reach `N`. -/
theorem purgedFrom_eq_nil_of_short (N : Int) (l : List fileVersion) (c : Int)
    (h : c + (l.length : Int) ≤ N) : purgedFrom N c l = [] := by
  induction l generalizing c with
  | nil => rfl
  | cons v rest ih =>
    rw [List.length_cons] at h
    have hc : ¬ c ≥ N := by omega
    simp only [purgedFrom, hc, if_false, List.nil_append]
    split
    · exact ih (c + 1) (by omega)
    · exact ih c (by omega)

theorem purgedRecords_ignore (S : SliceSorter) (N : Int) (fv : FileVersions) :
    purgedRecords S N (ignoreFilesWithFewerVersions fv N) = purgedRecords S N fv := by
  induction fv with
  | nil => rfl
  | cons e rest ih =>
    unfold ignoreFilesWithFewerVersions purgedRecords at ih ⊢
    rw [List.filter_cons, List.flatMap_cons]
    by_cases hexempt : (e.2.length : Int) ≤ N
    · simp only [hexempt, decide_True, Bool.not_true, Bool.false_eq_true, if_false]
      rw [ih, purgedFrom_eq_nil_of_short N _ 0 (by rw [length_sort]; omega)]
      rfl
    · simp only [hexempt, decide_False, Bool.not_false, if_true, List.flatMap_cons]
      rw [ih]

/-! ## C21: the reclaimable size -/

theorem wrapInt64_add_wrapInt64 (a b : Int) :
    wrapInt64 (wrapInt64 a + b) = wrapInt64 (a + b) := by
  unfold wrapInt64
  omega

theorem wrapInt64_wrapInt64 (a : Int) : wrapInt64 (wrapInt64 a) = wrapInt64 a := by
  unfold wrapInt64
  omega

theorem wrapInt64_of_range (a : Int) (hlo : -(2 ^ 63) ≤ a) (hhi : a < 2 ^ 63) :
    wrapInt64 a = a := by
  unfold wrapInt64
  omega

theorem totalSize_cons (v : fileVersion) (rest : List fileVersion) :
    totalSize (v :: rest) = v.Size + totalSize rest := by
  simp [totalSize]

theorem totalSize_append (l₁ l₂ : List fileVersion) :
    totalSize (l₁ ++ l₂) = totalSize l₁ + totalSize l₂ := by
  simp [totalSize]

/-- The byte counter after the walk over one sorted slice. -/
theorem foldl_walkStep_spaceRecovered (N : Int) (l : List fileVersion) (st : WalkState)
    (hst : wrapInt64 st.spaceRecovered = st.spaceRecovered) :
    (l.foldl (walkStep N) st).spaceRecovered =
      wrapInt64 (st.spaceRecovered + totalSize (purgedFrom N st.versionCount l)) := by
  induction l generalizing st with
  | nil => simp [purgedFrom, totalSize, hst]
  | cons v rest ih =>
    rw [List.foldl_cons]
    by_cases hc : st.versionCount ≥ N
    · have hsr : (walkStep N st v).spaceRecovered = wrapInt64 (st.spaceRecovered + v.Size) := by
        by_cases hl : v.IsDeleteMarker = true <;> simp [walkStep, hc, hl]
      have hvc : (walkStep N st v).versionCount =
          (if isLive v then st.versionCount + 1 else st.versionCount) := by
        by_cases hl : v.IsDeleteMarker = true <;> simp [walkStep, hc, hl, isLive]
      rw [ih _ (by rw [hsr, wrapInt64_wrapInt64]), hsr, hvc, wrapInt64_add_wrapInt64]
      simp only [purgedFrom, hc, if_true, List.singleton_append, totalSize_cons]
      rw [Int.add_assoc]
    · have hsr : (walkStep N st v).spaceRecovered = st.spaceRecovered := by
        by_cases hl : v.IsDeleteMarker = true <;> simp [walkStep, hc, hl]
      have hvc : (walkStep N st v).versionCount =
          (if isLive v then st.versionCount + 1 else st.versionCount) := by
        by_cases hl : v.IsDeleteMarker = true <;> simp [walkStep, hc, hl, isLive]
      rw [ih _ (by rw [hsr]; exact hst), hsr, hvc]
      simp only [purgedFrom, hc, if_false, List.nil_append]

theorem foldl_keyStep_spaceRecovered (S : SliceSorter) (N : Int) (fv : FileVersions)
    (acc : VersionsInfo) (hacc : wrapInt64 acc.spaceRecovered = acc.spaceRecovered) :
    (fv.foldl (keyStep S N) acc).spaceRecovered =
      wrapInt64 (acc.spaceRecovered + totalSize (purgedRecords S N fv)) := by
  induction fv generalizing acc with
  | nil => simp [purgedRecords, totalSize, hacc]
  | cons e rest ih =>
    have hstep : (keyStep S N acc e).spaceRecovered =
        wrapInt64 (acc.spaceRecovered + totalSize (purgedFrom N 0 (S.sort e.2))) := by
      simp only [keyStep]
      rw [foldl_walkStep_spaceRecovered N (S.sort e.2) _ hacc]
    rw [List.foldl_cons, ih _ (by rw [hstep, wrapInt64_wrapInt64]), hstep,
      wrapInt64_add_wrapInt64]
    simp only [purgedRecords, List.flatMap_cons, totalSize_append]
    rw [Int.add_assoc]

/-- The accumulator of `computeAndPrintVersionsInfo` ends at the sum of the sizes of the
purged records, in `int64` arithmetic. -/
theorem computeAndPrintVersionsInfo_spaceRecovered (S : SliceSorter) (N : Int)
    (bucket : String) (fv : FileVersions) :
    (computeAndPrintVersionsInfo S N bucket fv).spaceRecovered =
      wrapInt64 (totalSize (purgedRecords S N fv)) := by
  simp only [computeAndPrintVersionsInfo]
  rw [foldl_keyStep_spaceRecovered S N fv _ (by decide)]
  simp

theorem computeAndPrintVersionsInfo_purgedRecords (S : SliceSorter) (N : Int)
    (bucket : String) (fv : FileVersions) :
    (computeAndPrintVersionsInfo S N bucket fv).versionsToDelete =
      (purgedRecords S N fv).map toIdentifier := by
  rw [computeAndPrintVersionsInfo_versionsToDelete, purgedRecords, List.map_flatMap]

/-- Records of size `0` do not count in a sum of sizes. -/
theorem totalSize_filter_isLive (l : List fileVersion)
    (h : ∀ v ∈ l, v.IsDeleteMarker = true → v.Size = 0) :
    totalSize (l.filter isLive) = totalSize l := by
  induction l with
  | nil => rfl
  | cons v rest ih =>
    have ih' := ih (fun u hu => h u (List.mem_cons_of_mem _ hu))
    by_cases hl : v.IsDeleteMarker = true
    · have h0 := h v (List.mem_cons_self _ _) hl
      simp [List.filter_cons, isLive, hl, totalSize_cons, h0, ih']
    · simp [List.filter_cons, isLive, hl, totalSize_cons, ih']
/-- Every record of a key of the map built from a sequence of records is one of the
records of the sequence. -/
theorem mem_of_mem_foldl_appendRecord (records : List fileVersion)
    (entry : String × List fileVersion) (he : entry ∈ records.foldl appendRecord [])
    (r : fileVersion) (hr : r ∈ entry.2) : r ∈ records := by
  have hwf : WellFormed (records.foldl appendRecord []) :=
    wellFormed_foldl_appendRecord records [] ⟨List.nodup_nil, by simp⟩
  have hlook := lookup_of_mem_of_nodup _ hwf.1 entry he
  have hrec : r ∈ recordsOf (records.foldl appendRecord []) entry.1 := by
    unfold recordsOf
    rw [hlook]
    exact hr
  rw [recordsOf_foldl_appendRecord] at hrec
  exact (List.mem_filter.1 hrec).1

theorem mem_pageRecords (page : ListObjectVersionsOutput) (r : fileVersion)
    (hr : r ∈ pageRecords page) :
    (∃ v ∈ page.Versions, r = recordOfVersion v) ∨
      (∃ m ∈ page.DeleteMarkers, r = recordOfMarker m) := by
  unfold pageRecords at hr
  rcases List.mem_append.1 hr with h | h
  · obtain ⟨v, hv, rfl⟩ := List.mem_map.1 h
    exact Or.inl ⟨v, hv, rfl⟩
  · obtain ⟨m, hm, rfl⟩ := List.mem_map.1 h
    exact Or.inr ⟨m, hm, rfl⟩

/-- In a history built by the enumerator, a delete marker has size `0`. -/
theorem marker_size_of_enumerated (pages : List ListObjectVersionsOutput)
    (entry : String × List fileVersion) (he : entry ∈ pages.foldl pageStep [])
    (r : fileVersion) (hr : r ∈ entry.2) (hm : r.IsDeleteMarker = true) : r.Size = 0 := by
  rw [foldl_pageStep_eq_foldl] at he
  have hmem := mem_of_mem_foldl_appendRecord _ entry he r hr
  obtain ⟨page, _, hpage⟩ := List.mem_flatMap.1 hmem
  rcases mem_pageRecords page r hpage with ⟨v, _, rfl⟩ | ⟨m, _, rfl⟩
  · simp [recordOfVersion] at hm
  · rfl

theorem mem_purgedRecords (S : SliceSorter) (N : Int) (fv : FileVersions) (r : fileVersion)
    (hr : r ∈ purgedRecords S N fv) : ∃ entry ∈ fv, r ∈ entry.2 := by
  unfold purgedRecords at hr
  obtain ⟨entry, he, hmem⟩ := List.mem_flatMap.1 hr
  exact ⟨entry, he, (mem_sort_iff S entry.2 r).1 (mem_of_mem_purgedFrom N _ 0 r hmem)⟩

theorem mem_of_mem_ignore (fv : FileVersions) (N : Int) (entry : String × List fileVersion)
    (he : entry ∈ ignoreFilesWithFewerVersions fv N) : entry ∈ fv := by
  unfold ignoreFilesWithFewerVersions at he
  exact (List.mem_filter.1 he).1

/-! ## What the log reports as the total -/

theorem toUint64_wrapInt64 (a : Int) : toUint64 (wrapInt64 a) = a % 2 ^ 64 := by
  unfold toUint64 wrapInt64
  omega

theorem reportedTotals_append (l₁ l₂ : List LogLine) :
    reportedTotals (l₁ ++ l₂) = reportedTotals l₁ ++ reportedTotals l₂ := by
  induction l₁ with
  | nil => rfl
  | cons x rest ih => cases x <;> simp [reportedTotals, ih]

/-- The walk over a slice logs no total. -/
theorem foldl_walkStep_reportedTotals (N : Int) (l : List fileVersion) (st : WalkState) :
    reportedTotals (l.foldl (walkStep N) st).log = reportedTotals st.log := by
  induction l generalizing st with
  | nil => rfl
  | cons v rest ih =>
    rw [List.foldl_cons, ih]
    by_cases hc : st.versionCount ≥ N <;> by_cases hm : v.IsDeleteMarker = true <;>
      simp [walkStep, hc, hm, reportedTotals_append, reportedTotals]

theorem foldl_keyStep_reportedTotals (S : SliceSorter) (N : Int) (fv : FileVersions)
    (acc : VersionsInfo) :
    reportedTotals (fv.foldl (keyStep S N) acc).log = reportedTotals acc.log := by
  induction fv generalizing acc with
  | nil => rfl
  | cons e rest ih =>
    rw [List.foldl_cons, ih]
    simp only [keyStep]
    rw [foldl_walkStep_reportedTotals]
    simp [reportedTotals_append, reportedTotals]

/-- The one total `computeAndPrintVersionsInfo` reports is the sum of the sizes of the
purged records, reduced modulo `2 ^ 64`. -/
theorem computeAndPrintVersionsInfo_reportedTotals (S : SliceSorter) (N : Int)
    (bucket : String) (fv : FileVersions) :
    reportedTotals (computeAndPrintVersionsInfo S N bucket fv).log =
      [totalSize (purgedRecords S N fv) % 2 ^ 64] := by
  have hacc := foldl_keyStep_spaceRecovered S N fv
    { fileVersions := [], spaceRecovered := 0, versionsToDelete := [], log := [] }
    (by decide)
  simp only [computeAndPrintVersionsInfo]
  rw [reportedTotals_append, foldl_keyStep_reportedTotals, hacc, toUint64_wrapInt64]
  simp [reportedTotals]

theorem totalSize_nonneg (l : List fileVersion) (h : ∀ r ∈ l, 0 ≤ r.Size) :
    0 ≤ totalSize l := by
  induction l with
  | nil => simp [totalSize]
  | cons v rest ih =>
    rw [totalSize_cons]
    have h1 := h v (List.mem_cons_self _ _)
    have h2 := ih (fun r hr => h r (List.mem_cons_of_mem _ hr))
    omega

/-- C21, as the code has it. Reclaim size: for every version history built by the
enumerator (from any sequence of pages) and every `N`, the purge list names the purged
records, every purged delete marker has size `0`, and `computeAndPrintVersionsInfo`
reports one total, the sum of the sizes of the purged live versions reduced modulo
`2 ^ 64` (an `int64` accumulator, printed as `uint64`). The reported total is therefore
that sum whenever the sum is at least `0` and below `2 ^ 64`, in particular whenever the
purged live versions have non-negative sizes that add up to less than `2 ^ 64`. The total
is the same whether or not the threshold filter ran before
`computeAndPrintVersionsInfo`. -/
theorem reclaim_size (S : SliceSorter) (N : Int) (bucket : String)
    (pages : List ListObjectVersionsOutput) :
    (evaluate S N bucket (pages.foldl pageStep [])).versionsToDelete =
      (purgedRecords S N
        (ignoreFilesWithFewerVersions (pages.foldl pageStep []) N)).map toIdentifier ∧
    (∀ r ∈ purgedRecords S N (ignoreFilesWithFewerVersions (pages.foldl pageStep []) N),
      r.IsDeleteMarker = true → r.Size = 0) ∧
    reportedTotals (evaluate S N bucket (pages.foldl pageStep [])).log =
      [totalSize ((purgedRecords S N
        (ignoreFilesWithFewerVersions (pages.foldl pageStep []) N)).filter isLive) %
          2 ^ 64] ∧
    (0 ≤ totalSize ((purgedRecords S N
        (ignoreFilesWithFewerVersions (pages.foldl pageStep []) N)).filter isLive) →
      totalSize ((purgedRecords S N
        (ignoreFilesWithFewerVersions (pages.foldl pageStep []) N)).filter isLive) < 2 ^ 64 →
      reportedTotals (evaluate S N bucket (pages.foldl pageStep [])).log =
        [totalSize ((purgedRecords S N
          (ignoreFilesWithFewerVersions (pages.foldl pageStep []) N)).filter isLive)]) ∧
    ((∀ r ∈ (purgedRecords S N
        (ignoreFilesWithFewerVersions (pages.foldl pageStep []) N)).filter isLive,
        0 ≤ r.Size) →
      totalSize ((purgedRecords S N
        (ignoreFilesWithFewerVersions (pages.foldl pageStep []) N)).filter isLive) < 2 ^ 64 →
      reportedTotals (evaluate S N bucket (pages.foldl pageStep [])).log =
        [totalSize ((purgedRecords S N
          (ignoreFilesWithFewerVersions (pages.foldl pageStep []) N)).filter isLive)]) ∧
    reportedTotals (computeAndPrintVersionsInfo S N bucket (pages.foldl pageStep [])).log =
      reportedTotals (evaluate S N bucket (pages.foldl pageStep [])).log := by
  have hmarkers : ∀ r ∈ purgedRecords S N
      (ignoreFilesWithFewerVersions (pages.foldl pageStep []) N),
      r.IsDeleteMarker = true → r.Size = 0 := by
    intro r hr hm
    obtain ⟨entry, he, hmem⟩ := mem_purgedRecords S N _ r hr
    exact marker_size_of_enumerated pages entry (mem_of_mem_ignore _ N entry he) r hmem hm
  have hreport : reportedTotals (evaluate S N bucket (pages.foldl pageStep [])).log =
      [totalSize ((purgedRecords S N
        (ignoreFilesWithFewerVersions (pages.foldl pageStep []) N)).filter isLive) %
          2 ^ 64] := by
    rw [evaluate, computeAndPrintVersionsInfo_reportedTotals,
      totalSize_filter_isLive _ hmarkers]
  have hrange : 0 ≤ totalSize ((purgedRecords S N
        (ignoreFilesWithFewerVersions (pages.foldl pageStep []) N)).filter isLive) →
      totalSize ((purgedRecords S N
        (ignoreFilesWithFewerVersions (pages.foldl pageStep []) N)).filter isLive) < 2 ^ 64 →
      reportedTotals (evaluate S N bucket (pages.foldl pageStep [])).log =
        [totalSize ((purgedRecords S N
          (ignoreFilesWithFewerVersions (pages.foldl pageStep []) N)).filter isLive)] := by
    intro hlo hhi
    rw [hreport, Int.emod_eq_of_lt hlo hhi]
  refine ⟨?_, hmarkers, hreport, hrange, ?_, ?_⟩
  · rw [evaluate, computeAndPrintVersionsInfo_purgedRecords]
  · intro hsizes hhi
    exact hrange (totalSize_nonneg _ hsizes) hhi
  · rw [evaluate, computeAndPrintVersionsInfo_reportedTotals,
      computeAndPrintVersionsInfo_reportedTotals, purgedRecords_ignore]

/-- Witness for C21: the key of `examplePages` under `N = 1`. The two older records are
purged, the live version `A` of one byte and the delete marker `B`, and the total
reported is one byte. -/
theorem reclaim_size_witness :
    (evaluate stdSorter 1 "b" (examplePages.foldl pageStep [])).versionsToDelete =
      [ObjectIdentifier.mk "k" "B", ObjectIdentifier.mk "k" "A"] ∧
    (0 : Int) ≤ totalSize ((purgedRecords stdSorter 1
      (ignoreFilesWithFewerVersions (examplePages.foldl pageStep []) 1)).filter isLive) ∧
    totalSize ((purgedRecords stdSorter 1
      (ignoreFilesWithFewerVersions (examplePages.foldl pageStep []) 1)).filter isLive) <
        2 ^ 64 ∧
    totalSize ((purgedRecords stdSorter 1
      (ignoreFilesWithFewerVersions (examplePages.foldl pageStep []) 1)).filter isLive) = 1 ∧
    reportedTotals (evaluate stdSorter 1 "b" (examplePages.foldl pageStep [])).log = [1] :=
  ⟨by decide, by decide, by decide, by decide,
    ((reclaim_size stdSorter 1 "b" examplePages).2.2.2.1 (by decide) (by decide)).trans
      (by decide)⟩

/-- The claim C21 as stated fails where the sum reaches `2 ^ 64`: for a key listed with
five live versions of `2 ^ 62` bytes each, under `N = 1`, the four older ones are purged,
the sum of their sizes is `2 ^ 64`, and the total reported is `0`. -/
theorem reclaim_size_counterexample :
    (getFileVersions scriptedListing (exampleConfig 1 false) "b" 1 (Run.start [hugePage])).1 =
      Outcome.returned ([hugePage].foldl pageStep []) ∧
    (evaluate stdSorter 1 "b" ([hugePage].foldl pageStep [])).versionsToDelete =
      [ObjectIdentifier.mk "k" "B", ObjectIdentifier.mk "k" "C",
        ObjectIdentifier.mk "k" "D", ObjectIdentifier.mk "k" "E"] ∧
    totalSize ((purgedRecords stdSorter 1
      (ignoreFilesWithFewerVersions ([hugePage].foldl pageStep []) 1)).filter isLive) =
        2 ^ 64 ∧
    reportedTotals (evaluate stdSorter 1 "b" ([hugePage].foldl pageStep [])).log = [0] ∧
    reportedTotals (evaluate stdSorter 1 "b" ([hugePage].foldl pageStep [])).log ≠
      [totalSize ((purgedRecords stdSorter 1
        (ignoreFilesWithFewerVersions ([hugePage].foldl pageStep []) 1)).filter isLive)] := by
  refine ⟨by decide, by decide, by decide, by decide, by decide⟩

/-! ## C22: the history the enumerator returns -/

/-- C22. History well-formedness: when `getFileVersions` returns a history, it has been
built from the pages the listing calls were answered with; its keys are pairwise distinct;
every record stored under a key carries that key and is stored under no other key; every
stored record is built either from a listed live version, and then is not a delete marker
and has the key, version ID, latest flag, time and size of that entry, or from a listed
delete marker, and then is a delete marker of size `0` with the key, version ID, latest
flag and time of that entry; and every listed entry has its record under its key. -/
theorem history_well_formedness {σ : Type} (api : S3API σ) (config : Config)
    (bucket : String) (budget : Nat) (w : Run σ) (fv : FileVersions)
    (h : (getFileVersions api config bucket budget w).1 = Outcome.returned fv) :
    ∃ pages : List ListObjectVersionsOutput,
      callsSince w (getFileVersions api config bucket budget w).2 =
        listExchanges config bucket none (pages.map Response.versions) ∧
      (fv.map Prod.fst).Nodup ∧
      (∀ entry ∈ fv, ∀ r ∈ entry.2, r.Key = entry.1) ∧
      (∀ e₁ ∈ fv, ∀ e₂ ∈ fv, ∀ r, r ∈ e₁.2 → r ∈ e₂.2 → e₁ = e₂) ∧
      (∀ entry ∈ fv, ∀ r ∈ entry.2,
        (∃ page ∈ pages, ∃ v ∈ page.Versions,
          r.Key = v.Key ∧ r.VersionID = v.VersionId ∧ r.IsLatest = v.IsLatest ∧
            r.LastModified = v.LastModified ∧ r.Size = v.Size ∧ r.IsDeleteMarker = false) ∨
        (∃ page ∈ pages, ∃ m ∈ page.DeleteMarkers,
          r.Key = m.Key ∧ r.VersionID = m.VersionId ∧ r.IsLatest = m.IsLatest ∧
            r.LastModified = m.LastModified ∧ r.Size = 0 ∧ r.IsDeleteMarker = true)) ∧
      (∀ page ∈ pages, ∀ v ∈ page.Versions, ∃ r ∈ recordsOf fv v.Key,
        r.Key = v.Key ∧ r.VersionID = v.VersionId ∧ r.IsLatest = v.IsLatest ∧
          r.LastModified = v.LastModified ∧ r.Size = v.Size ∧ r.IsDeleteMarker = false) ∧
      (∀ page ∈ pages, ∀ m ∈ page.DeleteMarkers, ∃ r ∈ recordsOf fv m.Key,
        r.Key = m.Key ∧ r.VersionID = m.VersionId ∧ r.IsLatest = m.IsLatest ∧
          r.LastModified = m.LastModified ∧ r.Size = 0 ∧ r.IsDeleteMarker = true) := by
  obtain ⟨_, init, _, hcases⟩ := getFileVersions_trace api config bucket budget w
  rcases hcases with ⟨last, _, hret, hcalls⟩ | ⟨err, hfail, _⟩ | ⟨hrun, _, _⟩
  · rw [hret] at h
    have hfv : fv = ((init ++ [last]).flatMap pageRecords).foldl appendRecord [] := by
      rw [← foldl_pageStep_eq_foldl]
      exact (Outcome.returned.inj h).symm
    have hwf : WellFormed fv := by
      rw [hfv]
      exact wellFormed_foldl_appendRecord _ [] ⟨List.nodup_nil, by simp⟩
    have hmem : ∀ entry ∈ fv, ∀ r ∈ entry.2, r ∈ (init ++ [last]).flatMap pageRecords := by
      intro entry he r hr
      rw [hfv] at he
      exact mem_of_mem_foldl_appendRecord _ entry he r hr
    have hstored : ∀ r ∈ (init ++ [last]).flatMap pageRecords, r ∈ recordsOf fv r.Key := by
      intro r hr
      rw [hfv, recordsOf_foldl_appendRecord]
      exact List.mem_filter.2 ⟨hr, by simp⟩
    refine ⟨init ++ [last], hcalls, hwf.1, hwf.2, ?_, ?_, ?_, ?_⟩
    · intro e₁ he₁ e₂ he₂ r hr₁ hr₂
      have hk : e₁.1 = e₂.1 := (hwf.2 e₁ he₁ r hr₁).symm.trans (hwf.2 e₂ he₂ r hr₂)
      have h₁ := lookup_of_mem_of_nodup _ hwf.1 e₁ he₁
      have h₂ := lookup_of_mem_of_nodup _ hwf.1 e₂ he₂
      rw [hk, h₂] at h₁
      exact Prod.ext hk (Option.some.inj h₁).symm
    · intro entry he r hr
      obtain ⟨page, hpage, hrec⟩ := List.mem_flatMap.1 (hmem entry he r hr)
      rcases mem_pageRecords page r hrec with ⟨v, hv, rfl⟩ | ⟨m, hm, rfl⟩
      · exact Or.inl ⟨page, hpage, v, hv, rfl, rfl, rfl, rfl, rfl, rfl⟩
      · exact Or.inr ⟨page, hpage, m, hm, rfl, rfl, rfl, rfl, rfl, rfl⟩
    · intro page hpage v hv
      refine ⟨recordOfVersion v, ?_, rfl, rfl, rfl, rfl, rfl, rfl⟩
      apply hstored (recordOfVersion v)
      exact List.mem_flatMap.2 ⟨page, hpage, by
        unfold pageRecords
        exact List.mem_append_left _ (List.mem_map_of_mem _ hv)⟩
    · intro page hpage m hm
      refine ⟨recordOfMarker m, ?_, rfl, rfl, rfl, rfl, rfl, rfl⟩
      apply hstored (recordOfMarker m)
      exact List.mem_flatMap.2 ⟨page, hpage, by
        unfold pageRecords
        exact List.mem_append_right _ (List.mem_map_of_mem _ hm)⟩
  · rw [hfail] at h
    cases h
  · rw [hrun] at h
    cases h
/-- Witness for C22: the history returned for the two pages of `examplePages`. -/
theorem history_well_formedness_witness :
    (getFileVersions scriptedListing (exampleConfig 1 false) "b" 2
      (Run.start examplePages)).1 = Outcome.returned exampleHistory ∧
    ∃ pages : List ListObjectVersionsOutput,
      callsSince (Run.start examplePages)
          (getFileVersions scriptedListing (exampleConfig 1 false) "b" 2
            (Run.start examplePages)).2 =
        listExchanges (exampleConfig 1 false) "b" none (pages.map Response.versions) ∧
      (exampleHistory.map Prod.fst).Nodup ∧
      (∀ entry ∈ exampleHistory, ∀ r ∈ entry.2, r.Key = entry.1) ∧
      (∀ e₁ ∈ exampleHistory, ∀ e₂ ∈ exampleHistory, ∀ r, r ∈ e₁.2 → r ∈ e₂.2 → e₁ = e₂) ∧
      (∀ entry ∈ exampleHistory, ∀ r ∈ entry.2,
        (∃ page ∈ pages, ∃ v ∈ page.Versions,
          r.Key = v.Key ∧ r.VersionID = v.VersionId ∧ r.IsLatest = v.IsLatest ∧
            r.LastModified = v.LastModified ∧ r.Size = v.Size ∧ r.IsDeleteMarker = false) ∨
        (∃ page ∈ pages, ∃ m ∈ page.DeleteMarkers,
          r.Key = m.Key ∧ r.VersionID = m.VersionId ∧ r.IsLatest = m.IsLatest ∧
            r.LastModified = m.LastModified ∧ r.Size = 0 ∧ r.IsDeleteMarker = true)) ∧
      (∀ page ∈ pages, ∀ v ∈ page.Versions, ∃ r ∈ recordsOf exampleHistory v.Key,
        r.Key = v.Key ∧ r.VersionID = v.VersionId ∧ r.IsLatest = v.IsLatest ∧
          r.LastModified = v.LastModified ∧ r.Size = v.Size ∧ r.IsDeleteMarker = false) ∧
      (∀ page ∈ pages, ∀ m ∈ page.DeleteMarkers, ∃ r ∈ recordsOf exampleHistory m.Key,
        r.Key = m.Key ∧ r.VersionID = m.VersionId ∧ r.IsLatest = m.IsLatest ∧
          r.LastModified = m.LastModified ∧ r.Size = 0 ∧ r.IsDeleteMarker = true) :=
  ⟨by decide,
    history_well_formedness scriptedListing (exampleConfig 1 false) "b" 2
      (Run.start examplePages) exampleHistory (by decide)⟩

/-! ## C23: the client configuration -/

theorem length_eq_zero_iff_empty (s : String) : s.length = 0 ↔ s = "" := by
  constructor
  · intro h
    apply String.ext
    exact List.eq_nil_of_length_eq_zero h
  · intro h
    rw [h]
    rfl

/-- C23. Client configuration: for every `Config`, the configuration `getS3Config` returns
has as `Region` the configured `S3Region`, or `eu-west-1` when `S3Region` is the empty
string; has `DisableSSL` true exactly when `S3DisableSSL` is the string `true`; has the
configured `S3Endpoint` as `Endpoint`, unchanged; and has `S3ForcePathStyle` true. -/
theorem client_configuration (c : Config) :
    (getS3Config c).Region = (if c.S3Region = "" then "eu-west-1" else c.S3Region) ∧
    ((getS3Config c).DisableSSL = true ↔ c.S3DisableSSL = "true") ∧
    (getS3Config c).Endpoint = c.S3Endpoint ∧
    (getS3Config c).S3ForcePathStyle = true := by
  refine ⟨?_, ?_, rfl, rfl⟩
  · show (if c.S3Region.length = 0 then defaultS3Region else c.S3Region) = _
    by_cases h : c.S3Region = ""
    · rw [if_pos h, if_pos ((length_eq_zero_iff_empty _).2 h)]
      rfl
    · rw [if_neg h, if_neg (fun h0 => h ((length_eq_zero_iff_empty _).1 h0))]
  · show decide (c.S3DisableSSL = "true") = true ↔ _
    simp

/-- The two assertions of `TestS3Config`, replayed. -/
theorem testS3Config_replay :
    getS3Config testS3ConfigWithRegion =
      { DisableSSL := true, Endpoint := "http://localhost:1234", Region := "eu-west-2",
        S3ForcePathStyle := true } ∧
    getS3Config testS3ConfigWithoutRegion =
      { DisableSSL := true, Endpoint := "http://localhost:1234", Region := "eu-west-1",
        S3ForcePathStyle := true } := by
  constructor <;> decide

/-! ## C24: the count reported for a key -/

/-- The count of the line `Versions to delete for <key> (count = ...)` of a key is the
number of its records minus `N`, in `int` arithmetic, whatever the walk then purges. -/
theorem keyStep_log_head (S : SliceSorter) (N : Int) (acc : VersionsInfo)
    (entry : String × List fileVersion) :
    ∃ lines : List LogLine,
      (keyStep S N acc entry).log =
        acc.log ++ LogLine.versionsToDeleteFor entry.1
          (wrapInt64 ((entry.2.length : Int) - N)) :: lines := by
  have hlog : ∀ (l : List fileVersion) (st : WalkState),
      ∃ lines, (l.foldl (walkStep N) st).log = st.log ++ lines := by
    intro l
    induction l with
    | nil => exact fun st => ⟨[], by simp⟩
    | cons v rest ih =>
      intro st
      obtain ⟨lines, hl⟩ := ih (walkStep N st v)
      have hstep : ∃ lines0, (walkStep N st v).log = st.log ++ lines0 := by
        by_cases hc : st.versionCount ≥ N <;> by_cases hm : v.IsDeleteMarker = true
        · exact ⟨[LogLine.versionLine v.VersionID (toUint64 v.Size)],
            by simp [walkStep, hc, hm]⟩
        · exact ⟨[LogLine.versionLine v.VersionID (toUint64 v.Size)],
            by simp [walkStep, hc, hm]⟩
        · exact ⟨[], by simp [walkStep, hc, hm]⟩
        · exact ⟨[], by simp [walkStep, hc, hm]⟩
      obtain ⟨lines0, h0⟩ := hstep
      exact ⟨lines0 ++ lines, by rw [List.foldl_cons, hl, h0, List.append_assoc]⟩
  obtain ⟨lines, hl⟩ := hlog (S.sort entry.2)
    { versionCount := 0
      spaceRecovered := acc.spaceRecovered
      versionsToDelete := acc.versionsToDelete
      log := acc.log ++
        [LogLine.versionsToDeleteFor entry.1
          (wrapInt64 (((S.sort entry.2).length : Int) - N))] }
  refine ⟨lines, ?_⟩
  simp only [keyStep]
  rw [hl, length_sort]
  simp

/-- The claim C24 fails on a key that was written once and then deleted, under `N = 1`:
the history built from the listing holds the live version `A` and the newer delete marker
`B`; the key passes the threshold filter; the line for the key reports `count = 1`; and no
record of the key is added to the purge list. -/
theorem per_key_count_mismatch :
    (getFileVersions scriptedListing (exampleConfig 1 false) "b" 1
      (Run.start [deletedKeyPage])).1 =
        Outcome.returned ([deletedKeyPage].foldl pageStep []) ∧
    (ignoreFilesWithFewerVersions ([deletedKeyPage].foldl pageStep []) 1).map Prod.fst =
      ["k"] ∧
    (evaluate stdSorter 1 "b" ([deletedKeyPage].foldl pageStep [])).log =
      [LogLine.versionsToDeleteFor "k" 1, LogLine.totalSpace "b" 0,
        LogLine.totalVersions "b" 0] ∧
    (evaluate stdSorter 1 "b" ([deletedKeyPage].foldl pageStep [])).versionsToDelete = [] := by
  refine ⟨by decide, by decide, by decide, by decide⟩

/-! ## C25: the live versions that survive -/

/-- The walk purges nothing when the counter cannot reach `N`. -/
theorem purgedFrom_eq_nil_of_few_live (N : Int) (l : List fileVersion) (c : Int)
    (h : c + (liveCount l : Int) < N) : purgedFrom N c l = [] := by
  induction l generalizing c with
  | nil => rfl
  | cons v rest ih =>
    have hnn : (0 : Int) ≤ (liveCount rest : Int) := Int.ofNat_nonneg _
    by_cases hl : isLive v = true
    · have e : ((liveCount (v :: rest) : Nat) : Int) = (liveCount rest : Int) + 1 := by
        simp [liveCount, List.countP_cons, hl]
      rw [e] at h
      have hc : ¬ c ≥ N := by omega
      simp only [purgedFrom, hc, if_false, hl, if_true, List.nil_append]
      exact ih (c + 1) (by omega)
    · have e : ((liveCount (v :: rest) : Nat) : Int) = (liveCount rest : Int) := by
        simp [liveCount, List.countP_cons, hl]
      rw [e] at h
      have hc : ¬ c ≥ N := by omega
      simp only [purgedFrom, hc, if_false, hl, List.nil_append]
      exact ih c h

/-- The targets naming a key with fewer than `N` live versions. -/
theorem targetsOfKey_of_few_live (S : SliceSorter) (N : Int) (bucket : String)
    (fv : FileVersions) (k : String) (hwf : WellFormed fv)
    (hlive : (liveCount (recordsOf fv k) : Int) < N) :
    targetsOfKey (evaluate S N bucket fv).versionsToDelete k = [] := by
  rw [targetsOfKey_evaluate S N bucket fv hwf k]
  split
  · rfl
  · rw [purgedFrom_eq_nil_of_few_live N _ 0 (by rw [liveCount_sort]; omega)]
    rfl

theorem not_mem_of_targetsOfKey_eq_nil (purge : List ObjectIdentifier) (k : String)
    (h : targetsOfKey purge k = []) (t : ObjectIdentifier) (hk : t.Key = k) : t ∉ purge := by
  intro ht
  have : t ∈ targetsOfKey purge k := (mem_targetsOfKey _ _ _).2 ⟨ht, hk⟩
  rw [h] at this
  cases this

/-- C25. Surviving live versions: in a well-formed history, for every `N ≥ 0` and every
key with distinct version IDs and `L` live versions, exempt or not, the number of live
versions of the key that are not in the purge list is `min(N, L)`; and a key with fewer
than `N` live versions, whatever its number of records, has nothing purged: no purge
target names the key and none of its records is in the purge list. -/
theorem surviving_live_versions (S : SliceSorter) (N : Int) (bucket : String)
    (fv : FileVersions) (k : String) (hwf : WellFormed fv)
    (hids : DistinctVersionIDs (recordsOf fv k)) (hN : 0 ≤ N) :
    (survivingLiveCount (recordsOf fv k) (evaluate S N bucket fv).versionsToDelete : Int) =
      min N (liveCount (recordsOf fv k) : Int) ∧
    ((liveCount (recordsOf fv k) : Int) < N →
      targetsOfKey (evaluate S N bucket fv).versionsToDelete k = [] ∧
      ∀ v ∈ recordsOf fv k, toIdentifier v ∉ (evaluate S N bucket fv).versionsToDelete) := by
  constructor
  · by_cases hcount : (recordCount fv k : Int) ≤ N
    · have h := targetsOfKey_evaluate S N bucket fv hwf k
      rw [if_pos hcount] at h
      have hsurv : survivingLiveCount (recordsOf fv k)
          (evaluate S N bucket fv).versionsToDelete = liveCount (recordsOf fv k) := by
        unfold survivingLiveCount liveCount
        apply List.countP_congr
        intro v hv
        have hnot := not_mem_of_targetsOfKey_eq_nil _ k h (toIdentifier v)
          (key_of_mem_recordsOf fv hwf k v hv)
        simp [hnot]
      rw [hsurv]
      have hle : liveCount (recordsOf fv k) ≤ recordCount fv k := by
        unfold liveCount recordCount
        exact List.countP_le_length _
      omega
    · rw [survivingLiveCount_evaluate S N bucket fv k hwf hids (by omega)]
      omega
  · intro hlive
    have h := targetsOfKey_of_few_live S N bucket fv k hwf hlive
    exact ⟨h, fun v hv => not_mem_of_targetsOfKey_eq_nil _ k h (toIdentifier v)
      (key_of_mem_recordsOf fv hwf k v hv)⟩

/-- Witness for C25: a key with one live version and two newer delete markers, under
`N = 2`. It has three records, more than `N`, and one live version, fewer than `N`: the
live version survives and nothing is purged. -/
theorem surviving_live_versions_witness :
    WellFormed scenarioOneLiveTwoMarkers ∧
    DistinctVersionIDs (recordsOf scenarioOneLiveTwoMarkers scenarioKey) ∧ (0 : Int) ≤ 2 ∧
    (2 : Int) < (recordCount scenarioOneLiveTwoMarkers scenarioKey : Int) ∧
    (liveCount (recordsOf scenarioOneLiveTwoMarkers scenarioKey) : Int) = 1 ∧
    (evaluate stdSorter 2 "b" scenarioOneLiveTwoMarkers).versionsToDelete = [] ∧
    ((survivingLiveCount (recordsOf scenarioOneLiveTwoMarkers scenarioKey)
        (evaluate stdSorter 2 "b" scenarioOneLiveTwoMarkers).versionsToDelete : Int) =
      min 2 (liveCount (recordsOf scenarioOneLiveTwoMarkers scenarioKey) : Int) ∧
    ((liveCount (recordsOf scenarioOneLiveTwoMarkers scenarioKey) : Int) < 2 →
      targetsOfKey (evaluate stdSorter 2 "b" scenarioOneLiveTwoMarkers).versionsToDelete
        scenarioKey = [] ∧
      ∀ v ∈ recordsOf scenarioOneLiveTwoMarkers scenarioKey,
        toIdentifier v ∉ (evaluate stdSorter 2 "b" scenarioOneLiveTwoMarkers).versionsToDelete)) :=
  ⟨by decide, by decide, by decide, by decide, by decide, by decide,
    surviving_live_versions stdSorter 2 "b" scenarioOneLiveTwoMarkers scenarioKey (by decide)
      (by decide) (by decide)⟩

/-! ## C26: a retention count of zero or less -/

/-- Once the counter has reached `N`, the walk purges every record. -/
theorem purgedFrom_eq_self (N : Int) (l : List fileVersion) (c : Int) (h : N ≤ c) :
    purgedFrom N c l = l := by
  induction l generalizing c with
  | nil => rfl
  | cons v rest ih =>
    have hc : c ≥ N := h
    simp only [purgedFrom, hc, if_true, List.singleton_append, List.cons.injEq, true_and]
    split
    · exact ih (c + 1) (by omega)
    · exact ih c h

theorem mem_ignore_of_nonempty (fv : FileVersions) (N : Int) (hN : N ≤ 0)
    (entry : String × List fileVersion) (he : entry ∈ fv) (hne : entry.2 ≠ []) :
    entry ∈ ignoreFilesWithFewerVersions fv N := by
  unfold ignoreFilesWithFewerVersions
  refine List.mem_filter.2 ⟨he, ?_⟩
  have hpos : 0 < entry.2.length := List.length_pos.2 hne
  have : ¬ (entry.2.length : Int) ≤ N := by omega
  simp [this]

/-- With `N ≤ 0` the purge list names every record, key by key in sorted order. -/
theorem versionsToDelete_of_nonpositive (S : SliceSorter) (N : Int) (bucket : String)
    (fv : FileVersions) (hN : N ≤ 0) :
    (evaluate S N bucket fv).versionsToDelete =
      fv.flatMap (fun entry => (S.sort entry.2).map toIdentifier) := by
  rw [evaluate, computeAndPrintVersionsInfo_versionsToDelete]
  induction fv with
  | nil => rfl
  | cons e rest ih =>
    rw [List.flatMap_cons, ← ih]
    unfold ignoreFilesWithFewerVersions
    rw [List.filter_cons]
    by_cases hexempt : (e.2.length : Int) ≤ N
    · have hnil : e.2 = [] := List.eq_nil_of_length_eq_zero (by omega)
      simp only [hexempt, decide_True, Bool.not_true, Bool.false_eq_true, if_false]
      rw [hnil, sort_nil]
      rfl
    · simp only [hexempt, decide_False, Bool.not_false, if_true, List.flatMap_cons]
      rw [purgedFrom_eq_self N _ 0 hN]

/-- When a confirmed run on a bucket returns without error, every purge target has been
sent in an answered bulk delete for the bucket. -/
theorem purge_requests_cover {σ : Type} (api : S3API σ) (S : SliceSorter) (config : Config)
    (pages : Nat) (bucket : String) (w w1 : Run σ) (fv : FileVersions)
    (hconfirm : config.Confirm = true)
    (hlist : getFileVersions api config bucket pages w = (Outcome.returned fv, w1))
    (hret : (findAndRemoveVersions api S config pages bucket w).1 = Outcome.returned ())
    (t : ObjectIdentifier)
    (ht : t ∈ (evaluate S config.VersionsCount bucket fv).versionsToDelete) :
    ∃ x ∈ (findAndRemoveVersions api S config pages bucket w).2.calls,
      ∃ objects, x.call = deleteCall bucket objects ∧ t ∈ objects ∧
        x.response.isFailed = false := by
  obtain ⟨hcalls, _, hmap, hend⟩ := deleteS3Versions_trace api config bucket
    (evaluate S config.VersionsCount bucket fv).versionsToDelete
    { w1 with log := w1.log ++ (evaluate S config.VersionsCount bucket fv).log }
  unfold findAndRemoveVersions at hret ⊢
  simp only [hlist, hconfirm, if_true] at hret ⊢
  rcases hdel : deleteS3Versions api config bucket
    (evaluate S config.VersionsCount bucket fv).versionsToDelete
    { w1 with log := w1.log ++ (evaluate S config.VersionsCount bucket fv).log } with
    ⟨res, w3⟩
  rw [hdel] at hret hcalls hmap hend
  cases res with
  | some err => simp at hret
  | none =>
    simp only at hcalls hmap hend ⊢
    rcases hend with ⟨_, hlen, hok⟩ | ⟨e, _, _, he, _⟩
    · rw [hlen, List.take_length] at hmap
      rw [← join_slices (evaluate S config.VersionsCount bucket fv).versionsToDelete] at ht
      obtain ⟨chunk, hchunk, htc⟩ := List.mem_flatten.1 ht
      have hcall : deleteCall bucket chunk ∈
          (callsSince { w1 with log := w1.log ++
            (evaluate S config.VersionsCount bucket fv).log } w3).map (fun x => x.call) := by
        rw [hmap]
        exact List.mem_map_of_mem _ hchunk
      obtain ⟨x, hx, hxc⟩ := List.mem_map.1 hcall
      refine ⟨x, ?_, chunk, hxc, htc, hok x hx⟩
      rw [hcalls]
      exact List.mem_append_right _ hx
    · cases he
/-- C26. Non-positive retention count: for every version history and every `N ≤ 0`, the
threshold filter exempts no key that holds a record; the purge list names every record of
every key (it is the list of all records, key by key in sorted order); and so a confirmed
run that enumerated the history and returned without error has sent, in an answered bulk
delete for the bucket, the `(key, versionID)` of every version and every delete marker
listed. -/
theorem non_positive_retention_count (S : SliceSorter) (N : Int) (bucket : String)
    (fv : FileVersions) (hN : N ≤ 0) :
    (∀ entry ∈ fv, entry.2 ≠ [] → entry ∈ ignoreFilesWithFewerVersions fv N) ∧
    (evaluate S N bucket fv).versionsToDelete =
      fv.flatMap (fun entry => (S.sort entry.2).map toIdentifier) ∧
    (∀ entry ∈ fv, ∀ r ∈ entry.2,
      toIdentifier r ∈ (evaluate S N bucket fv).versionsToDelete) ∧
    (∀ (σ : Type) (api : S3API σ) (config : Config) (pages : Nat) (w w1 : Run σ),
      config.VersionsCount = N → config.Confirm = true →
      getFileVersions api config bucket pages w = (Outcome.returned fv, w1) →
      (findAndRemoveVersions api S config pages bucket w).1 = Outcome.returned () →
      ∀ entry ∈ fv, ∀ r ∈ entry.2,
        ∃ x ∈ (findAndRemoveVersions api S config pages bucket w).2.calls,
          ∃ objects, x.call = deleteCall bucket objects ∧ toIdentifier r ∈ objects ∧
            x.response.isFailed = false) := by
  have hall : ∀ entry ∈ fv, ∀ r ∈ entry.2,
      toIdentifier r ∈ (evaluate S N bucket fv).versionsToDelete := by
    intro entry he r hr
    rw [versionsToDelete_of_nonpositive S N bucket fv hN]
    exact List.mem_flatMap.2 ⟨entry, he,
      List.mem_map_of_mem _ ((mem_sort_iff S entry.2 r).2 hr)⟩
  refine ⟨fun entry he hne => mem_ignore_of_nonempty fv N hN entry he hne,
    versionsToDelete_of_nonpositive S N bucket fv hN, hall, ?_⟩
  intro σ api config pages w w1 hcount hconfirm hlist hret entry he r hr
  apply purge_requests_cover api S config pages bucket w w1 fv hconfirm hlist hret
  rw [hcount]
  exact hall entry he r hr

/-- Witness for C26: the key that was written once and then deleted, under `N = 0`. Both
its records are purge targets, and the confirmed run sends both. -/
theorem non_positive_retention_count_witness :
    (0 : Int) ≤ 0 ∧
    (evaluate stdSorter 0 "b" ([deletedKeyPage].foldl pageStep [])).versionsToDelete =
      [ObjectIdentifier.mk "k" "B", ObjectIdentifier.mk "k" "A"] ∧
    ∀ entry ∈ [deletedKeyPage].foldl pageStep [], ∀ r ∈ entry.2,
      ∃ x ∈ (findAndRemoveVersions scriptedListing stdSorter (exampleConfig 0 true) 1 "b"
          (Run.start [deletedKeyPage])).2.calls,
        ∃ objects, x.call = deleteCall "b" objects ∧ toIdentifier r ∈ objects ∧
          x.response.isFailed = false :=
  ⟨by decide,
    (non_positive_retention_count stdSorter 0 "b" ([deletedKeyPage].foldl pageStep [])
      (by decide)).2.1.trans (by decide),
    (non_positive_retention_count stdSorter 0 "b" ([deletedKeyPage].foldl pageStep [])
      (by decide)).2.2.2 _ scriptedListing (exampleConfig 0 true) 1
        (Run.start [deletedKeyPage]) _ rfl rfl (Prod.ext (by decide) rfl) (by decide)⟩

/-! ## C27: where the purge targets come from -/

theorem purgedFrom_sublist (N : Int) (l : List fileVersion) (c : Int) :
    List.Sublist (purgedFrom N c l) l := by
  induction l generalizing c with
  | nil => exact List.Sublist.refl _
  | cons v rest ih =>
    unfold purgedFrom
    by_cases hc : c ≥ N
    · simp only [hc, if_true, List.singleton_append]
      exact List.Sublist.cons₂ v (ih _)
    · simp only [hc, if_false, List.nil_append]
      exact List.Sublist.cons v (ih _)

theorem subperm_append {l₁ l₂ r₁ r₂ : List fileVersion} (h₁ : List.Subperm l₁ l₂)
    (h₂ : List.Subperm r₁ r₂) : List.Subperm (l₁ ++ r₁) (l₂ ++ r₂) :=
  ((List.subperm_append_right r₁).2 h₁).trans ((List.subperm_append_left l₂).2 h₂)

/-- The purged records are records of the history, each taken at most as often as the
history holds it. -/
theorem purgedRecords_subperm (S : SliceSorter) (N : Int) (fv : FileVersions) :
    List.Subperm (purgedRecords S N (ignoreFilesWithFewerVersions fv N))
      (fv.flatMap Prod.snd) := by
  induction fv with
  | nil => exact List.Subperm.refl _
  | cons e rest ih =>
    have hkey : List.Subperm (purgedFrom N 0 (S.sort e.2)) e.2 :=
      (purgedFrom_sublist N (S.sort e.2) 0).subperm.trans (S.perm e.2).subperm
    unfold ignoreFilesWithFewerVersions at ih ⊢
    rw [List.filter_cons, List.flatMap_cons]
    split
    · unfold purgedRecords at ih ⊢
      rw [List.flatMap_cons]
      exact subperm_append hkey ih
    · have h0 : List.Subperm ([] : List fileVersion) e.2 := (List.nil_sublist _).subperm
      simpa using subperm_append h0 ih

theorem nodup_map_of_subperm {l₁ l₂ : List fileVersion} (h : List.Subperm l₁ l₂)
    (hnd : (l₂.map toIdentifier).Nodup) : (l₁.map toIdentifier).Nodup := by
  obtain ⟨l, hperm, hsub⟩ := h
  have h1 : (l.map toIdentifier).Nodup := List.Nodup.sublist (List.Sublist.map _ hsub) hnd
  exact (List.Perm.nodup_iff (List.Perm.map _ hperm)).1 h1

/-- C27. Purge targets come from the listing: for every version history and every `N`,
the purge list is the list of the `(key, versionID)` pairs of the purged records, one entry
per purged record, so its length is the number of purged records; the purged records are
records of the history, none taken more often than the history holds it; every entry of
the purge list is therefore the `(key, versionID)` pair of a record of the history; and if
the `(key, versionID)` pairs of the records of the history are pairwise distinct, the purge
list has no duplicate. -/
theorem purge_targets_from_listing (S : SliceSorter) (N : Int) (bucket : String)
    (fv : FileVersions) :
    (evaluate S N bucket fv).versionsToDelete =
      (purgedRecords S N (ignoreFilesWithFewerVersions fv N)).map toIdentifier ∧
    (evaluate S N bucket fv).versionsToDelete.length =
      (purgedRecords S N (ignoreFilesWithFewerVersions fv N)).length ∧
    List.Subperm (purgedRecords S N (ignoreFilesWithFewerVersions fv N))
      (fv.flatMap Prod.snd) ∧
    (∀ r, (purgedRecords S N (ignoreFilesWithFewerVersions fv N)).count r ≤
      (fv.flatMap Prod.snd).count r) ∧
    (∀ t ∈ (evaluate S N bucket fv).versionsToDelete,
      ∃ entry ∈ fv, ∃ r ∈ entry.2, t = ObjectIdentifier.mk r.Key r.VersionID) ∧
    (((fv.flatMap Prod.snd).map toIdentifier).Nodup →
      (evaluate S N bucket fv).versionsToDelete.Nodup) := by
  have hlist : (evaluate S N bucket fv).versionsToDelete =
      (purgedRecords S N (ignoreFilesWithFewerVersions fv N)).map toIdentifier := by
    rw [evaluate, computeAndPrintVersionsInfo_purgedRecords]
  have hsub := purgedRecords_subperm S N fv
  refine ⟨hlist, by rw [hlist, List.length_map], hsub, fun r => hsub.count_le r, ?_, ?_⟩
  · intro t ht
    rw [hlist] at ht
    obtain ⟨r, hr, rfl⟩ := List.mem_map.1 ht
    obtain ⟨entry, he, hmem⟩ := List.mem_flatMap.1 (hsub.subset hr)
    exact ⟨entry, he, r, hmem, rfl⟩
  · intro hnd
    rw [hlist]
    exact nodup_map_of_subperm hsub hnd

/-- Witness for C27: the scenario `[liveA, deleteMarkerB, liveC, liveD]` under `N = 1`,
where the identifiers of the four records are distinct and three records are purged. -/
theorem purge_targets_from_listing_witness :
    ((scenarioLiveMarkerLiveLive.flatMap Prod.snd).map toIdentifier).Nodup ∧
    (evaluate stdSorter 1 "b" scenarioLiveMarkerLiveLive).versionsToDelete =
      [ObjectIdentifier.mk "k" "B", ObjectIdentifier.mk "k" "C",
        ObjectIdentifier.mk "k" "D"] ∧
    (evaluate stdSorter 1 "b" scenarioLiveMarkerLiveLive).versionsToDelete.Nodup :=
  ⟨by decide, by decide,
    (purge_targets_from_listing stdSorter 1 "b" scenarioLiveMarkerLiveLive).2.2.2.2.2
      (by decide)⟩

/-! ## C28: the order of the records does not matter -/

theorem distinct_times_recordsOf (fv : FileVersions) (h : DistinctTimes fv) (k : String) :
    ((recordsOf fv k).map (fun v => v.LastModified)).Nodup := by
  unfold recordsOf
  cases hl : fv.lookup k with
  | none => simp
  | some vs => exact h (k, vs) (mem_of_lookup fv k vs hl)

/-- Two sorts that meet the contract agree on rearrangements of a list of records with
pairwise distinct times. -/
theorem sort_eq_of_perm (S₁ S₂ : SliceSorter) (l₁ l₂ : List fileVersion)
    (hperm : List.Perm l₁ l₂) (hnd : (l₁.map (fun v => v.LastModified)).Nodup) :
    S₁.sort l₁ = S₂.sort l₂ := by
  apply eq_of_perm_of_descending _ _
    ((S₁.perm l₁).trans (hperm.trans (S₂.perm l₂).symm))
    (sorted_descending S₁ _) (sorted_descending S₂ _)
  exact (List.Perm.nodup_iff (List.Perm.map _ (S₁.perm l₁))).2 hnd

/-- The targets naming a key are the same, in the same order, for two well-formed
histories that hold the same records under the key, with pairwise distinct times. -/
theorem targetsOfKey_eq_of_perm (S₁ S₂ : SliceSorter) (N : Int) (b₁ b₂ : String)
    (fv₁ fv₂ : FileVersions) (hwf₁ : WellFormed fv₁) (hwf₂ : WellFormed fv₂) (k : String)
    (hperm : List.Perm (recordsOf fv₁ k) (recordsOf fv₂ k))
    (hnd : ((recordsOf fv₁ k).map (fun v => v.LastModified)).Nodup) :
    targetsOfKey (evaluate S₁ N b₁ fv₁).versionsToDelete k =
      targetsOfKey (evaluate S₂ N b₂ fv₂).versionsToDelete k := by
  rw [targetsOfKey_evaluate S₁ N b₁ fv₁ hwf₁ k, targetsOfKey_evaluate S₂ N b₂ fv₂ hwf₂ k,
    sort_eq_of_perm S₁ S₂ _ _ hperm hnd]
  have hlen : recordCount fv₁ k = recordCount fv₂ k := List.Perm.length_eq hperm
  rw [hlen]

theorem count_targetsOfKey (purge : List ObjectIdentifier) (t : ObjectIdentifier) :
    (targetsOfKey purge t.Key).count t = purge.count t := by
  unfold targetsOfKey
  induction purge with
  | nil => rfl
  | cons x rest ih =>
    rw [List.filter_cons]
    by_cases hk : x.Key = t.Key
    · simp only [hk, decide_True, if_true, List.count_cons, ih]
    · have hne : ¬ (x == t) = true := by
        intro h
        exact hk (by rw [beq_iff_eq.1 h])
      simp only [hk, decide_False, Bool.false_eq_true, if_false, List.count_cons, ih, hne,
        Nat.add_zero]

/-- The purge lists of two well-formed histories that hold the same records under every
key, with pairwise distinct times within each key, are rearrangements of each other. -/
theorem versionsToDelete_perm_of_sameHistory (S₁ S₂ : SliceSorter) (N : Int)
    (b₁ b₂ : String) (fv₁ fv₂ : FileVersions) (hwf₁ : WellFormed fv₁) (hwf₂ : WellFormed fv₂)
    (hsame : SameHistory fv₁ fv₂) (htimes : DistinctTimes fv₁) :
    List.Perm (evaluate S₁ N b₁ fv₁).versionsToDelete
      (evaluate S₂ N b₂ fv₂).versionsToDelete := by
  rw [List.perm_iff_count]
  intro t
  rw [← count_targetsOfKey (evaluate S₁ N b₁ fv₁).versionsToDelete t,
    ← count_targetsOfKey (evaluate S₂ N b₂ fv₂).versionsToDelete t,
    targetsOfKey_eq_of_perm S₁ S₂ N b₁ b₂ fv₁ fv₂ hwf₁ hwf₂ t.Key (hsame t.Key).2
      (distinct_times_recordsOf fv₁ htimes t.Key)]

/-- C28. Order independence: for every `N` and every two well-formed version histories
with the same keys whose per-key lists are permutations of each other, with pairwise
distinct `lastModified` within each key, the evaluator produces the same purge targets,
whichever sorts meeting the `sort.Slice` contract it runs with: under every key the same
targets in the same order, and overall the same targets with the same multiplicities. Hence
two sequences of pages that carry the same records, in any arrangement into pages and
into live versions and delete markers, lead to the same purge targets. -/
theorem order_independence (S₁ S₂ : SliceSorter) (N : Int) (bucket : String)
    (fv₁ fv₂ : FileVersions) (hwf₁ : WellFormed fv₁) (hwf₂ : WellFormed fv₂)
    (hsame : SameHistory fv₁ fv₂) (htimes : DistinctTimes fv₁) :
    (∀ k, targetsOfKey (evaluate S₁ N bucket fv₁).versionsToDelete k =
      targetsOfKey (evaluate S₂ N bucket fv₂).versionsToDelete k) ∧
    List.Perm (evaluate S₁ N bucket fv₁).versionsToDelete
      (evaluate S₂ N bucket fv₂).versionsToDelete ∧
    (∀ t, t ∈ (evaluate S₁ N bucket fv₁).versionsToDelete ↔
      t ∈ (evaluate S₂ N bucket fv₂).versionsToDelete) ∧
    (∀ pages₁ pages₂ : List ListObjectVersionsOutput,
      List.Perm (pages₁.flatMap pageRecords) (pages₂.flatMap pageRecords) →
      DistinctTimes (pages₁.foldl pageStep []) →
      List.Perm (evaluate S₁ N bucket (pages₁.foldl pageStep [])).versionsToDelete
        (evaluate S₂ N bucket (pages₂.foldl pageStep [])).versionsToDelete) := by
  have hperm := versionsToDelete_perm_of_sameHistory S₁ S₂ N bucket bucket fv₁ fv₂ hwf₁ hwf₂
    hsame htimes
  refine ⟨?_, hperm, fun t => List.Perm.mem_iff hperm, ?_⟩
  · intro k
    exact targetsOfKey_eq_of_perm S₁ S₂ N bucket bucket fv₁ fv₂ hwf₁ hwf₂ k (hsame k).2
      (distinct_times_recordsOf fv₁ htimes k)
  · intro pages₁ pages₂ hrecords hdistinct
    have hw : ∀ pages : List ListObjectVersionsOutput, WellFormed (pages.foldl pageStep []) := by
      intro pages
      rw [foldl_pageStep_eq_foldl]
      exact wellFormed_foldl_appendRecord _ [] ⟨List.nodup_nil, by simp⟩
    apply versionsToDelete_perm_of_sameHistory S₁ S₂ N bucket bucket _ _ (hw pages₁)
      (hw pages₂) ?_ hdistinct
    rw [foldl_pageStep_eq_foldl, foldl_pageStep_eq_foldl]
    exact sameHistory_of_perm _ _ hrecords

/-- Witness for C28: the history of `examplePages` as built page by page (records in the
order `A, B, C`) and as built from the single merged page (`A, C, B`), under `N = 1`:
both evaluations purge `B` and `A`. -/
theorem order_independence_witness :
    WellFormed exampleHistory ∧ WellFormed exampleHistoryMerged ∧
    SameHistory exampleHistory exampleHistoryMerged ∧ DistinctTimes exampleHistory ∧
    (evaluate stdSorter 1 "b" exampleHistory).versionsToDelete =
      [ObjectIdentifier.mk "k" "B", ObjectIdentifier.mk "k" "A"] ∧
    List.Perm (evaluate stdSorter 1 "b" exampleHistory).versionsToDelete
      (evaluate stdSorter 1 "b" exampleHistoryMerged).versionsToDelete :=
  ⟨by decide, by decide,
    sameHistory_of_perm
      [recordOfVersion (ObjectVersion.mk "k" "A" false 10 1),
        recordOfMarker (DeleteMarkerEntry.mk "k" "B" false 20),
        recordOfVersion (ObjectVersion.mk "k" "C" true 30 1)]
      [recordOfVersion (ObjectVersion.mk "k" "A" false 10 1),
        recordOfVersion (ObjectVersion.mk "k" "C" true 30 1),
        recordOfMarker (DeleteMarkerEntry.mk "k" "B" false 20)] (by decide),
    by decide, by decide,
    (order_independence stdSorter stdSorter 1 "b" exampleHistory
      exampleHistoryMerged (by decide) (by decide)
      (sameHistory_of_perm
        [recordOfVersion (ObjectVersion.mk "k" "A" false 10 1),
          recordOfMarker (DeleteMarkerEntry.mk "k" "B" false 20),
          recordOfVersion (ObjectVersion.mk "k" "C" true 30 1)]
        [recordOfVersion (ObjectVersion.mk "k" "A" false 10 1),
          recordOfVersion (ObjectVersion.mk "k" "C" true 30 1),
          recordOfMarker (DeleteMarkerEntry.mk "k" "B" false 20)] (by decide))
      (by decide)).2.1⟩

/-! ## C29: nothing is left to purge after a purge -/

/-- When every record the walk purges from a list is dropped from the list, the walk
over what remains purges nothing. -/
theorem purgedFrom_filter_eq_nil (N : Int) (keep : fileVersion → Bool)
    (l : List fileVersion) (c c' : Int) (hle : c' ≤ c)
    (h : ∀ r ∈ purgedFrom N c l, keep r = false) :
    purgedFrom N c' (l.filter keep) = [] := by
  induction l generalizing c c' with
  | nil => rfl
  | cons v rest ih =>
    have hrest : ∀ r ∈ purgedFrom N (if isLive v then c + 1 else c) rest, keep r = false := by
      intro r hr
      apply h r
      unfold purgedFrom
      exact List.mem_append_right _ hr
    rw [List.filter_cons]
    by_cases hk : keep v = true
    · have hc : ¬ c ≥ N := by
        intro hc
        have hv : v ∈ purgedFrom N c (v :: rest) := by
          unfold purgedFrom
          simp [hc]
        rw [h v hv] at hk
        cases hk
      have hc' : ¬ c' ≥ N := by omega
      simp only [hk, if_true, purgedFrom, hc', if_false, List.nil_append]
      by_cases hl : isLive v = true
      · simp only [hl, if_true] at hrest ⊢
        exact ih (c + 1) (c' + 1) (by omega) hrest
      · simp only [hl, if_false] at hrest ⊢
        exact ih c c' hle hrest
    · simp only [hk, if_false]
      by_cases hl : isLive v = true
      · simp only [hl, if_true] at hrest
        exact ih (c + 1) c' (by omega) hrest
      · simp only [hl, if_false] at hrest
        exact ih c c' hle hrest

/-- With pairwise distinct times, sorting what a filter keeps is filtering what the sort
returns. -/
theorem sort_filter (S S' : SliceSorter) (keep : fileVersion → Bool) (l : List fileVersion)
    (hnd : (l.map (fun v => v.LastModified)).Nodup) :
    S'.sort (l.filter keep) = (S.sort l).filter keep := by
  apply eq_of_perm_of_descending _ _
    ((S'.perm _).trans (List.Perm.filter keep (S.perm l)).symm)
    (sorted_descending S' _)
    (List.Pairwise.sublist (List.filter_sublist _) (sorted_descending S l))
  have hsub : List.Sublist ((l.filter keep).map (fun v => v.LastModified))
      (l.map (fun v => v.LastModified)) := List.Sublist.map _ (List.filter_sublist _)
  exact (List.Perm.nodup_iff (List.Perm.map _ (S'.perm _))).2 (List.Nodup.sublist hsub hnd)

theorem purgedRecords_eq_nil (S : SliceSorter) (N : Int) (fv : FileVersions)
    (h : ∀ entry ∈ fv, purgedFrom N 0 (S.sort entry.2) = []) : purgedRecords S N fv = [] := by
  unfold purgedRecords
  rw [List.flatMap_eq_nil_iff]
  exact h

/-- After the records named in the purge list were removed, the walk purges no record of
any key. -/
theorem purgedRecords_after_purge (S S' : SliceSorter) (N : Int) (bucket : String)
    (fv : FileVersions) (htimes : DistinctTimes fv) :
    purgedRecords S' N (withoutPurged fv (evaluate S N bucket fv).versionsToDelete) = [] := by
  apply purgedRecords_eq_nil
  intro entry' he'
  unfold withoutPurged at he'
  obtain ⟨entry, he, rfl⟩ := List.mem_map.1 (List.mem_filter.1 he').1
  show purgedFrom N 0 (S'.sort (entry.2.filter
    (fun v => !decide (toIdentifier v ∈ (evaluate S N bucket fv).versionsToDelete)))) = []
  by_cases hshort : (entry.2.length : Int) ≤ N
  · apply purgedFrom_eq_nil_of_short
    rw [length_sort]
    have := List.length_filter_le
      (fun v => !decide (toIdentifier v ∈ (evaluate S N bucket fv).versionsToDelete)) entry.2
    omega
  · rw [sort_filter S S' _ entry.2 (htimes entry he)]
    apply purgedFrom_filter_eq_nil N _ (S.sort entry.2) 0 0 (le_refl _)
    intro r hr
    have hkept : entry ∈ ignoreFilesWithFewerVersions fv N := by
      unfold ignoreFilesWithFewerVersions
      exact List.mem_filter.2 ⟨he, by simp [hshort]⟩
    have hmem : toIdentifier r ∈ (evaluate S N bucket fv).versionsToDelete := by
      rw [evaluate, computeAndPrintVersionsInfo_versionsToDelete]
      exact List.mem_flatMap.2 ⟨entry, hkept, List.mem_map_of_mem _ hr⟩
    simp [hmem]

theorem wellFormed_withoutPurged (fv : FileVersions) (purge : List ObjectIdentifier)
    (h : WellFormed fv) : WellFormed (withoutPurged fv purge) := by
  unfold withoutPurged
  constructor
  · have hkeys : (fv.map (fun entry : String × List fileVersion =>
        (entry.1, entry.2.filter (fun v => !decide (toIdentifier v ∈ purge))))).map Prod.fst =
        fv.map Prod.fst := by
      rw [List.map_map]
      rfl
    exact List.Nodup.sublist (List.Sublist.map _ (List.filter_sublist _)) (hkeys ▸ h.1)
  · intro entry' he' v hv
    obtain ⟨entry, he, rfl⟩ := List.mem_map.1 (List.mem_filter.1 he').1
    exact h.2 entry he v (List.mem_filter.1 hv).1

theorem distinctTimes_withoutPurged (fv : FileVersions) (purge : List ObjectIdentifier)
    (h : DistinctTimes fv) : DistinctTimes (withoutPurged fv purge) := by
  intro entry' he'
  unfold withoutPurged at he'
  obtain ⟨entry, he, rfl⟩ := List.mem_map.1 (List.mem_filter.1 he').1
  exact List.Nodup.sublist (List.Sublist.map _ (List.filter_sublist _)) (h entry he)

/-- A history that `getFileVersions` returns is a well-formed map. -/
theorem wellFormed_of_returned {σ : Type} (api : S3API σ) (config : Config)
    (bucket : String) (budget : Nat) (w : Run σ) (fv : FileVersions)
    (h : (getFileVersions api config bucket budget w).1 = Outcome.returned fv) :
    WellFormed fv := by
  obtain ⟨_, init, _, hcases⟩ := getFileVersions_trace api config bucket budget w
  rcases hcases with ⟨last, _, hret, _⟩ | ⟨err, hfail, _⟩ | ⟨hrun, _, _⟩
  · rw [hret] at h
    rw [← Outcome.returned.inj h, foldl_pageStep_eq_foldl]
    exact wellFormed_foldl_appendRecord _ [] ⟨List.nodup_nil, by simp⟩
  · rw [hfail] at h
    cases h
  · rw [hrun] at h
    cases h

/-- With an empty purge list `deleteS3Versions` logs its line and issues no call. -/
theorem deleteS3Versions_nil {σ : Type} (api : S3API σ) (config : Config) (bucket : String)
    (w : Run σ) :
    deleteS3Versions api config bucket [] w =
      (none, w.logLine (LogLine.deleting 0 bucket config.BucketPrefix)) := by
  rfl

/-- A second confirmed run on a store that lists what the first run left: it returns
without error and issues no call after its listing. -/
theorem second_run_deletes_nothing {σ : Type} (api : S3API σ) (S S' : SliceSorter)
    (config : Config) (pages : Nat) (bucket : String) (fv fv' : FileVersions)
    (w w1 : Run σ) (hwf : WellFormed fv) (htimes : DistinctTimes fv)
    (hlist : getFileVersions api config bucket pages w = (Outcome.returned fv', w1))
    (hfaithful : SameHistory
      (withoutPurged fv (evaluate S config.VersionsCount bucket fv).versionsToDelete) fv') :
    (findAndRemoveVersions api S' config pages bucket w).1 = Outcome.returned () ∧
    (findAndRemoveVersions api S' config pages bucket w).2.calls = w1.calls ∧
    (findAndRemoveVersions api S' config pages bucket w).2.remote = w1.remote := by
  have hwf' : WellFormed fv' :=
    wellFormed_of_returned api config bucket pages w fv' (by rw [hlist])
  have hperm := versionsToDelete_perm_of_sameHistory S' S' config.VersionsCount bucket bucket
    _ fv' (wellFormed_withoutPurged fv _ hwf) hwf' hfaithful
    (distinctTimes_withoutPurged fv _ htimes)
  have hfix : (evaluate S' config.VersionsCount bucket
      (withoutPurged fv (evaluate S config.VersionsCount bucket fv).versionsToDelete)
      ).versionsToDelete = [] := by
    rw [evaluate, computeAndPrintVersionsInfo_purgedRecords, purgedRecords_ignore]
    have h0 := purgedRecords_after_purge S S' config.VersionsCount bucket fv htimes
    rw [h0]
    rfl
  rw [hfix] at hperm
  have hnil : (evaluate S' config.VersionsCount bucket fv').versionsToDelete = [] :=
    List.Perm.eq_nil hperm.symm
  unfold findAndRemoveVersions
  simp only [hlist, hnil]
  by_cases hc : config.Confirm = true
  · simp [hc, deleteS3Versions_nil, Run.logLine]
  · simp [hc]
/-- C29. Fixed point after purging: for every `N` and every version history whose
records have pairwise distinct `lastModified` within each key, when the records named in
the purge list are removed from the history and the evaluator runs again on what remains
(with any sort meeting the `sort.Slice` contract), the purge list is empty. Hence a second
confirmed run on a bucket, against a store whose listing then yields what the first run
left of a well-formed history, returns without error and issues no call after its
listing: it deletes nothing. -/
theorem fixed_point_after_purging (S S' : SliceSorter) (N : Int) (bucket : String)
    (fv : FileVersions) (htimes : DistinctTimes fv) :
    (evaluate S' N bucket
      (withoutPurged fv (evaluate S N bucket fv).versionsToDelete)).versionsToDelete = [] ∧
    (∀ (σ : Type) (api : S3API σ) (config : Config) (pages : Nat) (fv' : FileVersions)
      (w w1 : Run σ),
      WellFormed fv → config.VersionsCount = N →
      getFileVersions api config bucket pages w = (Outcome.returned fv', w1) →
      SameHistory (withoutPurged fv (evaluate S N bucket fv).versionsToDelete) fv' →
      (findAndRemoveVersions api S' config pages bucket w).1 = Outcome.returned () ∧
      (findAndRemoveVersions api S' config pages bucket w).2.calls = w1.calls ∧
      (findAndRemoveVersions api S' config pages bucket w).2.remote = w1.remote) := by
  constructor
  · rw [evaluate, computeAndPrintVersionsInfo_purgedRecords, purgedRecords_ignore,
      purgedRecords_after_purge S S' N bucket fv htimes]
    rfl
  · intro σ api config pages fv' w w1 hwf hcount hlist hfaithful
    subst hcount
    exact second_run_deletes_nothing api S S' config pages bucket fv fv' w w1 hwf htimes
      hlist hfaithful

/-- Witness for C29: the scenario `[liveA, deleteMarkerB, liveC, liveD]` under `N = 1`.
The first run purges `B`, `C` and `D`; what remains is the key with the record `A`; the
second run purges nothing. -/
theorem fixed_point_after_purging_witness :
    DistinctTimes scenarioLiveMarkerLiveLive ∧
    (evaluate stdSorter 1 "b" scenarioLiveMarkerLiveLive).versionsToDelete =
      [ObjectIdentifier.mk "k" "B", ObjectIdentifier.mk "k" "C",
        ObjectIdentifier.mk "k" "D"] ∧
    withoutPurged scenarioLiveMarkerLiveLive
        (evaluate stdSorter 1 "b" scenarioLiveMarkerLiveLive).versionsToDelete =
      [(scenarioKey, [liveRecord "A" 40])] ∧
    (evaluate stdSorter 1 "b"
      (withoutPurged scenarioLiveMarkerLiveLive
        (evaluate stdSorter 1 "b" scenarioLiveMarkerLiveLive).versionsToDelete)).versionsToDelete =
      [] :=
  ⟨by decide, by decide, by decide,
    (fixed_point_after_purging stdSorter stdSorter 1 "b" scenarioLiveMarkerLiveLive
      (by decide)).1⟩
/-! ## C30: the threshold filter and the walk -/

/-- C30. The threshold pre-filter is redundant for the purge decision: for every version
history and every `N`, `computeAndPrintVersionsInfo` applied to the history as it is
returns the same purge list as when `ignoreFilesWithFewerVersions` is applied first, the
same targets in the same order; for the walk alone purges no record of a key with at most
`N` records. -/
theorem prefilter_redundant (S : SliceSorter) (N : Int) (bucket : String)
    (fv : FileVersions) :
    (computeAndPrintVersionsInfo S N bucket fv).versionsToDelete =
      (evaluate S N bucket fv).versionsToDelete ∧
    (∀ entry ∈ fv, (entry.2.length : Int) ≤ N → purgedFrom N 0 (S.sort entry.2) = []) := by
  constructor
  · rw [evaluate, computeAndPrintVersionsInfo_purgedRecords,
      computeAndPrintVersionsInfo_purgedRecords, purgedRecords_ignore]
  · intro entry _ hshort
    exact purgedFrom_eq_nil_of_short N _ 0 (by rw [length_sort]; omega)

end DeleteS3Versions
